import Mathlib

/-!
# bataille_cpp: the card game "War" with cycle detection

A shallow embedding of `src/bataille.h` and `src/bataille.cc`.

* `Card` is `uint8_t`; it is a natural number here and the one place where the
  source narrows an `unsigned` to a `Card` (`Deck::Make`) reduces modulo 256.
* A `Hand` is the ring buffer of the source: the array `buffer_` and the two
  cursors `start_` and `end_`, kept as indices into the array.
* Code that can abort returns `Except Fault`: `Fault.assertion` is a failed
  `assert`, `Fault.fuel` is a loop that was cut off by its fuel.
* An `unsigned` is a natural number, and the arithmetic of the source that can
  leave the range reduces modulo 2^32 (`u32`): the product of
  `Deck::num_cards`, the `max_cards + 1` of `Hand::Hand`, and the step counter
  of `GameArena::PlayImpl` with its `2 * steps` and `2 * steps + 1`. The counter
  `num_ties_` stays below the number of cards; the loop counters of
  `Deck::Make` and the 64-bit counters of `Stats` are not reduced.
* The output to `std::cout` in `GameArena::Play` and the `double num_games` of
  `Stats` are left out.
-/

namespace bataille

/-! ## Data model -/

/-- Card values: `using Card = uint8_t`. -/
abbrev Card := Nat

/-- Why a run stopped without a value. -/
inductive Fault where
  | assertion
  | fuel
  deriving DecidableEq, Repr

/-- The `assert` of `<cassert>`. -/
def assertThat (b : Bool) : Except Fault Unit :=
  if b then Except.ok () else Except.error Fault.assertion

/-- `struct Deck`. -/
structure Deck where
  colors : Nat
  values : Nat
  deriving DecidableEq, Repr

/-- The value of an `unsigned` expression: arithmetic modulo 2^32. -/
def u32 (n : Nat) : Nat := n % 2 ^ 32

/-- `Deck::num_cards`: the `unsigned` product `colors * values`. -/
def Deck.num_cards (d : Deck) : Nat := u32 (d.colors * d.values)

/-- `Deck::Seq`. -/
def Deck.Seq (values : Nat) : Deck := { colors := 1, values := values }

/-- The inner loop of `Deck::Make`: `colors` times `push_back(i)`, the `unsigned`
`i` narrowed to a `Card`. -/
def Deck.MakeInner (i : Nat) : Nat → List Card → List Card
  | 0, cards => cards
  | j + 1, cards => Deck.MakeInner i j (cards ++ [i % 256])

/-- The outer loop of `Deck::Make`, `for (i = from; i <= values; ++i)`, with `todo`
the number of iterations left. -/
def Deck.MakeOuter (colors : Nat) : Nat → Nat → List Card → List Card
  | 0, _, cards => cards
  | todo + 1, i, cards => Deck.MakeOuter colors todo (i + 1) (Deck.MakeInner i colors cards)

/-- `Deck::Make`. -/
def Deck.Make (d : Deck) : List Card :=
  Deck.MakeOuter d.colors d.values 1 []

/-- `enum class Strategy`, with the `kOptimized` that `bataille.cc` uses. -/
inductive Strategy where
  | kNatural
  | kOptimized
  deriving DecidableEq, Repr

/-- `class Hand`: a circular array; `start_` and `end_` are offsets into `buffer_`,
and `buffer_end_` is `buffer_.length`. -/
structure Hand where
  buffer_ : List Card
  start_ : Nat
  end_ : Nat
  deriving DecidableEq, Repr

/-- `Hand::buffer_size`. -/
def Hand.buffer_size (h : Hand) : Nat := h.buffer_.length

/-- `Hand::Hand(unsigned max_cards)`: the array has `max_cards + 1` slots, computed
in `unsigned`. For `max_cards = 2 ^ 32 - 1` that is an array without a slot; the
`buffer_end_` of the source then points outside the array, and here it is the end of
the array, so that `Hand::Assign` refuses every deal. -/
def Hand.new (max_cards : Nat) : Hand :=
  { buffer_ := List.replicate (u32 (max_cards + 1)) 0, start_ := 0, end_ := 0 }

/-- `Hand::Assign`: `cards` is the memory at the source pointer. -/
def Hand.Assign (h : Hand) (cards : List Card) (n : Nat) : Except Fault Hand := do
  assertThat (decide (n < h.buffer_size))
  pure { buffer_ := cards.take n ++ h.buffer_.drop n, start_ := 0, end_ := n }

/-- `Hand::empty`. -/
def Hand.empty (h : Hand) : Bool := h.start_ == h.end_

/-- `Hand::Pop`. -/
def Hand.Pop (h : Hand) : Except Fault (Card × Hand) := do
  assertThat (!h.empty)
  let card := h.buffer_.getD h.start_ 0
  let start := h.start_ + 1
  let start := if start == h.buffer_size then 0 else start
  pure (card, { h with start_ := start })

/-- `Hand::Push`. -/
def Hand.Push (h : Hand) (card : Card) : Hand :=
  let buffer := h.buffer_.set h.end_ card
  let stop := h.end_ + 1
  let stop := if stop == h.buffer_size then 0 else stop
  { h with buffer_ := buffer, end_ := stop }

/-- The loop body `Push(*c); Push(*c);` over the cards in the order given. -/
def Hand.PushTwice : Hand → List Card → Hand
  | h, [] => h
  | h, c :: cs => Hand.PushTwice ((h.Push c).Push c) cs

/-- The loop `while (c != end && p(*c)) { Push(*c); Push(*c); ++c; }`; returns the
hand and the cards from `c` on. -/
def Hand.PushTwiceWhile (p : Card → Bool) : Hand → List Card → Hand × List Card
  | h, [] => (h, [])
  | h, c :: cs => if p c then Hand.PushTwiceWhile p ((h.Push c).Push c) cs else (h, c :: cs)

/-- `Hand::PushAll`. Returns the hand and the span `cards`, which the optimized
strategy sorts in place. -/
def Hand.PushAll (h : Hand) (hi lo : Card) (cards : List Card) (strategy : Strategy) :
    Except Fault (Hand × List Card) := do
  assertThat (decide (lo < hi))
  match strategy with
  | Strategy.kNatural =>
    let h := (h.Push hi).Push lo
    if !cards.isEmpty then
      pure (h.PushTwice cards.reverse, cards)
    else
      pure (h, cards)
  | Strategy.kOptimized =>
    if cards.isEmpty then
      pure ((h.Push hi).Push lo, cards)
    else
      let cards := cards.insertionSort (fun a b => b ≤ a)
      let (h, c) := h.PushTwiceWhile (fun x => decide (hi < x)) cards
      let h := h.Push hi
      let (h, c) := h.PushTwiceWhile (fun x => decide (lo < x)) c
      let h := h.Push lo
      let (h, _) := h.PushTwiceWhile (fun _ => true) c
      pure (h, cards)

/-- The loop of `operator==(const Hand&, const Hand&)`. -/
def Hand.eqLoop (l r : Hand) : Nat → Nat → Nat → Except Fault Bool
  | 0, _, _ => Except.error Fault.fuel
  | fuel + 1, lc, rc =>
    if lc != l.end_ && rc != r.end_ then
      if l.buffer_.getD lc 0 != r.buffer_.getD rc 0 then
        pure false
      else
        let lc := lc + 1
        let lc := if lc == l.buffer_size then 0 else lc
        let rc := rc + 1
        let rc := if rc == r.buffer_size then 0 else rc
        Hand.eqLoop l r fuel lc rc
    else
      pure (lc == l.end_ && rc == r.end_)

/-- `operator==(const Hand&, const Hand&)`. -/
def Hand.eq (l r : Hand) : Except Fault Bool := do
  assertThat (l.buffer_size == r.buffer_size)
  Hand.eqLoop l r l.buffer_size l.start_ r.start_

/-- `enum class Game::Winner`. -/
inductive Winner where
  | kLeft
  | kRight
  | kDraw
  | kCycle
  deriving DecidableEq, Repr

/-- `struct Game::Result`. -/
structure Result where
  winner : Winner
  num_steps : Nat
  deriving DecidableEq, Repr

/-- `class Game`. -/
structure Game where
  deck_ : Deck
  l_ : Hand
  r_ : Hand
  ties_ : List Card
  num_ties_ : Nat
  deriving DecidableEq, Repr

/-- `Game::Game(Deck deck)`. -/
def Game.new (deck : Deck) : Game :=
  { deck_ := deck
    l_ := Hand.new deck.num_cards
    r_ := Hand.new deck.num_cards
    ties_ := List.replicate deck.num_cards 0
    num_ties_ := 0 }

/-- `Game::Deal`. -/
def Game.Deal (g : Game) (cards : List Card) : Except Fault Game := do
  assertThat (cards.length == g.deck_.num_cards)
  let l ← g.l_.Assign cards (cards.length / 2)
  let r ← g.r_.Assign (cards.drop (cards.length / 2)) (cards.length - cards.length / 2)
  pure { g with l_ := l, r_ := r }

/-- The `while (cl == cr)` loop of `Game::Step` and the code after it. -/
def Game.StepLoop (strategy : Strategy) : Nat → Game → Card → Card → Except Fault (Bool × Game)
  | 0, _, _, _ => Except.error Fault.fuel
  | fuel + 1, g, cl, cr =>
    if cl == cr then do
      let g := { g with ties_ := g.ties_.set g.num_ties_ cl, num_ties_ := g.num_ties_ + 1 }
      if g.l_.empty || g.r_.empty then
        pure (true, { g with num_ties_ := 0 })
      else
        let (cl, l) ← g.l_.Pop
        let (cr, r) ← g.r_.Pop
        Game.StepLoop strategy fuel { g with l_ := l, r_ := r } cl cr
    else do
      let span := g.ties_.take g.num_ties_
      let g ←
        if cr < cl then do
          let (l, span) ← g.l_.PushAll cl cr span strategy
          pure { g with l_ := l, ties_ := span ++ g.ties_.drop g.num_ties_ }
        else do
          let (r, span) ← g.r_.PushAll cr cl span strategy
          pure { g with r_ := r, ties_ := span ++ g.ties_.drop g.num_ties_ }
      let g := { g with num_ties_ := 0 }
      pure (g.l_.empty || g.r_.empty, g)

/-- `Game::Step`. The tie loop pops a card of each hand per iteration, so it runs
at most `buffer_size` times. -/
def Game.Step (g : Game) (strategy : Strategy) : Except Fault (Bool × Game) := do
  assertThat (g.num_ties_ == 0)
  let (cl, l) ← g.l_.Pop
  let (cr, r) ← g.r_.Pop
  Game.StepLoop strategy g.l_.buffer_size { g with l_ := l, r_ := r } cl cr

/-- `operator==(const Game&, const Game&)`. -/
def Game.eq (lhs rhs : Game) : Except Fault Bool := do
  assertThat (lhs.num_ties_ == 0)
  assertThat (rhs.num_ties_ == 0)
  assertThat (lhs.deck_.colors == rhs.deck_.colors)
  assertThat (lhs.deck_.values == rhs.deck_.values)
  if ← Hand.eq lhs.l_ rhs.l_ then Hand.eq lhs.r_ rhs.r_ else pure false

/-- `Game::GetWinner`. -/
def Game.GetWinner (g : Game) : Winner :=
  if g.l_.empty && g.r_.empty then Winner.kDraw
  else if g.l_.empty then Winner.kRight else Winner.kLeft

/-- `struct GameArena::Stats`, without `num_games`. -/
structure Stats where
  num_played : Nat
  num_played_with_cycle : Nat
  longest_len : Nat
  longest : Game
  shortest_with_cycle_len : Nat
  shortest_with_cycle : Game
  deriving DecidableEq, Repr

/-- `GameArena::Stats::Stats(Deck deck)`. -/
def Stats.new (deck : Deck) : Stats :=
  { num_played := 0
    num_played_with_cycle := 0
    longest_len := 0
    longest := Game.new deck
    shortest_with_cycle_len := 2 ^ 32 - 1
    shortest_with_cycle := Game.new deck }

/-- `class GameArena`. -/
structure GameArena where
  slow_ : Game
  fast_ : Game
  stats_ : Stats
  deriving DecidableEq, Repr

/-- `GameArena::GameArena(Deck deck)`. -/
def GameArena.new (deck : Deck) : GameArena :=
  { slow_ := Game.new deck, fast_ := Game.new deck, stats_ := Stats.new deck }

/-- What a run of `PlayImpl` leaves: the result, the arena, and (a ghost value) the
number of `fast_.Step` calls made. -/
structure PlayOut where
  result : Result
  arena : GameArena
  fast_steps : Nat
  deriving DecidableEq, Repr

/-- The `while (slow_ != fast_)` loop of `GameArena::PlayImpl`; `steps` is the
`unsigned steps` of the source, and `calls` counts the calls of `fast_.Step` so
far. -/
def GameArena.PlayLoop (strategy : Strategy) :
    Nat → GameArena → Nat → Nat → Except Fault PlayOut
  | 0, _, _, _ => Except.error Fault.fuel
  | fuel + 1, a, steps, calls => do
    if !(← Game.eq a.slow_ a.fast_) then
      let (_, slow) ← a.slow_.Step strategy
      let a := { a with slow_ := slow }
      let (done, fast) ← a.fast_.Step strategy
      let a := { a with fast_ := fast }
      if done then
        pure { result := { winner := a.fast_.GetWinner, num_steps := u32 (2 * steps) },
               arena := a, fast_steps := calls + 1 }
      else
        let (done, fast) ← a.fast_.Step strategy
        let a := { a with fast_ := fast }
        if done then
          pure { result := { winner := a.fast_.GetWinner, num_steps := u32 (2 * steps + 1) },
                 arena := a, fast_steps := calls + 2 }
        else
          GameArena.PlayLoop strategy fuel a (u32 (steps + 1)) (calls + 2)
    else
      pure { result := { winner := Winner.kCycle, num_steps := steps },
             arena := a, fast_steps := calls }

/-- `GameArena::PlayImpl`; `fuel` bounds the iterations of its loop. -/
def GameArena.PlayImpl (fuel : Nat) (a : GameArena) (cards : List Card) (strategy : Strategy) :
    Except Fault PlayOut :=
  if cards.length == 0 then
    pure { result := { winner := Winner.kDraw, num_steps := 0 }, arena := a, fast_steps := 0 }
  else if cards.length == 1 then
    pure { result := { winner := Winner.kRight, num_steps := 0 }, arena := a, fast_steps := 0 }
  else do
    let slow ← a.slow_.Deal cards
    let a := { a with slow_ := slow }
    let fast ← a.fast_.Deal cards
    let a := { a with fast_ := fast }
    let (done, fast) ← a.fast_.Step strategy
    let a := { a with fast_ := fast }
    if done then
      pure { result := { winner := a.fast_.GetWinner, num_steps := 1 },
             arena := a, fast_steps := 1 }
    else
      GameArena.PlayLoop strategy fuel a 1 1

/-- `GameArena::Play`. -/
def GameArena.Play (fuel : Nat) (a : GameArena) (cards : List Card) (strategy : Strategy) :
    Except Fault PlayOut := do
  let out ← a.PlayImpl fuel cards strategy
  let result := out.result
  let stats := out.arena.stats_
  let stats ←
    if result.winner == Winner.kCycle then do
      let stats := { stats with num_played_with_cycle := stats.num_played_with_cycle + 1 }
      if result.num_steps < stats.shortest_with_cycle_len then
        let g ← stats.shortest_with_cycle.Deal cards
        pure { stats with shortest_with_cycle_len := result.num_steps, shortest_with_cycle := g }
      else
        pure stats
    else if result.num_steps > stats.longest_len then do
      let g ← stats.longest.Deal cards
      pure { stats with longest_len := result.num_steps, longest := g }
    else
      pure stats
  let stats := { stats with num_played := stats.num_played + 1 }
  pure { out with arena := { out.arena with stats_ := stats } }

/-! ## Abstraction: the logical content of a hand -/

/-- The logical sequence of a hand, front to back: the cards from `start_` up to
`end_`, around the end of the buffer when `end_` is before `start_`. -/
def Hand.toList (h : Hand) : List Card :=
  if h.start_ ≤ h.end_ then (h.buffer_.take h.end_).drop h.start_
  else h.buffer_.drop h.start_ ++ h.buffer_.take h.end_

/-- Both cursors point into the buffer. -/
structure Hand.WF (h : Hand) : Prop where
  start_lt : h.start_ < h.buffer_.length
  end_lt : h.end_ < h.buffer_.length

/-- The hand `h` is a well-formed ring buffer of `cap` slots that holds `xs`. -/
def Hand.Rep (cap : Nat) (h : Hand) (xs : List Card) : Prop :=
  h.WF ∧ h.buffer_size = cap ∧ h.toList = xs

/-- Every card twice, in order. -/
def dup : List Card → List Card
  | [] => []
  | c :: cs => c :: c :: dup cs

/-- The cards `Hand::PushAll` appends, as a list. -/
def pushed (strategy : Strategy) (hi lo : Card) (ties : List Card) : List Card :=
  match strategy with
  | Strategy.kNatural => hi :: lo :: dup ties.reverse
  | Strategy.kOptimized =>
    let sorted := ties.insertionSort (fun a b => b ≤ a)
    let rest := sorted.dropWhile (fun x => decide (hi < x))
    dup (sorted.takeWhile (fun x => decide (hi < x))) ++ hi ::
      (dup (rest.takeWhile (fun x => decide (lo < x))) ++ lo ::
        dup (rest.dropWhile (fun x => decide (lo < x))))

/-! ## Abstraction: positions and rounds -/

/-- A position: the logical contents of the left and of the right hand. -/
abbrev Position := List Card × List Card

/-- The position of a game. -/
def Game.position (g : Game) : Position := (g.l_.toList, g.r_.toList)

/-- The value `Game::Step` returns at its end, `l_.empty() || r_.empty()`. -/
def Game.done (g : Game) : Bool := g.l_.empty || g.r_.empty

/-- A position is terminal when a hand is empty. -/
def Position.done (x : Position) : Bool := x.1.isEmpty || x.2.isEmpty

/-- `Game::GetWinner` on positions. -/
def Position.winner (x : Position) : Winner :=
  if x.1.isEmpty && x.2.isEmpty then Winner.kDraw
  else if x.1.isEmpty then Winner.kRight else Winner.kLeft

/-- One round on lists: `ties` are the tied values so far, first tie first. -/
def roundLoop (strategy : Strategy) : List Card → List Card → List Card → Position
  | ties, cl :: l, cr :: r =>
    if cl = cr then
      if l.isEmpty || r.isEmpty then (l, r) else roundLoop strategy (ties ++ [cl]) l r
    else if cr < cl then (l ++ pushed strategy cl cr ties, r)
    else (l, r ++ pushed strategy cr cl ties)
  | _, l, r => (l, r)

/-- One round on positions; a terminal position stays as it is. -/
def round (strategy : Strategy) (x : Position) : Position :=
  roundLoop strategy [] x.1 x.2

/-- The game `g` is well formed, has no pending tie and is at position `x`. -/
def Game.Rep (g : Game) (x : Position) : Prop :=
  Hand.Rep (g.deck_.num_cards + 1) g.l_ x.1 ∧ Hand.Rep (g.deck_.num_cards + 1) g.r_ x.2 ∧
    g.ties_.length = g.deck_.num_cards ∧ g.num_ties_ = 0

/-- The invariant of `class Game`: the cursors are inside the buffers, the buffers
have the sizes the constructor gave them, and the hands hold at most `num_cards`
cards together. -/
structure Game.Inv (g : Game) : Prop where
  l_wf : g.l_.WF
  r_wf : g.r_.WF
  l_size : g.l_.buffer_size = g.deck_.num_cards + 1
  r_size : g.r_.buffer_size = g.deck_.num_cards + 1
  ties_size : g.ties_.length = g.deck_.num_cards
  total : g.l_.toList.length + g.r_.toList.length ≤ g.deck_.num_cards

/-- The position after `i` rounds from `x0`. -/
def positionAt (strategy : Strategy) (x0 : Position) : Nat → Position
  | 0 => x0
  | i + 1 => round strategy (positionAt strategy x0 i)

/-- The position `Game::Deal` sets up. -/
def dealt (cards : List Card) : Position :=
  (cards.take (cards.length / 2), cards.drop (cards.length / 2))

/-- `n` calls of `Game::Step` in a row. -/
def Game.StepN (strategy : Strategy) : Nat → Game → Except Fault Game
  | 0, g => pure g
  | n + 1, g => do
    let g ← Game.StepN strategy n g
    let (_, g) ← g.Step strategy
    pure g

/-- The loop of `GameArena::PlayImpl` on the sequence of positions: in iteration `k`
the slow game is at position `k - 1` and the fast game at position `2 * k - 1`. The
step count of the result is the `unsigned` of the source; the second component is
the number of rounds the fast game has played. -/
def detect (strategy : Strategy) (x0 : Position) : Nat → Nat → Except Fault (Result × Nat)
  | 0, _ => Except.error Fault.fuel
  | fuel + 1, k =>
    if positionAt strategy x0 (k - 1) = positionAt strategy x0 (2 * k - 1) then
      Except.ok ({ winner := Winner.kCycle, num_steps := u32 k }, 2 * k - 1)
    else if (positionAt strategy x0 (2 * k)).done then
      Except.ok ({ winner := (positionAt strategy x0 (2 * k)).winner,
                   num_steps := u32 (2 * k) }, 2 * k)
    else if (positionAt strategy x0 (2 * k + 1)).done then
      Except.ok ({ winner := (positionAt strategy x0 (2 * k + 1)).winner,
                   num_steps := u32 (2 * k + 1) }, 2 * k + 1)
    else detect strategy x0 fuel (k + 1)

/-- `GameArena::PlayImpl` on positions, for an arena of the deck `deck`. A deck of
`2 ^ 32 - 1` cards has hands without a slot, and `Hand::Assign` refuses every
deal. -/
def playSpec (deck : Deck) (fuel : Nat) (cards : List Card) (strategy : Strategy) :
    Except Fault (Result × Nat) :=
  if cards.length = 0 then Except.ok ({ winner := Winner.kDraw, num_steps := 0 }, 0)
  else if cards.length = 1 then Except.ok ({ winner := Winner.kRight, num_steps := 0 }, 0)
  else if cards.length ≠ deck.num_cards then Except.error Fault.assertion
  else if ¬ deck.num_cards + 1 < 2 ^ 32 then Except.error Fault.assertion
  else if (positionAt strategy (dealt cards) 1).done then
    Except.ok ({ winner := (positionAt strategy (dealt cards) 1).winner, num_steps := 1 }, 1)
  else detect strategy (dealt cards) fuel 1

/-- The result and the count of fast rounds of a run. -/
def PlayOut.summary (out : PlayOut) : Result × Nat := (out.result, out.fast_steps)

/-- The games of an arena are well-formed games of `deck` with no pending tie. -/
structure GameArena.WF (deck : Deck) (a : GameArena) : Prop where
  slow_deck : a.slow_.deck_ = deck
  fast_deck : a.fast_.deck_ = deck
  longest_deck : a.stats_.longest.deck_ = deck
  shortest_deck : a.stats_.shortest_with_cycle.deck_ = deck
  slow_rep : ∃ x, a.slow_.Rep x
  fast_rep : ∃ x, a.fast_.Rep x
  longest_rep : ∃ x, a.stats_.longest.Rep x
  shortest_rep : ∃ x, a.stats_.shortest_with_cycle.Rep x

/-- The arenas of `deck` a program can hold: a new one, and the one a finished
`Play` leaves. -/
inductive GameArena.Reachable (deck : Deck) : GameArena → Prop where
  | fresh : GameArena.Reachable deck (GameArena.new deck)
  | play (a : GameArena) (fuel : Nat) (cards : List Card) (strategy : Strategy) (out : PlayOut) :
      GameArena.Reachable deck a → a.Play fuel cards strategy = Except.ok out →
      GameArena.Reachable deck out.arena

/-- What the loops of `Deck::Make` append from value `i` on, in `todo` blocks of
`colors` cards. -/
def Deck.blocks (colors : Nat) : Nat → Nat → List Card
  | _, 0 => []
  | i, todo + 1 => List.replicate colors (i % 256) ++ Deck.blocks colors (i + 1) todo

/-! ## Games of `bataille_test.cc` -/

/-- `TEST(Hand, SimpleWithTieThen)`: the game after `Deal`. -/
def tieThenDealt : Game :=
  { deck_ := { colors := 2, values := 3 }
    l_ := { buffer_ := [1, 3, 3, 0, 0, 0, 0], start_ := 0, end_ := 3 }
    r_ := { buffer_ := [1, 2, 2, 0, 0, 0, 0], start_ := 0, end_ := 3 }
    ties_ := [0, 0, 0, 0, 0, 0]
    num_ties_ := 0 }

/-- `TEST(Hand, SimpleWithTieThen)`: the game after two Steps. -/
def tieThenFinal : Game :=
  { deck_ := { colors := 2, values := 3 }
    l_ := { buffer_ := [3, 2, 3, 3, 2, 1, 1], start_ := 3, end_ := 2 }
    r_ := { buffer_ := [1, 2, 2, 0, 0, 0, 0], start_ := 3, end_ := 3 }
    ties_ := [1, 0, 0, 0, 0, 0]
    num_ties_ := 0 }

/-- `TEST(Hand, SimpleWithTie)`: the game after `Deal`. -/
def tieDealt : Game :=
  { deck_ := { colors := 2, values := 1 }
    l_ := { buffer_ := [1, 0, 0], start_ := 0, end_ := 1 }
    r_ := { buffer_ := [1, 0, 0], start_ := 0, end_ := 1 }
    ties_ := [0, 0]
    num_ties_ := 0 }

/-- `TEST(Hand, LoopC1V5)`: the game both `slow_` and `fast_` are when `Play` returns. -/
def loopMet : Game :=
  { deck_ := { colors := 1, values := 5 }
    l_ := { buffer_ := [5, 3, 5, 2, 5, 1], start_ := 5, end_ := 2 }
    r_ := { buffer_ := [2, 4, 1, 4, 3, 4], start_ := 5, end_ := 1 }
    ties_ := [0, 0, 0, 0, 0]
    num_ties_ := 0 }

/-- `TEST(Hand, LoopC1V5)`: the arena when `Play` has returned. -/
def loopArena : GameArena :=
  { slow_ := loopMet
    fast_ := loopMet
    stats_ :=
      { num_played := 1
        num_played_with_cycle := 1
        longest_len := 0
        longest := Game.new { colors := 1, values := 5 }
        shortest_with_cycle_len := 6
        shortest_with_cycle :=
          { deck_ := { colors := 1, values := 5 }
            l_ := { buffer_ := [5, 3, 0, 0, 0, 0], start_ := 0, end_ := 2 }
            r_ := { buffer_ := [2, 4, 1, 0, 0, 0], start_ := 0, end_ := 3 }
            ties_ := [0, 0, 0, 0, 0]
            num_ties_ := 0 } } }

/-! ## Drivers of a hand -/

/-- `Hand::Hand(const Hand& other)`: a buffer of the same size with the same contents
and the cursors at the same offsets. -/
def Hand.copy (other : Hand) : Hand :=
  { buffer_ := other.buffer_.take other.buffer_size
    start_ := other.start_
    end_ := other.end_ }

/-- `Push` of the cards of a list, one by one, first card first. -/
def Hand.PushList : Hand → List Card → Hand
  | h, [] => h
  | h, c :: cs => Hand.PushList (h.Push c) cs

/-- `n` calls of `Pop`; returns the cards popped, in the order popped, and the hand. -/
def Hand.PopN : Nat → Hand → Except Fault (List Card × Hand)
  | 0, h => pure ([], h)
  | n + 1, h => do
    let (c, h) ← h.Pop
    let (cs, h) ← Hand.PopN n h
    pure (c :: cs, h)

/-- `TEST(Hand, CopyEquality)`: the hand of capacity 4 after `Push(1)`, `Push(2)`. -/
def copyOriginal : Hand := ((Hand.new 4).Push 1).Push 2

/-- `TEST(Hand, CopyEquality)`: the copy after `Pop`, `Pop`, `Push(1)`, `Push(2)`. -/
def copyRepushed : Hand :=
  { buffer_ := [1, 2, 1, 2, 0], start_ := 2, end_ := 4 }

/-! ## Swapping the players -/

/-- The position with the two hands exchanged. -/
def Position.swap (x : Position) : Position := (x.2, x.1)

/-- The winner with the two players exchanged. -/
def Winner.mirror : Winner → Winner
  | Winner.kLeft => Winner.kRight
  | Winner.kRight => Winner.kLeft
  | Winner.kDraw => Winner.kDraw
  | Winner.kCycle => Winner.kCycle

/-- The result with the two players exchanged: the same `num_steps`. -/
def Result.mirror (r : Result) : Result :=
  { winner := r.winner.mirror, num_steps := r.num_steps }

/-! ## The plays of an arena -/

/-- The plays an arena has finished since its construction, oldest first, each with
the cards dealt and the result returned, and the arena they leave. -/
inductive GameArena.Played (deck : Deck) : List (List Card × Result) → GameArena → Prop where
  | fresh : GameArena.Played deck [] (GameArena.new deck)
  | play (hist : List (List Card × Result)) (a : GameArena) (fuel : Nat) (cards : List Card)
      (strategy : Strategy) (out : PlayOut) :
      GameArena.Played deck hist a → a.Play fuel cards strategy = Except.ok out →
      GameArena.Played deck (hist ++ [(cards, out.result)]) out.arena

/-- The `num_steps` of the `Cycle` results of a history. -/
def cycleSteps (hist : List (List Card × Result)) : List Nat :=
  (hist.filter (fun p => p.2.winner == Winner.kCycle)).map (fun p => p.2.num_steps)

/-- The `num_steps` of the results of a history that are not `Cycle`. -/
def finishedSteps (hist : List (List Card × Result)) : List Nat :=
  (hist.filter (fun p => p.2.winner != Winner.kCycle)).map (fun p => p.2.num_steps)

/-- The statistics as a fold of the results, in the words of the spec: `num_played` is
the number of calls, `num_played_with_cycle` the number of `Cycle` results,
`longest_len` the maximum `num_steps` over the other results (0 if none) with `longest`
holding the deal of the earliest play attaining it, `shortest_with_cycle_len` the
minimum `num_steps` over the `Cycle` results (unsigned max if none) with
`shortest_with_cycle` holding the deal of the earliest play attaining it. -/
def Stats.FoldOfResults (st : Stats) (hist : List (List Card × Result)) : Prop :=
  st.num_played = hist.length ∧
  st.num_played_with_cycle = (cycleSteps hist).length ∧
  st.longest_len = (finishedSteps hist).foldl max 0 ∧
  (∀ cards r, hist.find? (fun p => p.2.winner != Winner.kCycle &&
      p.2.num_steps == st.longest_len) = some (cards, r) →
    st.longest.position = dealt cards) ∧
  st.shortest_with_cycle_len = (cycleSteps hist).foldl min (2 ^ 32 - 1) ∧
  (∀ cards r, hist.find? (fun p => p.2.winner == Winner.kCycle &&
      p.2.num_steps == st.shortest_with_cycle_len) = some (cards, r) →
    st.shortest_with_cycle.position = dealt cards)

/-! ## Tied values and deciding cards -/

/-- No value of the tie buffer of the next Step of `g` is a deciding card: whenever
the hands are `ts ++ a :: L` and `ts ++ b :: R` with `a != b`, so that the Step ties on
the values `ts` and then calls `PushAll` with the cards `a` and `b` and the tie buffer
`ts`, no value of `ts` is `a` or `b`. -/
def Game.TiesDistinct (g : Game) : Prop :=
  ∀ (ts L R : List Card) (a b : Card), g.l_.toList = ts ++ a :: L →
    g.r_.toList = ts ++ b :: R → a ≠ b → ∀ t : Nat, t ∈ ts → t ≠ a ∧ t ≠ b

/-- A deal of the deck of 3 colors and 2 values: left `[2, 2, 1]`, right `[2, 1, 1]`. -/
def threeColorsDealt : Game :=
  { deck_ := { colors := 3, values := 2 }
    l_ := { buffer_ := [2, 2, 1, 0, 0, 0, 0], start_ := 0, end_ := 3 }
    r_ := { buffer_ := [2, 1, 1, 0, 0, 0, 0], start_ := 0, end_ := 3 }
    ties_ := [0, 0, 0, 0, 0, 0]
    num_ties_ := 0 }

/-! ## Guarded pushes

The code of `Play` once more, with `Push` replaced by a `Push` that carries a ghost
assertion: the ring buffer has not wrapped onto its own front. Nothing else differs. -/

/-- `TEST(Hand, SimpleWithTieThen)`: the game after one Step. -/
def tieThenMid : Game :=
  { deck_ := { colors := 2, values := 3 }
    l_ := { buffer_ := [1, 3, 3, 3, 2, 1, 1], start_ := 2, end_ := 0 }
    r_ := { buffer_ := [1, 2, 2, 0, 0, 0, 0], start_ := 2, end_ := 3 }
    ties_ := [1, 0, 0, 0, 0, 0]
    num_ties_ := 0 }

/-- `TEST(Hand, SimpleWithTie)`: the game after its Step. -/
def tieFinal : Game :=
  { deck_ := { colors := 2, values := 1 }
    l_ := { buffer_ := [1, 0, 0], start_ := 1, end_ := 1 }
    r_ := { buffer_ := [1, 0, 0], start_ := 1, end_ := 1 }
    ties_ := [1, 0]
    num_ties_ := 0 }

/-! ## The ring buffer holds a list -/

theorem Hand.toList_length (h : Hand) (hw : h.WF) :
    h.toList.length = if h.start_ ≤ h.end_ then h.end_ - h.start_
      else h.buffer_.length - h.start_ + h.end_ := by
  obtain ⟨h1, h2⟩ := hw
  unfold Hand.toList
  split
  · simp [List.length_take]; omega
  · simp [List.length_take]; omega

theorem Hand.toList_length_lt (h : Hand) (hw : h.WF) :
    h.toList.length < h.buffer_size := by
  rw [Hand.toList_length h hw]
  obtain ⟨h1, h2⟩ := hw
  unfold Hand.buffer_size
  split <;> omega

theorem Hand.empty_iff (h : Hand) (hw : h.WF) : h.empty = true ↔ h.toList = [] := by
  rw [← List.length_eq_zero, Hand.toList_length h hw]
  obtain ⟨h1, h2⟩ := hw
  unfold Hand.empty
  simp only [beq_iff_eq]
  split <;> omega

theorem List.getD_zero_of_lt (l : List Nat) (i : Nat) (h : i < l.length) : l.getD i 0 = l[i] := by
  simp [List.getD_eq_getElem?_getD, List.getElem?_eq_getElem h]

theorem Hand.toList_pop (h : Hand) (hw : h.WF) (hne : h.start_ ≠ h.end_) :
    h.toList = h.buffer_.getD h.start_ 0 ::
      Hand.toList { h with start_ := if h.start_ + 1 = h.buffer_.length then 0 else h.start_ + 1 } := by
  obtain ⟨h1, h2⟩ := hw
  rw [List.getD_zero_of_lt _ _ h1]
  unfold Hand.toList
  simp only
  by_cases hle : h.start_ ≤ h.end_
  · have hlt : h.start_ < h.end_ := by omega
    have h3 : ¬ (h.start_ + 1 = h.buffer_.length) := by omega
    simp only [hle, h3, if_true, if_false, show h.start_ + 1 ≤ h.end_ from hlt]
    rw [List.drop_eq_getElem_cons (by simp [List.length_take]; omega)]
    simp [List.getElem_take]
  · simp only [hle, if_false]
    rw [List.drop_eq_getElem_cons h1]
    by_cases h3 : h.start_ + 1 = h.buffer_.length
    · simp [h3]
    · have : ¬ (h.start_ + 1 ≤ h.end_) := by omega
      simp only [h3, this, if_false, List.cons_append]

theorem List.set_eq_take_append_cons (l : List Nat) (i : Nat) (c : Nat) (h : i < l.length) :
    l.set i c = l.take i ++ c :: l.drop (i + 1) := by
  rw [List.set_eq_take_append_cons_drop, if_pos h]

theorem List.take_succ_set (l : List Nat) (i : Nat) (c : Nat) (h : i < l.length) :
    (l.set i c).take (i + 1) = l.take i ++ [c] := by
  rw [List.set_eq_take_append_cons l i c h, List.take_append_eq_append_take]
  have : (List.take i l).length = i := by simp [List.length_take]; omega
  simp [this, List.take_take]

theorem List.set_last (l : List Nat) (i : Nat) (c : Nat) (h : i + 1 = l.length) :
    l.set i c = l.take i ++ [c] := by
  rw [List.set_eq_take_append_cons l i c (by omega), h]
  simp

theorem Hand.toList_push (h : Hand) (hw : h.WF) (c : Card)
    (hroom : h.toList.length + 1 < h.buffer_size) :
    (h.Push c).WF ∧ (h.Push c).buffer_size = h.buffer_size ∧
      (h.Push c).toList = h.toList ++ [c] := by
  have hlen := Hand.toList_length h hw
  obtain ⟨h1, h2⟩ := hw
  unfold Hand.buffer_size at hroom
  rw [hlen] at hroom
  unfold Hand.Push Hand.toList Hand.buffer_size
  simp only [List.length_set, beq_iff_eq]
  have htl : (List.take h.end_ h.buffer_).length = h.end_ := by
    simp [List.length_take]; omega
  by_cases hle : h.start_ ≤ h.end_
  · simp only [hle, if_true] at hroom ⊢
    by_cases h3 : h.end_ + 1 = h.buffer_.length
    · have h4 : ¬ (h.start_ ≤ 0) := by omega
      refine ⟨⟨by simpa using h1, by simp [h3]; omega⟩, trivial, ?_⟩
      simp only [h3, if_true, h4, if_false, List.take_zero, List.append_nil]
      rw [List.set_last _ _ _ h3, List.drop_append_of_le_length (by omega)]
    · refine ⟨⟨by simpa using h1, by simp [h3]; omega⟩, trivial, ?_⟩
      simp only [h3, if_false, show h.start_ ≤ h.end_ + 1 by omega, if_true]
      rw [List.take_succ_set _ _ _ h2, List.drop_append_of_le_length (by omega)]
  · simp only [hle, if_false] at hroom ⊢
    have h3 : ¬ (h.end_ + 1 = h.buffer_.length) := by omega
    refine ⟨⟨by simpa using h1, by simp [h3]; omega⟩, trivial, ?_⟩
    simp only [h3, if_false, show ¬ (h.start_ ≤ h.end_ + 1) by omega]
    rw [List.take_succ_set _ _ _ h2, List.drop_set_of_lt _ _ (by omega), List.append_assoc]

theorem Hand.Assign_spec (h : Hand) (cards : List Card) (n : Nat)
    (hn : n < h.buffer_size) (hc : n ≤ cards.length) :
    ∃ h', h.Assign cards n = Except.ok h' ∧ h'.WF ∧ h'.buffer_size = h.buffer_size ∧
      h'.toList = cards.take n := by
  unfold Hand.buffer_size at hn
  have hl : (List.take n cards ++ List.drop n h.buffer_).length = h.buffer_.length := by
    simp [List.length_take]; omega
  refine ⟨_, by simp [Hand.Assign, assertThat, hn, Hand.buffer_size, bind, Except.bind, pure, Except.pure]; rfl, ⟨?_, ?_⟩, ?_, ?_⟩
  · simp only [hl]; omega
  · simp only [hl]; omega
  · simp only [Hand.buffer_size, hl]
  · simp only [Hand.toList, Nat.zero_le, if_true, List.drop_zero]
    rw [List.take_append_of_le_length (by simp [List.length_take]; omega), List.take_take]
    simp

theorem u32_lt (n : Nat) : u32 n < 2 ^ 32 :=
  Nat.mod_lt n (by decide)

theorem u32_of_lt {n : Nat} (h : n < 2 ^ 32) : u32 n = n :=
  Nat.mod_eq_of_lt h

theorem u32_succ (n : Nat) : u32 (u32 n + 1) = u32 (n + 1) := by
  unfold u32; omega

theorem u32_two_mul (n : Nat) : u32 (2 * u32 n) = u32 (2 * n) := by
  unfold u32; omega

theorem u32_two_mul_succ (n : Nat) : u32 (2 * u32 n + 1) = u32 (2 * n + 1) := by
  unfold u32; omega

theorem Deck.num_cards_lt (d : Deck) : d.num_cards < 2 ^ 32 :=
  u32_lt _

theorem Hand.new_spec (n : Nat) (hn : n + 1 < 2 ^ 32) :
    (Hand.new n).WF ∧ (Hand.new n).buffer_size = n + 1 ∧ (Hand.new n).toList = [] := by
  refine ⟨⟨by simp [Hand.new, u32_of_lt hn], by simp [Hand.new, u32_of_lt hn]⟩,
    by simp [Hand.new, Hand.buffer_size, u32_of_lt hn], ?_⟩
  simp [Hand.new, Hand.toList]

theorem Hand.Rep_of_new (n : Nat) (hn : n + 1 < 2 ^ 32) : Hand.Rep (n + 1) (Hand.new n) [] :=
  Hand.new_spec n hn

/-- A hand made for `2 ^ 32 - 1` cards has no slot. -/
theorem Hand.new_no_slot {n : Nat} (hn : n < 2 ^ 32) (hd : ¬ n + 1 < 2 ^ 32) :
    (Hand.new n).buffer_size = 0 := by
  have : u32 (n + 1) = 0 := by unfold u32; omega
  simp [Hand.new, Hand.buffer_size, this]

theorem Hand.Rep_length_lt {cap : Nat} {h : Hand} {xs : List Card} (hr : Hand.Rep cap h xs) :
    xs.length < cap := by
  obtain ⟨hw, hc, hx⟩ := hr
  rw [← hc, ← hx]
  exact Hand.toList_length_lt h hw

theorem Hand.Rep_empty {cap : Nat} {h : Hand} {xs : List Card} (hr : Hand.Rep cap h xs) :
    h.empty = xs.isEmpty := by
  obtain ⟨hw, hc, hx⟩ := hr
  have := Hand.empty_iff h hw
  rw [hx] at this
  cases xs with
  | nil => simpa using this
  | cons x xs =>
    simp only [List.isEmpty_cons]
    cases he : h.empty with
    | false => rfl
    | true => simp [he] at this

theorem Hand.Pop_nil {cap : Nat} {h : Hand} (hr : Hand.Rep cap h []) :
    h.Pop = Except.error Fault.assertion := by
  have he := Hand.Rep_empty hr
  simp [Hand.Pop, he, assertThat, bind, Except.bind]

theorem Hand.Pop_cons {cap : Nat} {h : Hand} {c : Card} {cs : List Card}
    (hr : Hand.Rep cap h (c :: cs)) :
    ∃ h', h.Pop = Except.ok (c, h') ∧ Hand.Rep cap h' cs := by
  have he := Hand.Rep_empty hr
  obtain ⟨hw, hc, hx⟩ := hr
  have hne : h.start_ ≠ h.end_ := by
    intro heq
    simp [Hand.empty, heq] at he
  have hp := Hand.toList_pop h hw hne
  rw [hx] at hp
  injection hp with h1 h2
  refine ⟨{ h with start_ := if h.start_ + 1 = h.buffer_.length then 0 else h.start_ + 1 }, ?_, ⟨?_, ?_⟩, hc, h2.symm⟩
  · simp [Hand.Pop, he, assertThat, bind, Except.bind, pure, Except.pure, Hand.buffer_size, h1]
  · show (if h.start_ + 1 = h.buffer_.length then 0 else h.start_ + 1) < h.buffer_.length
    have := hw.start_lt
    split <;> omega
  · exact hw.end_lt

theorem Hand.Push_rep {cap : Nat} {h : Hand} {xs : List Card} (hr : Hand.Rep cap h xs) (c : Card)
    (hroom : xs.length + 1 < cap) : Hand.Rep cap (h.Push c) (xs ++ [c]) := by
  obtain ⟨hw, hc, hx⟩ := hr
  have := Hand.toList_push h hw c (by rw [hx, hc]; exact hroom)
  exact ⟨this.1, by rw [this.2.1, hc], by rw [this.2.2, hx]⟩

theorem dup_length (cs : List Card) : (dup cs).length = 2 * cs.length := by
  induction cs with
  | nil => rfl
  | cons c cs ih => simp [dup, ih]; omega

theorem dup_append (as bs : List Card) : dup (as ++ bs) = dup as ++ dup bs := by
  induction as with
  | nil => rfl
  | cons c cs ih => simp [dup, ih]

theorem Hand.PushTwice_rep {cap : Nat} (cs : List Card) :
    ∀ {h : Hand} {xs : List Card}, Hand.Rep cap h xs → xs.length + 2 * cs.length < cap →
      Hand.Rep cap (h.PushTwice cs) (xs ++ dup cs) := by
  induction cs with
  | nil => intro h xs hr _; simpa [Hand.PushTwice, dup] using hr
  | cons c cs ih =>
    intro h xs hr hroom
    simp only [List.length_cons] at hroom
    have h1 := Hand.Push_rep hr c (by omega)
    have h2 := Hand.Push_rep h1 c (by simp; omega)
    have h3 := ih h2 (by simp; omega)
    simpa [Hand.PushTwice, dup] using h3

theorem Hand.PushTwiceWhile_eq (p : Card → Bool) (cs : List Card) :
    ∀ h : Hand, h.PushTwiceWhile p cs = (h.PushTwice (cs.takeWhile p), cs.dropWhile p) := by
  induction cs with
  | nil => intro h; rfl
  | cons c cs ih =>
    intro h
    by_cases hp : p c
    · simp [Hand.PushTwiceWhile, hp, ih, List.takeWhile_cons, List.dropWhile_cons, Hand.PushTwice]
    · simp [Hand.PushTwiceWhile, hp, List.takeWhile_cons, List.dropWhile_cons, Hand.PushTwice]

theorem pushed_length (strategy : Strategy) (hi lo : Card) (ties : List Card) :
    (pushed strategy hi lo ties).length = 2 + 2 * ties.length := by
  cases strategy with
  | kNatural => simp [pushed, dup_length]; omega
  | kOptimized =>
    simp only [pushed, List.length_append, List.length_cons, dup_length]
    have h1 := congrArg List.length (List.takeWhile_append_dropWhile (fun x => decide (hi < x))
      (ties.insertionSort (fun a b => b ≤ a)))
    have h2 := congrArg List.length (List.takeWhile_append_dropWhile (fun x => decide (lo < x))
      ((ties.insertionSort (fun a b => b ≤ a)).dropWhile (fun x => decide (hi < x))))
    simp only [List.length_append, List.length_insertionSort] at h1 h2
    omega

theorem Hand.PushAll_rep {cap : Nat} {h : Hand} {xs : List Card} (hr : Hand.Rep cap h xs)
    (strategy : Strategy) (hi lo : Card) (ties : List Card) (hlt : lo < hi)
    (hroom : xs.length + 2 + 2 * ties.length < cap) :
    ∃ h' span, h.PushAll hi lo ties strategy = Except.ok (h', span) ∧
      Hand.Rep cap h' (xs ++ pushed strategy hi lo ties) ∧ span.length = ties.length := by
  have h1 := Hand.Push_rep hr hi (by omega)
  have h2 := Hand.Push_rep h1 lo (by simp; omega)
  cases strategy with
  | kNatural =>
    cases ties with
    | nil =>
      refine ⟨(h.Push hi).Push lo, [], ?_, ?_, rfl⟩
      · simp [Hand.PushAll, assertThat, hlt, bind, Except.bind, pure, Except.pure]
      · simpa [pushed, dup] using h2
    | cons t ts =>
      refine ⟨((h.Push hi).Push lo).PushTwice (t :: ts).reverse, t :: ts, ?_, ?_, rfl⟩
      · simp [Hand.PushAll, assertThat, hlt, bind, Except.bind, pure, Except.pure]
      · have h3 := Hand.PushTwice_rep (t :: ts).reverse h2 (by simp at hroom ⊢; omega)
        simpa [pushed] using h3
  | kOptimized =>
    cases ties with
    | nil =>
      refine ⟨(h.Push hi).Push lo, [], ?_, ?_, rfl⟩
      · simp [Hand.PushAll, assertThat, hlt, bind, Except.bind, pure, Except.pure]
      · simpa [pushed, dup] using h2
    | cons t ts =>
      have hne : (t :: ts).isEmpty = false := rfl
      generalize t :: ts = ties at hroom hne ⊢
      generalize hs : ties.insertionSort (fun a b => b ≤ a) = sorted
      have e0 : sorted.length = ties.length := by rw [← hs, List.length_insertionSort]
      have e1 := congrArg List.length
        (List.takeWhile_append_dropWhile (fun x => decide (hi < x)) sorted)
      have e2 := congrArg List.length (List.takeWhile_append_dropWhile
        (fun x => decide (lo < x)) (sorted.dropWhile (fun x => decide (hi < x))))
      simp only [List.length_append] at e1 e2
      have a1 := Hand.PushTwice_rep (sorted.takeWhile (fun x => decide (hi < x))) hr
        (by omega)
      have a2 := Hand.Push_rep a1 hi (by simp only [List.length_append, dup_length]; omega)
      have a3 := Hand.PushTwice_rep
        ((sorted.dropWhile (fun x => decide (hi < x))).takeWhile (fun x => decide (lo < x))) a2
        (by simp only [List.length_append, dup_length, List.length_cons, List.length_nil]; omega)
      have a4 := Hand.Push_rep a3 lo
        (by simp only [List.length_append, dup_length, List.length_cons, List.length_nil]; omega)
      have a5 := Hand.PushTwice_rep
        ((sorted.dropWhile (fun x => decide (hi < x))).dropWhile (fun x => decide (lo < x))) a4
        (by simp only [List.length_append, dup_length, List.length_cons, List.length_nil]; omega)
      have hx : xs ++ pushed Strategy.kOptimized hi lo ties =
          xs ++ dup (List.takeWhile (fun x => decide (hi < x)) sorted) ++ [hi] ++
            dup (List.takeWhile (fun x => decide (lo < x))
              (List.dropWhile (fun x => decide (hi < x)) sorted)) ++ [lo] ++
            dup (List.dropWhile (fun x => decide (lo < x))
              (List.dropWhile (fun x => decide (hi < x)) sorted)) := by
        simp [pushed, hs]
      rw [hx]
      refine ⟨_, sorted, ?_, a5, e0⟩
      · simp only [Hand.PushAll, assertThat, hlt, decide_True, if_true, bind, Except.bind,
          hne, Bool.false_eq_true, if_false, hs, Hand.PushTwiceWhile_eq,
          pure, Except.pure]
        have : List.takeWhile (fun _ => true) (List.dropWhile (fun x => decide (lo < x))
            (List.dropWhile (fun x => decide (hi < x)) sorted)) =
            List.dropWhile (fun x => decide (lo < x))
              (List.dropWhile (fun x => decide (hi < x)) sorted) := by
          simp
        rw [this]

theorem Hand.eqLoop_spec (l r : Hand) (hl : l.end_ < l.buffer_.length)
    (hr : r.end_ < r.buffer_.length) :
    ∀ (fuel lc rc : Nat) (xs ys : List Card), lc < l.buffer_.length → rc < r.buffer_.length →
      Hand.toList { l with start_ := lc } = xs → Hand.toList { r with start_ := rc } = ys →
      xs.length < fuel → Hand.eqLoop l r fuel lc rc = Except.ok (decide (xs = ys)) := by
  intro fuel
  induction fuel with
  | zero => intro lc rc xs ys _ _ _ _ h; omega
  | succ fuel ih =>
    intro lc rc xs ys hlc hrc hxs hys hlen
    have wl : Hand.WF { l with start_ := lc } := ⟨hlc, hl⟩
    have wr : Hand.WF { r with start_ := rc } := ⟨hrc, hr⟩
    have el := Hand.empty_iff _ wl
    have er := Hand.empty_iff _ wr
    simp only [Hand.empty, beq_iff_eq, hxs, hys] at el er
    unfold Hand.eqLoop
    by_cases h1 : lc = l.end_
    · have hx : xs = [] := el.1 h1
      subst hx
      by_cases h2 : rc = r.end_
      · have hy : ys = [] := er.1 h2
        simp [h1, h2, hy, pure, Except.pure]
      · have hy : ys ≠ [] := fun h => h2 (er.2 h)
        have : ¬ ([] = ys) := fun h => hy h.symm
        simp [h1, h2, this, pure, Except.pure]
    · have hx : xs ≠ [] := fun h => h1 (el.2 h)
      by_cases h2 : rc = r.end_
      · have hy : ys = [] := er.1 h2
        simp [h1, h2, hy, hx, pure, Except.pure]
      · have pl := Hand.toList_pop _ wl h1
        have pr := Hand.toList_pop _ wr h2
        simp only [hxs, hys] at pl pr
        have hc : (lc != l.end_ && rc != r.end_) = true := by simp [h1, h2]
        simp only [hc, if_true]
        by_cases h3 : l.buffer_.getD lc 0 = r.buffer_.getD rc 0
        · have hrec := ih (if lc + 1 = l.buffer_.length then 0 else lc + 1)
            (if rc + 1 = r.buffer_.length then 0 else rc + 1) _ _
            (by split <;> omega) (by split <;> omega) rfl rfl
            (by
              have := congrArg List.length pl
              simp only [List.length_cons] at this
              omega)
          have hd : (l.buffer_.getD lc 0 != r.buffer_.getD rc 0) = false := by
            rw [h3]; exact bne_self_eq_false _
          simp only [hd, Bool.false_eq_true, if_false, Hand.buffer_size, beq_iff_eq, hrec]
          rw [pl, pr, h3]
          simp
        · have : ¬ (xs = ys) := by
            rw [pl, pr]
            intro h
            injection h with h4 _
            exact h3 h4
          have hd : (l.buffer_.getD lc 0 != r.buffer_.getD rc 0) = true := bne_iff_ne.mpr h3
          simp only [hd, if_true, this, decide_False]
          rfl

theorem Hand.eq_of_rep {cap : Nat} {l r : Hand} {xs ys : List Card} (hl : Hand.Rep cap l xs)
    (hr : Hand.Rep cap r ys) : Hand.eq l r = Except.ok (decide (xs = ys)) := by
  have hlen := Hand.Rep_length_lt hl
  obtain ⟨wl, cl, tl⟩ := hl
  obtain ⟨wr, cr, tr⟩ := hr
  have hsz : l.buffer_size = r.buffer_size := by rw [cl, cr]
  simp only [Hand.eq, hsz, beq_self_eq_true, assertThat, if_true, bind, Except.bind]
  rw [← hsz]
  exact Hand.eqLoop_spec l r wl.end_lt wr.end_lt _ _ _ xs ys wl.start_lt wr.start_lt tl tr
    (by rw [cl]; exact hlen)

/-! ## A `Step` is a round -/

theorem Game.StepLoop_spec (strategy : Strategy) (N : Nat) :
    ∀ (fuel : Nat) (g : Game) (cl cr : Card) (ties l r : List Card),
      Hand.Rep (N + 1) g.l_ l → Hand.Rep (N + 1) g.r_ r → g.ties_.length = N →
      g.num_ties_ = ties.length → g.ties_.take ties.length = ties →
      2 * ties.length + 2 + l.length + r.length ≤ N → l.length < fuel →
      ∃ g', Game.StepLoop strategy fuel g cl cr =
          Except.ok ((roundLoop strategy ties (cl :: l) (cr :: r)).done, g') ∧
        g'.deck_ = g.deck_ ∧
        Hand.Rep (N + 1) g'.l_ (roundLoop strategy ties (cl :: l) (cr :: r)).1 ∧
        Hand.Rep (N + 1) g'.r_ (roundLoop strategy ties (cl :: l) (cr :: r)).2 ∧
        g'.ties_.length = N ∧ g'.num_ties_ = 0 := by
  intro fuel
  induction fuel with
  | zero => intro g cl cr ties l r _ _ _ _ _ _ h; omega
  | succ fuel ih =>
    intro g cl cr ties l r hl hr hN hnum htake hroom hfuel
    have el := Hand.Rep_empty hl
    have er := Hand.Rep_empty hr
    unfold Game.StepLoop
    by_cases hc : cl = cr
    · subst hc
      simp only [beq_self_eq_true, if_true, el, er, roundLoop]
      by_cases hd : (l.isEmpty || r.isEmpty) = true
      · simp only [hd, if_true]
        refine ⟨{ g with ties_ := g.ties_.set g.num_ties_ cl, num_ties_ := 0 },
          ?_, rfl, hl, hr, ?_, rfl⟩
        · simp only [Position.done, hd]; rfl
        · simp [hN]
      · simp only [hd, if_false]
        cases l with
        | nil => simp at hd
        | cons cl' l' =>
          cases r with
          | nil => simp at hd
          | cons cr' r' =>
            obtain ⟨hl', pl, rl⟩ := Hand.Pop_cons hl
            obtain ⟨hr', pr, rr⟩ := Hand.Pop_cons hr
            simp only [bind, Except.bind, pl, pr]
            simp only [List.length_cons] at hroom hfuel
            have := ih { g with ties_ := g.ties_.set g.num_ties_ cl,
                                num_ties_ := g.num_ties_ + 1, l_ := hl', r_ := hr' }
              cl' cr' (ties ++ [cl]) l' r' rl rr (by simp [hN]) (by simp [hnum])
              (by
                simp only [List.length_append, List.length_cons, List.length_nil, hnum]
                rw [List.take_succ_set _ _ _ (by omega), htake])
              (by simp only [List.length_append, List.length_cons, List.length_nil]; omega)
              (by omega)
            exact this
    · have hb : (cl == cr) = false := by simp [hc]
      simp only [hb, Bool.false_eq_true, if_false, roundLoop, hc]
      by_cases hlt : cr < cl
      · obtain ⟨h', span, hp, hrep, hspan⟩ :=
          Hand.PushAll_rep hl strategy cl cr ties hlt (by omega)
        simp only [hlt, if_true, bind, Except.bind, hnum, htake, hp, pure, Except.pure]
        refine ⟨{ g with l_ := h', ties_ := span ++ g.ties_.drop ties.length, num_ties_ := 0 },
          ?_, rfl, hrep, hr, ?_, rfl⟩
        · simp only [Hand.Rep_empty hrep, er, Position.done]
        · show (span ++ g.ties_.drop ties.length).length = N
          simp only [List.length_append, hspan, List.length_drop, hN]; omega
      · have hgt : cl < cr := Nat.lt_of_le_of_ne (Nat.le_of_not_lt hlt) hc
        obtain ⟨h', span, hp, hrep, hspan⟩ :=
          Hand.PushAll_rep hr strategy cr cl ties hgt (by omega)
        simp only [hlt, if_false, bind, Except.bind, hnum, htake, hp, pure, Except.pure]
        refine ⟨{ g with r_ := h', ties_ := span ++ g.ties_.drop ties.length, num_ties_ := 0 },
          ?_, rfl, hl, hrep, ?_, rfl⟩
        · simp only [Hand.Rep_empty hrep, el, Position.done]
        · show (span ++ g.ties_.drop ties.length).length = N
          simp only [List.length_append, hspan, List.length_drop, hN]; omega

theorem Game.Step_rep {g : Game} {x : Position} (strategy : Strategy) (hg : g.Rep x)
    (hx : x.done = false) (htot : x.1.length + x.2.length ≤ g.deck_.num_cards) :
    ∃ g', g.Step strategy = Except.ok ((round strategy x).done, g') ∧
      g'.deck_ = g.deck_ ∧ g'.Rep (round strategy x) := by
  obtain ⟨l, r⟩ := x
  obtain ⟨hl, hr, hN, hnum⟩ := hg
  simp only [Position.done, Bool.or_eq_false_iff] at hx
  cases l with
  | nil => simp at hx
  | cons cl l =>
    cases r with
    | nil => simp at hx
    | cons cr r =>
      obtain ⟨hl', pl, rl⟩ := Hand.Pop_cons hl
      obtain ⟨hr', pr, rr⟩ := Hand.Pop_cons hr
      simp only [List.length_cons] at htot
      have hcap := Hand.Rep_length_lt hl
      simp only [List.length_cons] at hcap
      obtain ⟨g', h1, h2, h3, h4, h5, h6⟩ :=
        Game.StepLoop_spec strategy g.deck_.num_cards g.l_.buffer_size
          { g with l_ := hl', r_ := hr' } cl cr [] l r rl rr hN hnum rfl
          (by simp only [List.length_nil]; omega) (by rw [hl.2.1]; omega)
      refine ⟨g', ?_, h2, ?_⟩
      · simp only [Game.Step, hnum, beq_self_eq_true, assertThat, if_true, bind, Except.bind,
          pl, pr]
        rw [hnum] at h1
        exact h1
      · have hd : g'.deck_ = g.deck_ := h2
        unfold Game.Rep
        rw [hd]
        exact ⟨h3, h4, h5, h6⟩

theorem Game.Step_done {g : Game} {x : Position} (strategy : Strategy) (hg : g.Rep x)
    (hx : x.done = true) : g.Step strategy = Except.error Fault.assertion := by
  obtain ⟨l, r⟩ := x
  obtain ⟨hl, hr, hN, hnum⟩ := hg
  cases l with
  | nil =>
    simp only [Game.Step, hnum, beq_self_eq_true, assertThat, if_true, bind, Except.bind,
      Hand.Pop_nil hl]
  | cons cl l =>
    cases r with
    | nil =>
      obtain ⟨hl', pl, _⟩ := Hand.Pop_cons hl
      simp only [Game.Step, hnum, beq_self_eq_true, assertThat, if_true, bind, Except.bind,
        pl, Hand.Pop_nil hr]
    | cons cr r => simp [Position.done] at hx

theorem Game.Rep_done {g : Game} {x : Position} (hg : g.Rep x) : g.done = x.done := by
  simp only [Game.done, Position.done, Hand.Rep_empty hg.1, Hand.Rep_empty hg.2.1]

theorem Game.Rep_winner {g : Game} {x : Position} (hg : g.Rep x) : g.GetWinner = x.winner := by
  simp only [Game.GetWinner, Position.winner, Hand.Rep_empty hg.1, Hand.Rep_empty hg.2.1]

theorem Game.Rep_position {g : Game} {x : Position} (hg : g.Rep x) : g.position = x := by
  obtain ⟨l, r⟩ := x
  simp only [Game.position, hg.1.2.2, hg.2.1.2.2]

theorem Game.Rep_new (deck : Deck) (hdeck : deck.num_cards + 1 < 2 ^ 32) :
    (Game.new deck).Rep ([], []) :=
  ⟨Hand.Rep_of_new _ hdeck, Hand.Rep_of_new _ hdeck, by simp [Game.new], rfl⟩

theorem Game.eq_rep {g g' : Game} {x y : Position} (hg : g.Rep x) (hg' : g'.Rep y)
    (hd : g'.deck_ = g.deck_) : Game.eq g g' = Except.ok (decide (x = y)) := by
  obtain ⟨l, r⟩ := x
  obtain ⟨l', r'⟩ := y
  obtain ⟨hl, hr, _, hnum⟩ := hg
  obtain ⟨hl', hr', _, hnum'⟩ := hg'
  rw [hd] at hl' hr'
  simp only [Game.eq, hnum, hnum', hd, beq_self_eq_true, assertThat, if_true, bind, Except.bind,
    Hand.eq_of_rep hl hl', Hand.eq_of_rep hr hr', pure, Except.pure]
  by_cases h1 : l = l'
  · by_cases h2 : r = r'
    · simp [h1, h2]
    · simp [h1, h2]
  · simp [h1]

/-- The position `Game::Deal` sets up. -/
theorem Game.Deal_rep {g : Game} {x : Position} (hg : g.Rep x) (cards : List Card)
    (hlen : cards.length = g.deck_.num_cards) :
    ∃ g', g.Deal cards = Except.ok g' ∧ g'.deck_ = g.deck_ ∧
      g'.Rep (cards.take (cards.length / 2), cards.drop (cards.length / 2)) := by
  obtain ⟨hl, hr, hN, hnum⟩ := hg
  obtain ⟨l', al, wl, sl, tl⟩ := Hand.Assign_spec g.l_ cards (cards.length / 2)
    (by rw [hl.2.1]; omega) (by omega)
  obtain ⟨r', ar, wr, sr, tr⟩ := Hand.Assign_spec g.r_ (cards.drop (cards.length / 2))
    (cards.length - cards.length / 2) (by rw [hr.2.1]; omega) (by simp)
  refine ⟨{ g with l_ := l', r_ := r' }, ?_, rfl, ⟨wl, ?_, tl⟩, ⟨wr, ?_, ?_⟩, hN, hnum⟩
  · simp only [Game.Deal, hlen, beq_self_eq_true, assertThat, if_true, bind, Except.bind]
    rw [← hlen, al, ar]
    rfl
  · rw [sl]; exact hl.2.1
  · rw [sr]; exact hr.2.1
  · rw [tr]
    apply List.take_of_length_le
    simp

theorem Game.Deal_length {g : Game} (cards : List Card)
    (hlen : cards.length ≠ g.deck_.num_cards) :
    g.Deal cards = Except.error Fault.assertion := by
  have : (cards.length == g.deck_.num_cards) = false := by simpa using hlen
  simp only [Game.Deal, this, assertThat, Bool.false_eq_true, if_false, bind, Except.bind]

/-- A game whose left hand has no slot refuses every deal. -/
theorem Game.Deal_no_slot {g : Game} (h : g.l_.buffer_size = 0) (cards : List Card) :
    g.Deal cards = Except.error Fault.assertion := by
  by_cases hlen : cards.length = g.deck_.num_cards
  · have e : (cards.length == g.deck_.num_cards) = true := by simpa using hlen
    simp only [Game.Deal, Hand.Assign, e, h, assertThat, if_true, Nat.not_lt_zero, decide_False,
      Bool.false_eq_true, if_false, bind, Except.bind]
  · exact Game.Deal_length cards hlen

theorem Hand.new_toList (n : Nat) : (Hand.new n).toList = [] := by
  simp [Hand.new, Hand.toList]

theorem Game.new_position (deck : Deck) : (Game.new deck).position = ([], []) := by
  simp only [Game.position, Game.new, Hand.new_toList]

theorem Game.new_without_slot {deck : Deck} (hd : ¬ deck.num_cards + 1 < 2 ^ 32) :
    (Game.new deck).l_.buffer_size = 0 :=
  Hand.new_no_slot deck.num_cards_lt hd

/-! ## Rounds on positions -/

theorem dup_perm {as bs : List Card} (h : as.Perm bs) : (dup as).Perm (dup bs) := by
  induction h with
  | nil => exact List.Perm.refl _
  | cons x _ ih => exact (ih.cons x).cons x
  | swap x y l =>
    simp only [dup]
    have h1 : (y :: y :: x :: x :: dup l).Perm (y :: x :: y :: x :: dup l) :=
      (List.Perm.swap x y _).cons y
    have h2 : (y :: x :: y :: x :: dup l).Perm (x :: y :: y :: x :: dup l) :=
      List.Perm.swap x y _
    have h3 : (x :: y :: y :: x :: dup l).Perm (x :: y :: x :: y :: dup l) :=
      ((List.Perm.swap x y _).cons y).cons x
    have h4 : (x :: y :: x :: y :: dup l).Perm (x :: x :: y :: y :: dup l) :=
      (List.Perm.swap x y _).cons x
    exact ((h1.trans h2).trans h3).trans h4
  | trans _ _ ih1 ih2 => exact ih1.trans ih2

theorem pushed_perm (strategy : Strategy) (hi lo : Card) (ties : List Card) :
    (pushed strategy hi lo ties).Perm (hi :: lo :: dup ties) := by
  cases strategy with
  | kNatural =>
    exact ((dup_perm (List.reverse_perm ties)).cons lo).cons hi
  | kOptimized =>
    simp only [pushed]
    generalize hs : ties.insertionSort (fun a b => b ≤ a) = sorted
    have hp : sorted.Perm ties := by rw [← hs]; exact List.perm_insertionSort _ ties
    have e1 := List.takeWhile_append_dropWhile (fun x => decide (hi < x)) sorted
    have e2 := List.takeWhile_append_dropWhile (fun x => decide (lo < x))
      (sorted.dropWhile (fun x => decide (hi < x)))
    generalize List.takeWhile (fun x => decide (hi < x)) sorted = t1 at e1 ⊢
    generalize List.dropWhile (fun x => decide (hi < x)) sorted = d1 at e1 e2 ⊢
    generalize List.takeWhile (fun x => decide (lo < x)) d1 = t2 at e2 ⊢
    generalize List.dropWhile (fun x => decide (lo < x)) d1 = d2 at e2 ⊢
    have h1 : (dup t1 ++ hi :: (dup t2 ++ lo :: dup d2)).Perm
        (hi :: (dup t1 ++ (dup t2 ++ lo :: dup d2))) := List.perm_middle
    have h2 : (dup t1 ++ (dup t2 ++ lo :: dup d2)).Perm
        (lo :: (dup t1 ++ (dup t2 ++ dup d2))) := by
      rw [← List.append_assoc, ← List.append_assoc]
      exact List.perm_middle
    have h3 : dup t1 ++ (dup t2 ++ dup d2) = dup sorted := by
      rw [← dup_append, ← dup_append, e2, e1]
    rw [h3] at h2
    exact h1.trans ((h2.trans ((dup_perm hp).cons lo)).cons hi)

theorem roundLoop_length (strategy : Strategy) :
    ∀ (l r ties : List Card),
      (roundLoop strategy ties l r).1.length + (roundLoop strategy ties l r).2.length ≤
        2 * ties.length + l.length + r.length := by
  intro l
  induction l with
  | nil => intro r ties; simp [roundLoop]
  | cons cl l ih =>
    intro r ties
    cases r with
    | nil => simp [roundLoop]
    | cons cr r =>
      unfold roundLoop
      by_cases hc : cl = cr
      · simp only [hc, if_true]
        split
        · simp only [List.length_cons]; omega
        · have := ih r (ties ++ [cr])
          simp only [List.length_append, List.length_cons, List.length_nil] at this ⊢
          omega
      · simp only [hc, if_false]
        split <;> simp only [List.length_append, List.length_cons, pushed_length] <;> omega

theorem round_length (strategy : Strategy) (x : Position) :
    (round strategy x).1.length + (round strategy x).2.length ≤ x.1.length + x.2.length := by
  have := roundLoop_length strategy x.1 x.2 []
  simpa [round] using this

theorem roundLoop_perm (strategy : Strategy) :
    ∀ (l r ties : List Card), (roundLoop strategy ties l r).done = false →
      ((roundLoop strategy ties l r).1 ++ (roundLoop strategy ties l r).2).Perm
        (dup ties ++ (l ++ r)) := by
  intro l
  induction l with
  | nil => intro r ties h; simp [roundLoop, Position.done] at h
  | cons cl l ih =>
    intro r ties
    cases r with
    | nil => intro h; simp [roundLoop, Position.done] at h
    | cons cr r =>
      unfold roundLoop
      by_cases hc : cl = cr
      · simp only [hc, if_true]
        by_cases hd : (l.isEmpty || r.isEmpty) = true
        · simp only [hd, if_true, Position.done]
          intro h
          exact Bool.noConfusion h
        · simp only [hd, if_false]
          intro h
          refine (ih r (ties ++ [cr]) h).trans ?_
          rw [dup_append]
          simp only [dup, List.append_assoc, List.cons_append, List.nil_append]
          refine List.Perm.append_left _ ?_
          refine List.Perm.cons cr ?_
          exact List.perm_middle.symm
      · simp only [hc, if_false]
        intro _
        split
        · rw [List.perm_iff_count]
          intro a
          have := (pushed_perm strategy cl cr ties).count_eq a
          simp only [List.count_append, List.count_cons] at this ⊢
          omega
        · rw [List.perm_iff_count]
          intro a
          have := (pushed_perm strategy cr cl ties).count_eq a
          simp only [List.count_append, List.count_cons] at this ⊢
          omega

theorem round_perm (strategy : Strategy) (x : Position) (h : (round strategy x).done = false) :
    ((round strategy x).1 ++ (round strategy x).2).Perm (x.1 ++ x.2) := by
  have := roundLoop_perm strategy x.1 x.2 [] h
  simpa [round, dup] using this

theorem round_done (strategy : Strategy) (x : Position) (h : x.done = true) :
    round strategy x = x := by
  obtain ⟨l, r⟩ := x
  cases l with
  | nil => simp [round, roundLoop]
  | cons cl l =>
    cases r with
    | nil => simp [round, roundLoop]
    | cons cr r => simp [Position.done] at h

theorem positionAt_succ (strategy : Strategy) (x0 : Position) (i : Nat) :
    positionAt strategy x0 (i + 1) = round strategy (positionAt strategy x0 i) := rfl

theorem positionAt_add (strategy : Strategy) (x0 : Position) (i j : Nat) :
    positionAt strategy x0 (i + j) = positionAt strategy (positionAt strategy x0 i) j := by
  induction j with
  | zero => rfl
  | succ j ih => rw [← Nat.add_assoc, positionAt_succ, ih, positionAt_succ]

theorem positionAt_length (strategy : Strategy) (x0 : Position) (i : Nat) :
    (positionAt strategy x0 i).1.length + (positionAt strategy x0 i).2.length ≤
      x0.1.length + x0.2.length := by
  induction i with
  | zero => exact Nat.le_refl _
  | succ i ih => exact Nat.le_trans (round_length strategy _) ih

theorem positionAt_done_mono (strategy : Strategy) (x0 : Position) (i j : Nat) (hij : i ≤ j)
    (h : (positionAt strategy x0 i).done = true) : positionAt strategy x0 j = positionAt strategy x0 i := by
  induction j with
  | zero =>
    have : i = 0 := by omega
    rw [this]
  | succ j ih =>
    by_cases hj : i = j + 1
    · rw [hj]
    · have := ih (by omega)
      rw [positionAt_succ, this, round_done strategy _ h]

theorem positionAt_not_done (strategy : Strategy) (x0 : Position) (i j : Nat) (hij : i ≤ j)
    (h : (positionAt strategy x0 j).done = false) : (positionAt strategy x0 i).done = false := by
  cases hd : (positionAt strategy x0 i).done with
  | false => rfl
  | true =>
    rw [positionAt_done_mono strategy x0 i j hij hd, hd] at h
    exact Bool.noConfusion h

theorem positionAt_perm (strategy : Strategy) (x0 : Position) (i : Nat)
    (h : (positionAt strategy x0 i).done = false) :
    ((positionAt strategy x0 i).1 ++ (positionAt strategy x0 i).2).Perm (x0.1 ++ x0.2) := by
  induction i with
  | zero => exact List.Perm.refl _
  | succ i ih =>
    have h1 := positionAt_not_done strategy x0 i (i + 1) (Nat.le_succ i) h
    exact (round_perm strategy _ h).trans (ih h1)

/-! ## The playout follows the sequence of positions -/

theorem Game.StepN_rep (strategy : Strategy) {g : Game} {x0 : Position} (hg : g.Rep x0)
    (htot : x0.1.length + x0.2.length ≤ g.deck_.num_cards) :
    ∀ n, (∀ i, i < n → (positionAt strategy x0 i).done = false) →
      ∃ gn, g.StepN strategy n = Except.ok gn ∧ gn.deck_ = g.deck_ ∧
        gn.Rep (positionAt strategy x0 n) := by
  intro n
  induction n with
  | zero => intro _; exact ⟨g, rfl, rfl, hg⟩
  | succ n ih =>
    intro h
    obtain ⟨gn, h1, h2, h3⟩ := ih (fun i hi => h i (by omega))
    obtain ⟨g', s1, s2, s3⟩ := Game.Step_rep strategy h3 (h n (by omega))
      (by rw [h2]; exact Nat.le_trans (positionAt_length strategy x0 n) htot)
    refine ⟨g', ?_, by rw [s2, h2], s3⟩
    simp only [Game.StepN, h1, s1, bind, Except.bind, pure, Except.pure]

theorem Game.StepN_done (strategy : Strategy) {g : Game} {x0 : Position} (hg : g.Rep x0)
    (htot : x0.1.length + x0.2.length ≤ g.deck_.num_cards) :
    ∀ n i, i < n → (positionAt strategy x0 i).done = true →
      g.StepN strategy n = Except.error Fault.assertion := by
  intro n
  induction n with
  | zero => intro i hi; omega
  | succ n ih =>
    intro i hi hd
    by_cases hex : ∃ j, j < n ∧ (positionAt strategy x0 j).done = true
    · obtain ⟨j, hj, hjd⟩ := hex
      simp only [Game.StepN, ih j hj hjd, bind, Except.bind]
    · have hall : ∀ j, j < n → (positionAt strategy x0 j).done = false := by
        intro j hj
        cases hq : (positionAt strategy x0 j).done with
        | false => rfl
        | true => exact absurd ⟨j, hj, hq⟩ hex
      have hin : i = n := by
        by_cases hlt : i < n
        · rw [hall i hlt] at hd
          exact Bool.noConfusion hd
        · omega
      subst hin
      obtain ⟨gn, h1, _, h3⟩ := Game.StepN_rep strategy hg htot i hall
      simp only [Game.StepN, h1, Game.Step_done strategy h3 hd, bind, Except.bind]

theorem Game.StepN_ok (strategy : Strategy) {g : Game} {x0 : Position} (hg : g.Rep x0)
    (htot : x0.1.length + x0.2.length ≤ g.deck_.num_cards) {n : Nat} {gn : Game}
    (h : g.StepN strategy n = Except.ok gn) :
    (∀ i, i < n → (positionAt strategy x0 i).done = false) ∧
      gn.Rep (positionAt strategy x0 n) ∧ gn.deck_ = g.deck_ := by
  have hall : ∀ i, i < n → (positionAt strategy x0 i).done = false := by
    intro i hi
    cases hq : (positionAt strategy x0 i).done with
    | false => rfl
    | true =>
      rw [Game.StepN_done strategy hg htot n i hi hq] at h
      exact Except.noConfusion h
  obtain ⟨gn', h1, h2, h3⟩ := Game.StepN_rep strategy hg htot n hall
  rw [h1] at h
  injection h with h
  subst h
  exact ⟨hall, h3, h2⟩

theorem GameArena.PlayLoop_spec (strategy : Strategy) (deck : Deck) (x0 : Position)
    (htot : x0.1.length + x0.2.length ≤ deck.num_cards) :
    ∀ (fuel : Nat) (a : GameArena) (j : Nat), a.slow_.deck_ = deck → a.fast_.deck_ = deck →
      a.slow_.Rep (positionAt strategy x0 j) → a.fast_.Rep (positionAt strategy x0 (2 * j + 1)) →
      (positionAt strategy x0 (2 * j + 1)).done = false →
      Except.map PlayOut.summary (GameArena.PlayLoop strategy fuel a (u32 (j + 1)) (2 * j + 1)) =
          detect strategy x0 fuel (j + 1) ∧
        ∀ out, GameArena.PlayLoop strategy fuel a (u32 (j + 1)) (2 * j + 1) = Except.ok out →
          out.arena.stats_ = a.stats_ ∧ out.arena.slow_.deck_ = deck ∧
          out.arena.fast_.deck_ = deck ∧ (∃ y, out.arena.slow_.Rep y) ∧
          (∃ z, out.arena.fast_.Rep z) := by
  intro fuel
  induction fuel with
  | zero =>
    intro a j _ _ _ _ _
    refine ⟨rfl, ?_⟩
    intro out h
    exact Except.noConfusion h
  | succ fuel ih =>
    intro a j hsd hfd hs hf hnd
    have e1 : j + 1 - 1 = j := by omega
    have e2 : 2 * (j + 1) - 1 = 2 * j + 1 := by omega
    have e3 : 2 * (j + 1) = 2 * j + 1 + 1 := by omega
    have e4 : 2 * (j + 1) + 1 = 2 * j + 1 + 1 + 1 := by omega
    have hq := Game.eq_rep hs hf (by rw [hsd, hfd])
    unfold GameArena.PlayLoop detect
    simp only [e1, e2, bind, Except.bind, hq, u32_two_mul, u32_two_mul_succ, u32_succ]
    by_cases heq : positionAt strategy x0 j = positionAt strategy x0 (2 * j + 1)
    · simp only [heq, decide_True, Bool.not_true, Bool.false_eq_true, if_false, if_true, pure,
        Except.pure, Except.map, PlayOut.summary]
      refine ⟨trivial, ?_⟩
      intro out h
      injection h with h
      subst h
      exact ⟨rfl, hsd, hfd, ⟨_, hs⟩, ⟨_, hf⟩⟩
    · simp only [heq, decide_False, Bool.not_false, if_true, if_false]
      have hsn := positionAt_not_done strategy x0 j (2 * j + 1) (by omega) hnd
      obtain ⟨slow, s1, s2, s3⟩ := Game.Step_rep strategy hs hsn
        (by rw [hsd]; exact Nat.le_trans (positionAt_length strategy x0 j) htot)
      obtain ⟨fast, f1, f2, f3⟩ := Game.Step_rep strategy hf hnd
        (by rw [hfd]; exact Nat.le_trans (positionAt_length strategy x0 _) htot)
      rw [← positionAt_succ] at s1 s3 f1 f3
      simp only [s1, f1, e3, e4]
      by_cases hd1 : (positionAt strategy x0 (2 * j + 1 + 1)).done = true
      · simp only [hd1, if_true, pure, Except.pure, Except.map, PlayOut.summary,
          Game.Rep_winner f3]
        refine ⟨trivial, ?_⟩
        intro out h
        injection h with h
        subst h
        exact ⟨rfl, by rw [← hsd]; exact s2, by rw [← hfd]; exact f2, ⟨_, s3⟩, ⟨_, f3⟩⟩
      · have hd1' : (positionAt strategy x0 (2 * j + 1 + 1)).done = false := by
          simpa using hd1
        obtain ⟨fast2, g1, g2, g3⟩ := Game.Step_rep strategy f3 hd1'
          (by rw [f2, hfd]; exact Nat.le_trans (positionAt_length strategy x0 _) htot)
        rw [← positionAt_succ] at g1 g3
        simp only [hd1', Bool.false_eq_true, if_false, g1]
        by_cases hd2 : (positionAt strategy x0 (2 * j + 1 + 1 + 1)).done = true
        · simp only [hd2, if_true, pure, Except.pure, Except.map, PlayOut.summary,
            Game.Rep_winner g3]
          refine ⟨trivial, ?_⟩
          intro out h
          injection h with h
          subst h
          exact ⟨rfl, by rw [← hsd]; exact s2, by rw [← hfd, ← f2]; exact g2, ⟨_, s3⟩, ⟨_, g3⟩⟩
        · have hd2' : (positionAt strategy x0 (2 * j + 1 + 1 + 1)).done = false := by
            simpa using hd2
          simp only [hd2', Bool.false_eq_true, if_false]
          have e5 : 2 * (j + 1) + 1 = 2 * j + 1 + 1 + 1 := by omega
          have := ih { slow_ := slow, fast_ := fast2, stats_ := a.stats_ } (j + 1)
            (by rw [← hsd]; exact s2) (by rw [← hfd, ← f2]; exact g2) s3
            (by rw [e5]; exact g3) (by rw [e5]; exact hd2')
          rw [e5] at this
          exact this

theorem dealt_length (cards : List Card) :
    (dealt cards).1.length + (dealt cards).2.length = cards.length := by
  simp only [dealt, List.length_take, List.length_drop]
  omega

theorem dealt_not_done (cards : List Card) (h : 2 ≤ cards.length) :
    (dealt cards).done = false := by
  have h1 : (cards.take (cards.length / 2)).length ≠ 0 := by
    simp only [List.length_take]; omega
  have h2 : (cards.drop (cards.length / 2)).length ≠ 0 := by
    simp only [List.length_drop]; omega
  simp only [dealt, Position.done, Bool.or_eq_false_iff, List.isEmpty_eq_false]
  exact ⟨fun h => h1 (by rw [h]; rfl), fun h => h2 (by rw [h]; rfl)⟩

theorem GameArena.PlayImpl_spec {deck : Deck} {a : GameArena} (ha : a.WF deck)
    (hdeck : deck.num_cards + 1 < 2 ^ 32) (fuel : Nat)
    (cards : List Card) (strategy : Strategy) :
    Except.map PlayOut.summary (a.PlayImpl fuel cards strategy) =
        playSpec deck fuel cards strategy ∧
      ∀ out, a.PlayImpl fuel cards strategy = Except.ok out →
        out.arena.stats_ = a.stats_ ∧ out.arena.slow_.deck_ = deck ∧
        out.arena.fast_.deck_ = deck ∧ (∃ y, out.arena.slow_.Rep y) ∧
        (∃ z, out.arena.fast_.Rep z) := by
  unfold GameArena.PlayImpl playSpec
  by_cases h0 : cards.length = 0
  · simp only [h0, beq_self_eq_true, if_true, pure, Except.pure, Except.map, PlayOut.summary]
    refine ⟨trivial, ?_⟩
    intro out h
    injection h with h
    subst h
    exact ⟨rfl, ha.slow_deck, ha.fast_deck, ha.slow_rep, ha.fast_rep⟩
  · by_cases h1 : cards.length = 1
    · simp only [h1, beq_self_eq_true, if_true, pure, Except.pure, Except.map, PlayOut.summary]
      refine ⟨rfl, ?_⟩
      intro out h
      simp only [show (1 == 0) = false from rfl, Bool.false_eq_true, if_false] at h
      injection h with h
      subst h
      exact ⟨rfl, ha.slow_deck, ha.fast_deck, ha.slow_rep, ha.fast_rep⟩
    · have b0 : (cards.length == 0) = false := by simpa using h0
      have b1 : (cards.length == 1) = false := by simpa using h1
      simp only [b0, b1, h0, h1, Bool.false_eq_true, if_false]
      by_cases hN : cards.length = deck.num_cards
      · obtain ⟨xs, hs⟩ := ha.slow_rep
        obtain ⟨xf, hf⟩ := ha.fast_rep
        obtain ⟨slow, d1, d2, d3⟩ := Game.Deal_rep hs cards (by rw [ha.slow_deck]; exact hN)
        obtain ⟨fast, c1, c2, c3⟩ := Game.Deal_rep hf cards (by rw [ha.fast_deck]; exact hN)
        have hnd := dealt_not_done cards (by omega)
        have hlen := dealt_length cards
        obtain ⟨fast1, f1, f2, f3⟩ := Game.Step_rep strategy c3 hnd
          (by rw [c2, ha.fast_deck, ← hN]; exact Nat.le_of_eq hlen)
        have f1' : fast.Step strategy =
            Except.ok ((positionAt strategy (dealt cards) 1).done, fast1) := f1
        have f3' : fast1.Rep (positionAt strategy (dealt cards) 1) := f3
        simp only [hN, ne_eq, not_true_eq_false, if_false, bind, Except.bind, d1, c1, f1']
        simp only [hdeck, not_true_eq_false, if_false]
        by_cases hd : (positionAt strategy (dealt cards) 1).done = true
        · simp only [hd, if_true, pure, Except.pure, Except.map, PlayOut.summary,
            Game.Rep_winner f3']
          refine ⟨trivial, ?_⟩
          intro out h
          injection h with h
          subst h
          exact ⟨rfl, by rw [← ha.slow_deck]; exact d2,
            by rw [← ha.fast_deck, ← c2]; exact f2, ⟨_, d3⟩, ⟨_, f3'⟩⟩
        · have hd' : (positionAt strategy (dealt cards) 1).done = false := by simpa using hd
          simp only [hd', Bool.false_eq_true, if_false]
          have hu : u32 (0 + 1) = 1 := rfl
          have := GameArena.PlayLoop_spec strategy deck (dealt cards)
            (by rw [← hN]; exact Nat.le_of_eq hlen) fuel
            { slow_ := slow, fast_ := fast1, stats_ := a.stats_ } 0
            (by rw [← ha.slow_deck]; exact d2) (by rw [← ha.fast_deck, ← c2]; exact f2)
            d3 f3' hd'
          rw [hu] at this
          exact this
      · have := @Game.Deal_length a.slow_ cards (by rw [ha.slow_deck]; exact hN)
        simp only [hN, ne_eq, not_false_eq_true, if_true, bind, Except.bind, this, Except.map]
        refine ⟨trivial, ?_⟩
        intro out h
        exact Except.noConfusion h

theorem playSpec_length {deck : Deck} {fuel : Nat} {cards : List Card} {strategy : Strategy}
    {r : Result} {c : Nat} (h : playSpec deck fuel cards strategy = Except.ok (r, c))
    (hr : r.winner = Winner.kCycle ∨ 0 < r.num_steps) : cards.length = deck.num_cards := by
  unfold playSpec at h
  split at h
  · injection h with h; injection h with h1 _; subst h1
    rcases hr with hr | hr
    · exact Winner.noConfusion hr
    · exact absurd hr (by decide)
  · split at h
    · injection h with h; injection h with h1 _; subst h1
      rcases hr with hr | hr
      · exact Winner.noConfusion hr
      · exact absurd hr (by decide)
    · split at h
      · exact Except.noConfusion h
      · rename_i hN
        exact not_not.mp hN

theorem GameArena.WF_new (deck : Deck) (hdeck : deck.num_cards + 1 < 2 ^ 32) :
    (GameArena.new deck).WF deck :=
  { slow_deck := rfl, fast_deck := rfl, longest_deck := rfl, shortest_deck := rfl
    slow_rep := ⟨_, Game.Rep_new deck hdeck⟩, fast_rep := ⟨_, Game.Rep_new deck hdeck⟩
    longest_rep := ⟨_, Game.Rep_new deck hdeck⟩, shortest_rep := ⟨_, Game.Rep_new deck hdeck⟩ }

theorem GameArena.Play_spec {deck : Deck} {a : GameArena} (ha : a.WF deck)
    (hdeck : deck.num_cards + 1 < 2 ^ 32) (fuel : Nat)
    (cards : List Card) (strategy : Strategy) :
    Except.map PlayOut.summary (a.Play fuel cards strategy) =
        playSpec deck fuel cards strategy ∧
      ∀ out, a.Play fuel cards strategy = Except.ok out → out.arena.WF deck := by
  obtain ⟨h1, h2⟩ := GameArena.PlayImpl_spec ha hdeck fuel cards strategy
  unfold GameArena.Play
  cases hp : a.PlayImpl fuel cards strategy with
  | error e =>
    rw [hp] at h1
    simp only [bind, Except.bind]
    refine ⟨h1, ?_⟩
    intro out h
    exact Except.noConfusion h
  | ok out =>
    rw [hp] at h1
    obtain ⟨w1, w2, w3, w4, w5⟩ := h2 out hp
    have hsum : playSpec deck fuel cards strategy = Except.ok (out.result, out.fast_steps) :=
      h1.symm
    obtain ⟨xl, hl⟩ := ha.longest_rep
    obtain ⟨xc, hc⟩ := ha.shortest_rep
    simp only [bind, Except.bind, w1]
    by_cases hcy : out.result.winner = Winner.kCycle
    · have bc : (out.result.winner == Winner.kCycle) = true := by simp [hcy]
      simp only [bc, if_true]
      by_cases hlt : out.result.num_steps < a.stats_.shortest_with_cycle_len
      · have hlen := playSpec_length hsum (Or.inl hcy)
        obtain ⟨g, d1, d2, d3⟩ := Game.Deal_rep hc cards (by rw [ha.shortest_deck]; exact hlen)
        simp only [hlt, if_true, d1, pure, Except.pure, Except.map]
        refine ⟨h1, ?_⟩
        intro o h
        injection h with h
        subst h
        exact { slow_deck := w2, fast_deck := w3, longest_deck := ha.longest_deck,
                shortest_deck := by rw [← ha.shortest_deck]; exact d2,
                slow_rep := w4, fast_rep := w5, longest_rep := ⟨_, hl⟩,
                shortest_rep := ⟨_, d3⟩ }
      · simp only [hlt, if_false, pure, Except.pure, Except.map]
        refine ⟨h1, ?_⟩
        intro o h
        injection h with h
        subst h
        exact { slow_deck := w2, fast_deck := w3, longest_deck := ha.longest_deck,
                shortest_deck := ha.shortest_deck,
                slow_rep := w4, fast_rep := w5, longest_rep := ⟨_, hl⟩,
                shortest_rep := ⟨_, hc⟩ }
    · have bc : (out.result.winner == Winner.kCycle) = false := by simp [hcy]
      simp only [bc, Bool.false_eq_true, if_false]
      by_cases hgt : out.result.num_steps > a.stats_.longest_len
      · have hlen := playSpec_length hsum (Or.inr (by omega))
        obtain ⟨g, d1, d2, d3⟩ := Game.Deal_rep hl cards (by rw [ha.longest_deck]; exact hlen)
        simp only [hgt, if_true, d1, pure, Except.pure, Except.map]
        refine ⟨h1, ?_⟩
        intro o h
        injection h with h
        subst h
        exact { slow_deck := w2, fast_deck := w3,
                longest_deck := by rw [← ha.longest_deck]; exact d2,
                shortest_deck := ha.shortest_deck,
                slow_rep := w4, fast_rep := w5, longest_rep := ⟨_, d3⟩,
                shortest_rep := ⟨_, hc⟩ }
      · simp only [hgt, if_false, pure, Except.pure, Except.map]
        refine ⟨h1, ?_⟩
        intro o h
        injection h with h
        subst h
        exact { slow_deck := w2, fast_deck := w3, longest_deck := ha.longest_deck,
                shortest_deck := ha.shortest_deck,
                slow_rep := w4, fast_rep := w5, longest_rep := ⟨_, hl⟩,
                shortest_rep := ⟨_, hc⟩ }

/-! ## The two-speed traversal -/

theorem positionAt_period (strategy : Strategy) (x0 : Position) (i p : Nat)
    (h : positionAt strategy x0 i = positionAt strategy x0 (i + p)) :
    ∀ t, i ≤ t → positionAt strategy x0 t = positionAt strategy x0 (t + p) := by
  intro t ht
  obtain ⟨d, rfl⟩ := Nat.exists_eq_add_of_le ht
  have e : i + d + p = i + p + d := by omega
  rw [e, positionAt_add strategy x0 i d, positionAt_add strategy x0 (i + p) d, ← h]

theorem positionAt_period_mul (strategy : Strategy) (x0 : Position) (i p : Nat)
    (h : positionAt strategy x0 i = positionAt strategy x0 (i + p)) :
    ∀ m t, i ≤ t → positionAt strategy x0 t = positionAt strategy x0 (t + m * p) := by
  intro m
  induction m with
  | zero => intro t _; simp
  | succ m ih =>
    intro t ht
    have e : t + (m + 1) * p = t + m * p + p := by rw [Nat.succ_mul]; omega
    rw [e, ← positionAt_period strategy x0 i p h (t + m * p) (by omega)]
    exact ih t ht

/-- A game that comes back to a position it has played from never terminates. -/
theorem positionAt_repeat_not_done (strategy : Strategy) (x0 : Position) (i j : Nat)
    (hij : i < j) (h : positionAt strategy x0 i = positionAt strategy x0 j)
    (hi : (positionAt strategy x0 i).done = false) :
    ∀ n, (positionAt strategy x0 n).done = false := by
  intro n
  obtain ⟨p, rfl⟩ := Nat.exists_eq_add_of_le (Nat.le_of_lt hij)
  have hp : 0 < p := by omega
  have hm := positionAt_period_mul strategy x0 i p h n i (Nat.le_refl i)
  apply positionAt_not_done strategy x0 n (i + n * p)
  · have : n ≤ n * p := Nat.le_mul_of_pos_right n hp
    omega
  · rw [← hm]; exact hi

theorem detect_mono (strategy : Strategy) (x0 : Position) :
    ∀ (fuel k : Nat) (v : Result × Nat), detect strategy x0 fuel k = Except.ok v →
      ∀ m, detect strategy x0 (fuel + m) k = Except.ok v := by
  intro fuel
  induction fuel with
  | zero => intro k v h; exact Except.noConfusion h
  | succ fuel ih =>
    intro k v h m
    have e : fuel + 1 + m = (fuel + m) + 1 := by omega
    rw [e]
    unfold detect at h ⊢
    split
    · rename_i hc; rw [if_pos hc] at h; exact h
    · rename_i hc
      rw [if_neg hc] at h
      split
      · rename_i hd; rw [if_pos hd] at h; exact h
      · rename_i hd
        rw [if_neg hd] at h
        split
        · rename_i he; rw [if_pos he] at h; exact h
        · rename_i he
          rw [if_neg he] at h
          exact ih (k + 1) v h m

theorem detect_mono_le (strategy : Strategy) (x0 : Position) {fuel fuel' k : Nat}
    {v : Result × Nat} (h : detect strategy x0 fuel k = Except.ok v) (hle : fuel ≤ fuel') :
    detect strategy x0 fuel' k = Except.ok v := by
  obtain ⟨m, rfl⟩ := Nat.exists_eq_add_of_le hle
  exact detect_mono strategy x0 fuel k v h m

/-- A game whose first terminal position is the `n`-th is played to that position. -/
theorem detect_terminal (strategy : Strategy) (x0 : Position) (n : Nat)
    (hn : (positionAt strategy x0 n).done = true)
    (hfirst : ∀ i, i < n → (positionAt strategy x0 i).done = false) :
    ∀ (fuel k : Nat), 1 ≤ k → 2 * k - 1 < n → n < 2 * (k + fuel) →
      detect strategy x0 fuel k =
        Except.ok ({ winner := (positionAt strategy x0 n).winner, num_steps := u32 n }, n) := by
  intro fuel
  induction fuel with
  | zero => intro k hk h1 h2; omega
  | succ fuel ih =>
    intro k hk h1 h2
    unfold detect
    have hne : ¬ (positionAt strategy x0 (k - 1) = positionAt strategy x0 (2 * k - 1)) := by
      intro heq
      have := positionAt_repeat_not_done strategy x0 (k - 1) (2 * k - 1) (by omega) heq
        (hfirst (k - 1) (by omega)) n
      rw [this] at hn
      exact Bool.noConfusion hn
    rw [if_neg hne]
    by_cases e1 : n = 2 * k
    · subst e1
      rw [if_pos hn]
    · have d1 : (positionAt strategy x0 (2 * k)).done = false := hfirst _ (by omega)
      rw [d1]
      simp only [Bool.false_eq_true, if_false]
      by_cases e2 : n = 2 * k + 1
      · subst e2
        rw [if_pos hn]
      · have d2 : (positionAt strategy x0 (2 * k + 1)).done = false := hfirst _ (by omega)
        rw [d2]
        simp only [Bool.false_eq_true, if_false]
        exact ih (k + 1) (by omega) (by omega) (by omega)

/-- What a `Cycle` verdict of the traversal means: the step count is the `unsigned`
of the iteration `K` in which the two games met. -/
theorem detect_cycle (strategy : Strategy) (x0 : Position) :
    ∀ (fuel k0 k c : Nat),
      detect strategy x0 fuel k0 = Except.ok ({ winner := Winner.kCycle, num_steps := k }, c) →
      (∀ x : Position, x.winner ≠ Winner.kCycle) →
      ∃ K, k = u32 K ∧ k0 ≤ K ∧ c = 2 * K - 1 ∧
        positionAt strategy x0 (K - 1) = positionAt strategy x0 (2 * K - 1) ∧
        ∀ j, k0 ≤ j → j < K →
          positionAt strategy x0 (j - 1) ≠ positionAt strategy x0 (2 * j - 1) ∧
          (positionAt strategy x0 (2 * j)).done = false ∧
          (positionAt strategy x0 (2 * j + 1)).done = false := by
  intro fuel
  induction fuel with
  | zero => intro k0 k c h; exact Except.noConfusion h
  | succ fuel ih =>
    intro k0 k c h hw
    unfold detect at h
    split at h
    · rename_i hc
      injection h with h
      injection h with h1 h2
      injection h1 with _ h3
      exact ⟨k0, h3.symm, Nat.le_refl _, h2.symm, hc, fun j h1 h2 => by omega⟩
    · rename_i hc
      split at h
      · injection h with h
        injection h with h1 _
        injection h1 with h3 _
        exact absurd h3 (hw _)
      · rename_i hd
        split at h
        · injection h with h
          injection h with h1 _
          injection h1 with h3 _
          exact absurd h3 (hw _)
        · rename_i he
          obtain ⟨K, a0, a1, a2, a3, a4⟩ := ih (k0 + 1) k c h hw
          refine ⟨K, a0, by omega, a2, a3, ?_⟩
          intro j hj1 hj2
          by_cases hj : j = k0
          · subst hj
            exact ⟨hc, by simpa using hd, by simpa using he⟩
          · exact a4 j (by omega) hj2

theorem Position.winner_ne_cycle (x : Position) : x.winner ≠ Winner.kCycle := by
  unfold Position.winner
  split
  · exact fun h => Winner.noConfusion h
  · split <;> exact fun h => Winner.noConfusion h

theorem Except.map_eq_ok {ε α β : Type} {f : α → β} {x : Except ε α} {y : β}
    (h : Except.map f x = Except.ok y) : ∃ o, x = Except.ok o ∧ f o = y := by
  cases x with
  | error e => exact Except.noConfusion h
  | ok o =>
    injection h with h
    exact ⟨o, rfl, h⟩

theorem GameArena.Reachable.wf {deck : Deck} {a : GameArena} (h : GameArena.Reachable deck a)
    (hdeck : deck.num_cards + 1 < 2 ^ 32) : a.WF deck := by
  induction h with
  | fresh => exact GameArena.WF_new deck hdeck
  | play a fuel cards strategy out _ hp ih =>
    exact (GameArena.Play_spec ih hdeck fuel cards strategy).2 out hp

/-- On an arena whose slow game has no slot, `PlayImpl` returns for a deal of 0 or of
1 card only. -/
theorem GameArena.PlayImpl_no_slot {a : GameArena} (h : a.slow_.l_.buffer_size = 0)
    (fuel : Nat) (cards : List Card) (strategy : Strategy) :
    a.PlayImpl fuel cards strategy =
      if cards.length = 0 then
        Except.ok { result := { winner := Winner.kDraw, num_steps := 0 }, arena := a,
                    fast_steps := 0 }
      else if cards.length = 1 then
        Except.ok { result := { winner := Winner.kRight, num_steps := 0 }, arena := a,
                    fast_steps := 0 }
      else Except.error Fault.assertion := by
  unfold GameArena.PlayImpl
  by_cases h0 : cards.length = 0
  · simp only [h0, beq_self_eq_true, if_true, pure, Except.pure]
  · by_cases h1 : cards.length = 1
    · simp only [h1, beq_self_eq_true, if_true, pure, Except.pure]
      rfl
    · have b0 : (cards.length == 0) = false := by simpa using h0
      have b1 : (cards.length == 1) = false := by simpa using h1
      simp only [b0, b1, h0, h1, Bool.false_eq_true, if_false, Game.Deal_no_slot h, bind,
        Except.bind]

/-- On an arena whose slow game has no slot, `Play` returns for a deal of 0 or of 1
card only, and then it leaves the games and the records as they are. -/
theorem GameArena.Play_no_slot {a : GameArena} (h : a.slow_.l_.buffer_size = 0)
    (fuel : Nat) (cards : List Card) (strategy : Strategy) :
    a.Play fuel cards strategy =
      if cards.length = 0 then
        Except.ok
          { result := { winner := Winner.kDraw, num_steps := 0 }
            arena := { a with stats_ := { a.stats_ with num_played := a.stats_.num_played + 1 } }
            fast_steps := 0 }
      else if cards.length = 1 then
        Except.ok
          { result := { winner := Winner.kRight, num_steps := 0 }
            arena := { a with stats_ := { a.stats_ with num_played := a.stats_.num_played + 1 } }
            fast_steps := 0 }
      else Except.error Fault.assertion := by
  unfold GameArena.Play
  rw [GameArena.PlayImpl_no_slot h]
  by_cases h0 : cards.length = 0
  · simp [h0, bind, Except.bind, pure, Except.pure]
  · by_cases h1 : cards.length = 1
    · simp [h1, bind, Except.bind, pure, Except.pure]
    · simp only [h0, h1, if_false, bind, Except.bind]

/-- The arenas of a deck of `2 ^ 32 - 1` cards have games without a slot; the arenas
of the other decks are well formed. -/
theorem GameArena.Reachable.wf_or_no_slot {deck : Deck} {a : GameArena}
    (h : GameArena.Reachable deck a) :
    (deck.num_cards + 1 < 2 ^ 32 ∧ a.WF deck) ∨
      (¬ deck.num_cards + 1 < 2 ^ 32 ∧ a.slow_.l_.buffer_size = 0) := by
  by_cases hdeck : deck.num_cards + 1 < 2 ^ 32
  · exact Or.inl ⟨hdeck, h.wf hdeck⟩
  · refine Or.inr ⟨hdeck, ?_⟩
    induction h with
    | fresh => exact Game.new_without_slot hdeck
    | play a fuel cards strategy out _ hp ih =>
      rw [GameArena.Play_no_slot ih] at hp
      split at hp
      · injection hp with hp; subst hp; exact ih
      · split at hp
        · injection hp with hp; subst hp; exact ih
        · exact Except.noConfusion hp

/-- The playout on any arena a program can hold is the traversal of the positions. -/
theorem GameArena.Play_spec_reachable {deck : Deck} {a : GameArena}
    (ha : GameArena.Reachable deck a) (fuel : Nat) (cards : List Card) (strategy : Strategy) :
    Except.map PlayOut.summary (a.Play fuel cards strategy) =
      playSpec deck fuel cards strategy := by
  rcases ha.wf_or_no_slot with ⟨hdeck, hwf⟩ | ⟨hdeck, hslot⟩
  · exact (GameArena.Play_spec hwf hdeck fuel cards strategy).1
  · rw [GameArena.Play_no_slot hslot]
    unfold playSpec
    by_cases h0 : cards.length = 0
    · simp only [h0, if_true, Except.map, PlayOut.summary]
    · by_cases h1 : cards.length = 1
      · simp only [h1, if_true, Except.map, PlayOut.summary]
        rfl
      · simp only [h0, h1, if_false, hdeck, not_false_eq_true, if_true, ite_self, Except.map]

theorem GameArena.Play_summary {deck : Deck} {a : GameArena} (ha : GameArena.Reachable deck a)
    {fuel : Nat} {cards : List Card} {strategy : Strategy} {out : PlayOut}
    (h : a.Play fuel cards strategy = Except.ok out) :
    playSpec deck fuel cards strategy = Except.ok (out.result, out.fast_steps) := by
  have := GameArena.Play_spec_reachable ha fuel cards strategy
  rw [h] at this
  exact this.symm

theorem GameArena.Play_of_spec {deck : Deck} {a : GameArena} (ha : GameArena.Reachable deck a)
    {fuel : Nat} {cards : List Card} {strategy : Strategy} {v : Result × Nat}
    (h : playSpec deck fuel cards strategy = Except.ok v) :
    ∃ out, a.Play fuel cards strategy = Except.ok out ∧ out.result = v.1 ∧
      out.fast_steps = v.2 := by
  have := GameArena.Play_spec_reachable ha fuel cards strategy
  rw [h] at this
  obtain ⟨o, h1, h2⟩ := Except.map_eq_ok this
  refine ⟨o, h1, ?_, ?_⟩
  · rw [← h2]; rfl
  · rw [← h2]; rfl

theorem playSpec_mono {deck : Deck} {fuel fuel' : Nat} {cards : List Card}
    {strategy : Strategy} {v : Result × Nat}
    (h : playSpec deck fuel cards strategy = Except.ok v) (hle : fuel ≤ fuel') :
    playSpec deck fuel' cards strategy = Except.ok v := by
  unfold playSpec at h ⊢
  split
  · rename_i h0; rw [if_pos h0] at h; exact h
  · rename_i h0
    rw [if_neg h0] at h
    split
    · rename_i h1; rw [if_pos h1] at h; exact h
    · rename_i h1
      rw [if_neg h1] at h
      split
      · rename_i hN; rw [if_pos hN] at h; exact h
      · rename_i hN
        rw [if_neg hN] at h
        split
        · rename_i hD; rw [if_pos hD] at h; exact h
        · rename_i hD
          rw [if_neg hD] at h
          split
          · rename_i hd; rw [if_pos hd] at h; exact h
          · rename_i hd
            rw [if_neg hd] at h
            exact detect_mono_le strategy _ h hle

/-- The playout of a deal of two cards or more, as the traversal sees it. -/
theorem playSpec_deal {deck : Deck} (fuel : Nat) {cards : List Card} (strategy : Strategy)
    (hdeck : deck.num_cards + 1 < 2 ^ 32)
    (hlen : cards.length = deck.num_cards) (h2 : 2 ≤ cards.length) :
    playSpec deck fuel cards strategy =
      if (positionAt strategy (dealt cards) 1).done then
        Except.ok ({ winner := (positionAt strategy (dealt cards) 1).winner, num_steps := 1 }, 1)
      else detect strategy (dealt cards) fuel 1 := by
  unfold playSpec
  rw [if_neg (by omega), if_neg (by omega), if_neg (by simpa using hlen),
    if_neg (not_not.mpr hdeck)]

theorem playSpec_terminal {deck : Deck} {cards : List Card} (strategy : Strategy)
    (hdeck : deck.num_cards + 1 < 2 ^ 32)
    (hlen : cards.length = deck.num_cards) (h2 : 2 ≤ cards.length) (n : Nat)
    (hn : (positionAt strategy (dealt cards) n).done = true)
    (hfirst : ∀ i, i < n → (positionAt strategy (dealt cards) i).done = false)
    (fuel : Nat) (hfuel : n ≤ fuel) :
    playSpec deck fuel cards strategy =
      Except.ok ({ winner := (positionAt strategy (dealt cards) n).winner,
                   num_steps := u32 n }, n) := by
  have h0 := dealt_not_done cards h2
  have hn1 : 1 ≤ n := by
    cases n with
    | zero => rw [show positionAt strategy (dealt cards) 0 = dealt cards from rfl, h0] at hn
              exact Bool.noConfusion hn
    | succ n => omega
  rw [playSpec_deal fuel strategy hdeck hlen h2]
  by_cases hd : (positionAt strategy (dealt cards) 1).done = true
  · have : n = 1 := by
      by_contra hne
      have := hfirst 1 (by omega)
      rw [this] at hd
      exact Bool.noConfusion hd
    subst this
    rw [if_pos hd]
    rfl
  · rw [if_neg hd]
    have hn2 : 1 < n := by
      by_contra hle
      have : n = 1 := by omega
      subst this
      exact hd hn
    exact detect_terminal strategy (dealt cards) n hn hfirst fuel 1 (Nat.le_refl 1)
      (by omega) (by omega)

/-- A deal that a new game accepts: the hands of the deck have slots. -/
theorem Game.Deal_new_slots {deck : Deck} {cards : List Card} {g0 : Game}
    (h : (Game.new deck).Deal cards = Except.ok g0) : deck.num_cards + 1 < 2 ^ 32 := by
  by_contra hd
  rw [Game.Deal_no_slot (Game.new_without_slot hd)] at h
  exact Except.noConfusion h

theorem Game.Deal_new {deck : Deck} {cards : List Card} {g0 : Game}
    (h : (Game.new deck).Deal cards = Except.ok g0) :
    cards.length = deck.num_cards ∧ g0.Rep (dealt cards) ∧ g0.deck_ = deck := by
  have hlen : cards.length = deck.num_cards := by
    by_contra hne
    rw [@Game.Deal_length (Game.new deck) cards hne] at h
    exact Except.noConfusion h
  obtain ⟨g', h1, h2, h3⟩ :=
    Game.Deal_rep (Game.Rep_new deck (Game.Deal_new_slots h)) cards hlen
  rw [h1] at h
  injection h with h
  subst h
  exact ⟨hlen, h3, h2⟩

theorem Game.Deal_new_ok {deck : Deck} {cards : List Card}
    (hdeck : deck.num_cards + 1 < 2 ^ 32) (hlen : cards.length = deck.num_cards) :
    ∃ g0, (Game.new deck).Deal cards = Except.ok g0 ∧ g0.Rep (dealt cards) ∧ g0.deck_ = deck := by
  obtain ⟨g', h1, h2, h3⟩ := Game.Deal_rep (Game.Rep_new deck hdeck) cards hlen
  exact ⟨g', h1, h3, h2⟩

/-- C1: for a deal of exactly `num_cards >= 2` cards (`num_cards` is the `unsigned`
product of the source) that a new game of the deck accepts, and whose game terminates
(`n` Steps from the dealt game succeed and leave a game with an empty hand) within the
range of the `unsigned` step counter, `n < 2 ^ 32`: the deck has fewer than `2 ^ 32 - 1`
cards, `n >= 1` is the index of the first terminal state, `Play` returns
`Result{GetWinner of that state, n}` after `n` Steps of the fast game for every fuel from
`n` on, and no run of `Play` returns anything else, `Cycle` in particular. -/
theorem GameArena.Play_terminating (deck : Deck) (strategy : Strategy) (cards : List Card)
    (a : GameArena) (g0 gn : Game) (n : Nat) (ha : GameArena.Reachable deck a)
    (hlen : cards.length = deck.num_cards) (h2 : 2 ≤ cards.length)
    (hdeal : (Game.new deck).Deal cards = Except.ok g0)
    (hsteps : g0.StepN strategy n = Except.ok gn) (hterm : gn.done = true)
    (hn32 : n < 2 ^ 32) :
    deck.num_cards + 1 < 2 ^ 32 ∧
    1 ≤ n ∧
    (∀ i gi, i < n → g0.StepN strategy i = Except.ok gi → gi.done = false) ∧
    (∀ fuel, n ≤ fuel → ∃ out, a.Play fuel cards strategy = Except.ok out ∧
      out.result = { winner := gn.GetWinner, num_steps := n } ∧ out.fast_steps = n) ∧
    (∀ fuel out, a.Play fuel cards strategy = Except.ok out →
      out.result = { winner := gn.GetWinner, num_steps := n } ∧
      out.result.winner ≠ Winner.kCycle) := by
  obtain ⟨_, hg0, hd0⟩ := Game.Deal_new hdeal
  have htot : (dealt cards).1.length + (dealt cards).2.length ≤ g0.deck_.num_cards := by
    rw [hd0, ← hlen]; exact Nat.le_of_eq (dealt_length cards)
  obtain ⟨hfirst, hgn, _⟩ := Game.StepN_ok strategy hg0 htot hsteps
  have hn : (positionAt strategy (dealt cards) n).done = true := by
    rw [← Game.Rep_done hgn]; exact hterm
  have hdeck := Game.Deal_new_slots hdeal
  have hspec := @playSpec_terminal deck cards strategy hdeck hlen h2 n hn hfirst
  rw [u32_of_lt hn32] at hspec
  have hw := Game.Rep_winner hgn
  have hn1 : 1 ≤ n := by
    cases n with
    | zero =>
      rw [show positionAt strategy (dealt cards) 0 = dealt cards from rfl,
        dealt_not_done cards h2] at hn
      exact Bool.noConfusion hn
    | succ n => omega
  refine ⟨hdeck, hn1, ?_, ?_, ?_⟩
  · intro i gi hi hgi
    obtain ⟨_, hri, _⟩ := Game.StepN_ok strategy hg0 htot hgi
    rw [Game.Rep_done hri]
    exact hfirst i hi
  · intro fuel hfuel
    obtain ⟨out, h1, h2, h3⟩ := GameArena.Play_of_spec ha (hspec fuel hfuel)
    exact ⟨out, h1, by rw [h2, hw], h3⟩
  · intro fuel out hplay
    have h1 := playSpec_mono (GameArena.Play_summary ha hplay) (Nat.le_max_left fuel n)
    rw [hspec (max fuel n) (Nat.le_max_right fuel n)] at h1
    injection h1 with h1
    injection h1 with h1 _
    rw [← h1, hw]
    exact ⟨rfl, Position.winner_ne_cycle _⟩

/-- A playout of two cards or more has a verdict only for a deck whose hands have
slots. -/
theorem playSpec_slots {deck : Deck} {fuel : Nat} {cards : List Card} {strategy : Strategy}
    {v : Result × Nat} (h : playSpec deck fuel cards strategy = Except.ok v)
    (h2 : 2 ≤ cards.length) : deck.num_cards + 1 < 2 ^ 32 := by
  by_contra hd
  unfold playSpec at h
  rw [if_neg (by omega), if_neg (by omega)] at h
  by_cases hN : cards.length ≠ deck.num_cards
  · rw [if_pos hN] at h
    exact Except.noConfusion h
  · rw [if_neg hN, if_pos hd] at h
    exact Except.noConfusion h

/-- What a `Cycle` result of `playSpec` means for the sequence of positions: the step
count is the `unsigned` of the iteration `K` in which the two games met. -/
theorem playSpec_cycle {deck : Deck} {fuel : Nat} {cards : List Card} {strategy : Strategy}
    {k c : Nat}
    (h : playSpec deck fuel cards strategy =
      Except.ok ({ winner := Winner.kCycle, num_steps := k }, c)) :
    deck.num_cards + 1 < 2 ^ 32 ∧ cards.length = deck.num_cards ∧ 2 ≤ cards.length ∧
    ∃ K, k = u32 K ∧ 1 ≤ K ∧ c = 2 * K - 1 ∧
      positionAt strategy (dealt cards) (K - 1) = positionAt strategy (dealt cards) (2 * K - 1) ∧
      (∀ j, 1 ≤ j → j < K →
        positionAt strategy (dealt cards) (j - 1) ≠ positionAt strategy (dealt cards) (2 * j - 1)) ∧
      ∀ n, (positionAt strategy (dealt cards) n).done = false := by
  have hlen := playSpec_length h (Or.inl rfl)
  have h2 : 2 ≤ cards.length := by
    unfold playSpec at h
    by_cases h0 : cards.length = 0
    · rw [if_pos h0] at h
      injection h with h; injection h with h _; injection h with h _
      exact Winner.noConfusion h
    · by_cases h1 : cards.length = 1
      · rw [if_neg h0, if_pos h1] at h
        injection h with h; injection h with h _; injection h with h _
        exact Winner.noConfusion h
      · omega
  have hdeck := playSpec_slots h h2
  rw [playSpec_deal fuel strategy hdeck hlen h2] at h
  by_cases hd : (positionAt strategy (dealt cards) 1).done = true
  · rw [if_pos hd] at h
    injection h with h; injection h with h _; injection h with h _
    exact absurd h (Position.winner_ne_cycle _)
  · rw [if_neg hd] at h
    have hd1 : (positionAt strategy (dealt cards) 1).done = false := by simpa using hd
    obtain ⟨K, a0, a1, a2, a3, a4⟩ := detect_cycle strategy (dealt cards) fuel 1 k c h
      Position.winner_ne_cycle
    have hk1 : (positionAt strategy (dealt cards) (K - 1)).done = false := by
      by_cases hk : K = 1
      · subst hk
        exact dealt_not_done cards h2
      · have := (a4 (K - 1) (by omega) (by omega)).2.1
        exact positionAt_not_done strategy _ (K - 1) (2 * (K - 1)) (by omega) this
    refine ⟨hdeck, hlen, h2, K, a0, a1, a2, a3, fun j h1 h2 => (a4 j h1 h2).1, ?_⟩
    exact positionAt_repeat_not_done strategy _ (K - 1) (2 * K - 1) (by omega) a3 hk1

/-- C2: if `Play` returns `Cycle`, the game never terminates: every number of Steps
from the dealt game succeeds and leaves both hands non-empty. -/
theorem GameArena.Play_cycle_never_terminates (deck : Deck) (strategy : Strategy)
    (cards : List Card) (a : GameArena) (fuel k : Nat) (ha : GameArena.Reachable deck a)
    (hplay : Except.map PlayOut.result (a.Play fuel cards strategy) =
      Except.ok { winner := Winner.kCycle, num_steps := k }) :
    cards.length = deck.num_cards ∧
    ∃ g0, (Game.new deck).Deal cards = Except.ok g0 ∧
      ∀ i, ∃ gi, g0.StepN strategy i = Except.ok gi ∧ gi.done = false ∧
        gi.l_.toList ≠ [] ∧ gi.r_.toList ≠ [] := by
  obtain ⟨out, hout, hres⟩ := Except.map_eq_ok hplay
  have hs := GameArena.Play_summary ha hout
  rw [hres] at hs
  obtain ⟨hdeck, hlen, _, _, _, _, _, _, _, hnever⟩ := playSpec_cycle hs
  obtain ⟨g0, hdeal, hg0, hd0⟩ := Game.Deal_new_ok hdeck hlen
  refine ⟨hlen, g0, hdeal, ?_⟩
  intro i
  have htot : (dealt cards).1.length + (dealt cards).2.length ≤ g0.deck_.num_cards := by
    rw [hd0, ← hlen]; exact Nat.le_of_eq (dealt_length cards)
  obtain ⟨gi, h1, _, h3⟩ := Game.StepN_rep strategy hg0 htot i (fun j _ => hnever j)
  have hdone := hnever i
  refine ⟨gi, h1, by rw [Game.Rep_done h3]; exact hdone, ?_, ?_⟩
  · intro hnil
    rw [← Game.Rep_position h3] at hdone
    simp [Position.done, Game.position, hnil] at hdone
  · intro hnil
    rw [← Game.Rep_position h3] at hdone
    simp [Position.done, Game.position, hnil] at hdone

/-- C3: when `Play` returns `Cycle` with `num_steps = k` after `c` Steps of the fast
game, and `c` is in the range of an `unsigned`, `c < 2 ^ 32` (so that the step counter
has not wrapped): then `k >= 1`, `c = 2 * k - 1`, the games after `k - 1` and after
`2 * k - 1` Steps from the deal compare equal with `operator==`, for no `j` with
`1 <= j < k` the games after `j - 1` and `2 * j - 1` Steps compare equal, and none of
the games after `1 .. 2 * k - 1` Steps is terminal. -/
theorem GameArena.Play_cycle_detection_index (deck : Deck) (strategy : Strategy)
    (cards : List Card) (a : GameArena) (fuel k c : Nat) (ha : GameArena.Reachable deck a)
    (hplay : Except.map PlayOut.summary (a.Play fuel cards strategy) =
      Except.ok ({ winner := Winner.kCycle, num_steps := k }, c))
    (hc : c < 2 ^ 32) :
    1 ≤ k ∧ c = 2 * k - 1 ∧
    ∃ g0, (Game.new deck).Deal cards = Except.ok g0 ∧
      (∃ gs gf, g0.StepN strategy (k - 1) = Except.ok gs ∧
        g0.StepN strategy (2 * k - 1) = Except.ok gf ∧ Game.eq gs gf = Except.ok true) ∧
      (∀ j, 1 ≤ j → j < k → ∃ gs gf, g0.StepN strategy (j - 1) = Except.ok gs ∧
        g0.StepN strategy (2 * j - 1) = Except.ok gf ∧ Game.eq gs gf = Except.ok false) ∧
      (∀ i, 1 ≤ i → i ≤ 2 * k - 1 → ∃ gi, g0.StepN strategy i = Except.ok gi ∧
        gi.done = false) := by
  have hs := (GameArena.Play_spec_reachable ha fuel cards strategy).symm.trans hplay
  obtain ⟨hdeck, hlen, _, K, hkK, hK, hcK, hmeet, hmin, hnever⟩ := playSpec_cycle hs
  have hKk : k = K := by rw [hkK]; exact u32_of_lt (by omega)
  subst hKk
  have hk := hK
  obtain ⟨g0, hdeal, hg0, hd0⟩ := Game.Deal_new_ok hdeck hlen
  have htot : (dealt cards).1.length + (dealt cards).2.length ≤ g0.deck_.num_cards := by
    rw [hd0, ← hlen]; exact Nat.le_of_eq (dealt_length cards)
  have hstep : ∀ i, ∃ gi, g0.StepN strategy i = Except.ok gi ∧ gi.deck_ = g0.deck_ ∧
      gi.Rep (positionAt strategy (dealt cards) i) :=
    fun i => Game.StepN_rep strategy hg0 htot i (fun j _ => hnever j)
  refine ⟨hk, hcK, g0, hdeal, ?_, ?_, ?_⟩
  · obtain ⟨gs, s1, s2, s3⟩ := hstep (k - 1)
    obtain ⟨gf, f1, f2, f3⟩ := hstep (2 * k - 1)
    refine ⟨gs, gf, s1, f1, ?_⟩
    rw [Game.eq_rep s3 f3 (by rw [f2, s2])]
    simp [hmeet]
  · intro j hj1 hj2
    obtain ⟨gs, s1, s2, s3⟩ := hstep (j - 1)
    obtain ⟨gf, f1, f2, f3⟩ := hstep (2 * j - 1)
    refine ⟨gs, gf, s1, f1, ?_⟩
    rw [Game.eq_rep s3 f3 (by rw [f2, s2])]
    simp [hmin j hj1 hj2]
  · intro i _ _
    obtain ⟨gi, h1, _, h3⟩ := hstep i
    exact ⟨gi, h1, by rw [Game.Rep_done h3]; exact hnever i⟩

/-- C5: the `Result` of `Play` depends only on the deck, the cards and the strategy:
an arena that earlier `Play` calls have used returns, for every fuel, what a new
arena of the deck returns, an aborted run included. -/
theorem GameArena.Play_independent_of_history (deck : Deck) (a : GameArena)
    (ha : GameArena.Reachable deck a) (fuel : Nat) (cards : List Card) (strategy : Strategy) :
    Except.map PlayOut.result (a.Play fuel cards strategy) =
      Except.map PlayOut.result ((GameArena.new deck).Play fuel cards strategy) := by
  have h1 := GameArena.Play_spec_reachable ha fuel cards strategy
  have h2 := GameArena.Play_spec_reachable (@GameArena.Reachable.fresh deck) fuel cards strategy
  rw [← h2] at h1
  cases hp : a.Play fuel cards strategy with
  | error e =>
    cases hq : (GameArena.new deck).Play fuel cards strategy with
    | error e' =>
      rw [hp, hq] at h1
      injection h1 with h1
      rw [h1]
    | ok o' =>
      rw [hp, hq] at h1
      exact Except.noConfusion h1
  | ok o =>
    cases hq : (GameArena.new deck).Play fuel cards strategy with
    | error e' =>
      rw [hp, hq] at h1
      exact Except.noConfusion h1
    | ok o' =>
      rw [hp, hq] at h1
      injection h1 with h1
      injection h1 with h1 _
      show Except.ok o.result = Except.ok o'.result
      rw [h1]

/-! ## One Step -/

theorem dup_eq_flatMap (cs : List Card) : dup cs = cs.flatMap (fun c => [c, c]) := by
  induction cs with
  | nil => rfl
  | cons c cs ih => simp [dup, ih]

theorem Game.Inv.rep {g : Game} (hinv : g.Inv) (hnum : g.num_ties_ = 0) : g.Rep g.position :=
  ⟨⟨hinv.l_wf, hinv.l_size, rfl⟩, ⟨hinv.r_wf, hinv.r_size, rfl⟩, hinv.ties_size, hnum⟩

theorem Game.Rep.inv {g : Game} {x : Position} (hg : g.Rep x)
    (htot : x.1.length + x.2.length ≤ g.deck_.num_cards) : g.Inv :=
  { l_wf := hg.1.1, r_wf := hg.2.1.1, l_size := hg.1.2.1, r_size := hg.2.1.2.1
    ties_size := hg.2.2.1
    total := by rw [hg.1.2.2, hg.2.1.2.2]; exact htot }

theorem roundLoop_cons (strategy : Strategy) (acc : List Card) (cl cr : Card)
    (l r : List Card) :
    roundLoop strategy acc (cl :: l) (cr :: r) =
      if cl = cr then
        if l.isEmpty || r.isEmpty then (l, r) else roundLoop strategy (acc ++ [cl]) l r
      else if cr < cl then (l ++ pushed strategy cl cr acc, r)
      else (l, r ++ pushed strategy cr cl acc) := by
  rw [roundLoop]

theorem roundLoop_decided (strategy : Strategy) (a b : Card) (hab : a ≠ b) (l r : List Card) :
    ∀ (ts acc : List Card),
      roundLoop strategy acc (ts ++ a :: l) (ts ++ b :: r) =
        if b < a then (l ++ pushed strategy a b (acc ++ ts), r)
        else (l, r ++ pushed strategy b a (acc ++ ts)) := by
  intro ts
  induction ts with
  | nil =>
    intro acc
    rw [List.nil_append, List.nil_append, List.append_nil, roundLoop_cons, if_neg hab]
  | cons t ts ih =>
    intro acc
    have e1 : (ts ++ a :: l).isEmpty = false := by cases ts <;> rfl
    have e2 : (ts ++ b :: r).isEmpty = false := by cases ts <;> rfl
    rw [List.cons_append, List.cons_append, roundLoop_cons, if_pos rfl, e1, e2]
    simp only [Bool.or_self, Bool.false_eq_true, if_false]
    rw [ih (acc ++ [t])]
    simp only [List.append_assoc, List.singleton_append]

theorem roundLoop_exhausted (strategy : Strategy) (l r : List Card) (hlr : l = [] ∨ r = []) :
    ∀ (ts acc : List Card), ts ≠ [] →
      roundLoop strategy acc (ts ++ l) (ts ++ r) = (l, r) := by
  intro ts
  induction ts with
  | nil => intro acc h; exact absurd rfl h
  | cons t ts ih =>
    intro acc _
    rw [List.cons_append, List.cons_append, roundLoop_cons, if_pos rfl]
    cases ts with
    | nil =>
      have e : (l.isEmpty || r.isEmpty) = true := by
        rcases hlr with h | h <;> simp [h]
      rw [List.nil_append, List.nil_append, e, if_pos rfl]
    | cons t' ts' =>
      have e : ((t' :: ts' ++ l).isEmpty || (t' :: ts' ++ r).isEmpty) = false := rfl
      rw [e]
      simp only [Bool.false_eq_true, if_false]
      exact ih (acc ++ [t]) (by simp)

/-- C6: `Step` with the natural strategy on a game whose hands are
`left = [t1..tm, a] ++ L'` and `right = [t1..tm, b] ++ R'` with `a != b`: if `a > b`
the hands become `L' ++ [a, b, tm, tm, .., t1, t1]` and `R'`, if `b > a` they become
`L'` and `R' ++ [b, a, tm, tm, .., t1, t1]`; `Step` returns whether a hand is empty. -/
theorem Game.Step_natural_deciding_pair (g : Game) (ts L R : List Card) (a b : Card)
    (hinv : g.Inv) (hnum : g.num_ties_ = 0) (hl : g.l_.toList = ts ++ a :: L)
    (hr : g.r_.toList = ts ++ b :: R) (hab : a ≠ b) :
    ∃ g', g.Step Strategy.kNatural = Except.ok (g'.l_.empty || g'.r_.empty, g') ∧
      (b < a → g'.l_.toList = L ++ a :: b :: ts.reverse.flatMap (fun t => [t, t]) ∧
        g'.r_.toList = R) ∧
      (a < b → g'.l_.toList = L ∧
        g'.r_.toList = R ++ b :: a :: ts.reverse.flatMap (fun t => [t, t])) := by
  have hrep := hinv.rep hnum
  have hnd : g.position.done = false := by
    simp only [Game.position, Position.done, hl, hr]
    cases ts <;> rfl
  obtain ⟨g', h1, _, h3⟩ := Game.Step_rep Strategy.kNatural hrep hnd hinv.total
  have hround : round Strategy.kNatural g.position =
      if b < a then (L ++ pushed Strategy.kNatural a b ts, R)
      else (L, R ++ pushed Strategy.kNatural b a ts) := by
    have := roundLoop_decided Strategy.kNatural a b hab L R ts []
    simpa only [round, Game.position, hl, hr, List.nil_append] using this
  have hpos := Game.Rep_position h3
  refine ⟨g', ?_, ?_, ?_⟩
  · rw [h1, ← Game.Rep_done h3]; rfl
  · intro hlt
    rw [hround, if_pos hlt] at hpos
    simp only [Game.position, Prod.mk.injEq, pushed, dup_eq_flatMap] at hpos
    exact hpos
  · intro hlt
    have hnlt : ¬ b < a := Nat.not_lt_of_gt hlt
    rw [hround, if_neg hnlt] at hpos
    simp only [Game.position, Prod.mk.injEq, pushed, dup_eq_flatMap] at hpos
    exact hpos

/-- C7: `Step`, with either strategy, on a game whose hands are `left = [t1..tm] ++ L'`
and `right = [t1..tm] ++ R'` with `m >= 1` and `L'` or `R'` empty: it returns true,
leaves the hands as exactly `L'` and `R'`, and leaves the tie counter at zero. -/
theorem Game.Step_tie_chain_exhausts (g : Game) (strategy : Strategy) (ts L R : List Card)
    (hinv : g.Inv) (hnum : g.num_ties_ = 0) (hl : g.l_.toList = ts ++ L)
    (hr : g.r_.toList = ts ++ R) (hts : ts ≠ []) (hLR : L = [] ∨ R = []) :
    ∃ g', g.Step strategy = Except.ok (true, g') ∧ g'.l_.toList = L ∧ g'.r_.toList = R ∧
      g'.num_ties_ = 0 := by
  have hrep := hinv.rep hnum
  have hnd : g.position.done = false := by
    simp only [Game.position, Position.done, hl, hr]
    cases ts with
    | nil => exact absurd rfl hts
    | cons t ts => rfl
  obtain ⟨g', h1, _, h3⟩ := Game.Step_rep strategy hrep hnd hinv.total
  have hround : round strategy g.position = (L, R) := by
    have := roundLoop_exhausted strategy L R hLR ts [] hts
    simpa only [round, Game.position, hl, hr] using this
  have hpos := Game.Rep_position h3
  rw [hround] at h1 hpos
  simp only [Game.position, Prod.mk.injEq] at hpos
  have hd : Position.done (L, R) = true := by
    rcases hLR with h | h <;> simp [Position.done, h]
  rw [hd] at h1
  exact ⟨g', h1, hpos.1, hpos.2, h3.2.2.2⟩

/-- C8: for a non-terminal game with tie counter zero, `Step` (with either strategy)
returns, it returns true if and only if a hand is empty after the Step, the tie
counter is zero again, and the game it leaves satisfies the class invariant. -/
theorem Game.Step_returns_terminal_flag (g : Game) (strategy : Strategy) (hinv : g.Inv)
    (hnum : g.num_ties_ = 0) (hnt : g.done = false) :
    ∃ b g', g.Step strategy = Except.ok (b, g') ∧
      (b = true ↔ (g'.l_.empty = true ∨ g'.r_.empty = true)) ∧
      (b = true ↔ (g'.l_.toList = [] ∨ g'.r_.toList = [])) ∧
      g'.num_ties_ = 0 ∧ g'.Inv := by
  have hrep := hinv.rep hnum
  have hnd : g.position.done = false := by rw [← Game.Rep_done hrep]; exact hnt
  obtain ⟨g', h1, h2, h3⟩ := Game.Step_rep strategy hrep hnd hinv.total
  have hd := Game.Rep_done h3
  have hpos := Game.Rep_position h3
  refine ⟨_, g', h1, ?_, ?_, h3.2.2.2, ?_⟩
  · rw [← hd]
    simp only [Game.done, Bool.or_eq_true]
  · rw [← hpos]
    simp only [Position.done, Game.position, Bool.or_eq_true, List.isEmpty_iff]
  · apply Game.Rep.inv h3
    rw [h2]
    exact Nat.le_trans (round_length strategy _) hinv.total

/-- C9: `Deal` on `n = num_cards` cards returns, whatever the hands held before, a
game whose left hand is the first `floor(n/2)` cards and whose right hand is the
remaining `ceil(n/2)` cards, in input order. -/
theorem Game.Deal_splits (g : Game) (cards : List Card)
    (hl : g.l_.buffer_size = g.deck_.num_cards + 1)
    (hr : g.r_.buffer_size = g.deck_.num_cards + 1)
    (hlen : cards.length = g.deck_.num_cards) :
    ∃ g', g.Deal cards = Except.ok g' ∧
      g'.l_.toList = cards.take (cards.length / 2) ∧
      g'.r_.toList = cards.drop (cards.length / 2) ∧
      g'.l_.toList.length = cards.length / 2 ∧
      g'.r_.toList.length = (cards.length + 1) / 2 ∧
      g'.l_.toList ++ g'.r_.toList = cards := by
  obtain ⟨l', al, _, _, tl⟩ := Hand.Assign_spec g.l_ cards (cards.length / 2)
    (by rw [hl]; omega) (by omega)
  obtain ⟨r', ar, _, _, tr⟩ := Hand.Assign_spec g.r_ (cards.drop (cards.length / 2))
    (cards.length - cards.length / 2) (by rw [hr]; omega) (by simp)
  have tr' : r'.toList = cards.drop (cards.length / 2) := by
    rw [tr]
    apply List.take_of_length_le
    simp
  refine ⟨{ g with l_ := l', r_ := r' }, ?_, tl, tr', ?_, ?_, ?_⟩
  · simp only [Game.Deal, hlen, beq_self_eq_true, assertThat, if_true, bind, Except.bind]
    rw [← hlen, al, ar]
    rfl
  · show l'.toList.length = _
    rw [tl, List.length_take]; omega
  · show r'.toList.length = _
    rw [tr', List.length_drop]; omega
  · show l'.toList ++ r'.toList = cards
    rw [tl, tr', List.take_append_drop]

/-! ## The deck -/

theorem Deck.MakeInner_eq (i : Nat) :
    ∀ (j : Nat) (cards : List Card),
      Deck.MakeInner i j cards = cards ++ List.replicate j (i % 256) := by
  intro j
  induction j with
  | zero => intro cards; simp [Deck.MakeInner]
  | succ j ih =>
    intro cards
    rw [Deck.MakeInner, ih, List.append_assoc]
    congr 1

theorem Deck.MakeOuter_eq (colors : Nat) :
    ∀ (todo i : Nat) (cards : List Card),
      Deck.MakeOuter colors todo i cards = cards ++ Deck.blocks colors i todo := by
  intro todo
  induction todo with
  | zero => intro i cards; simp [Deck.MakeOuter, Deck.blocks]
  | succ todo ih =>
    intro i cards
    rw [Deck.MakeOuter, ih, Deck.MakeInner_eq, Deck.blocks, List.append_assoc]

theorem Deck.Make_eq (d : Deck) : d.Make = Deck.blocks d.colors 1 d.values := by
  rw [Deck.Make, Deck.MakeOuter_eq, List.nil_append]

theorem Deck.blocks_length (colors : Nat) :
    ∀ (todo i : Nat), (Deck.blocks colors i todo).length = colors * todo := by
  intro todo
  induction todo with
  | zero => intro i; rfl
  | succ todo ih =>
    intro i
    rw [Deck.blocks, List.length_append, List.length_replicate, ih, Nat.mul_succ, Nat.add_comm]

theorem Deck.blocks_mem (colors : Nat) :
    ∀ (todo i : Nat), i + todo ≤ 256 → ∀ c : Nat, c ∈ Deck.blocks colors i todo →
      i ≤ c ∧ c < i + todo := by
  intro todo
  induction todo with
  | zero => intro i _ c hc; simp [Deck.blocks] at hc
  | succ todo ih =>
    intro i hi c hc
    rw [Deck.blocks, List.mem_append] at hc
    rcases hc with hc | hc
    · have := (List.mem_replicate.mp hc).2
      rw [Nat.mod_eq_of_lt (by omega)] at this
      omega
    · have := ih (i + 1) (by omega) c hc
      omega

theorem Deck.blocks_sorted (colors : Nat) :
    ∀ (todo i : Nat), i + todo ≤ 256 → (Deck.blocks colors i todo).Sorted (· ≤ ·) := by
  intro todo
  induction todo with
  | zero => intro i _; exact List.sorted_nil
  | succ todo ih =>
    intro i hi
    rw [Deck.blocks]
    unfold List.Sorted
    rw [List.pairwise_append]
    refine ⟨?_, ih (i + 1) (by omega), ?_⟩
    · rw [List.pairwise_replicate]
      right
      exact Nat.le_refl _
    · intro (a : Nat) ha (b : Nat) hb
      have h1 := (List.mem_replicate.mp ha).2
      rw [Nat.mod_eq_of_lt (by omega)] at h1
      have h2 := Deck.blocks_mem colors todo (i + 1) (by omega) b hb
      show a ≤ b
      rw [h1]
      exact Nat.le_trans (Nat.le_succ i) h2.1

theorem Deck.blocks_count (colors : Nat) :
    ∀ (todo i : Nat), i + todo ≤ 256 → ∀ v, i ≤ v → v < i + todo →
      (Deck.blocks colors i todo).count v = colors := by
  intro todo
  induction todo with
  | zero => intro i _ v h1 h2; omega
  | succ todo ih =>
    intro i hi v h1 h2
    rw [Deck.blocks, List.count_append, Nat.mod_eq_of_lt (by omega)]
    by_cases hv : v = i
    · subst hv
      have hnot : v ∉ Deck.blocks colors (v + 1) todo := by
        intro hmem
        have := Deck.blocks_mem colors todo (v + 1) (by omega) v hmem
        omega
      rw [List.count_replicate_self, List.count_eq_zero_of_not_mem hnot, Nat.add_zero]
    · have hne : ¬ ((i == v) = true) := by simpa using fun h => hv h.symm
      rw [List.count_replicate, if_neg hne, ih (i + 1) (by omega) v (by omega) (by omega)]
      omega

/-- C10, as the code has it: for a deck of at most 255 values, `Make` returns
`colors * values` cards, ascending, all of them in `1..values`, and each value of
`1..values` exactly `colors` times. -/
theorem Deck.Make_spec (d : Deck) (hv : d.values ≤ 255) :
    d.Make.length = d.colors * d.values ∧ d.Make.Sorted (· ≤ ·) ∧
      (∀ c : Nat, c ∈ d.Make → 1 ≤ c ∧ c ≤ d.values) ∧
      ∀ v, 1 ≤ v → v ≤ d.values → d.Make.count v = d.colors := by
  rw [Deck.Make_eq]
  refine ⟨Deck.blocks_length _ _ _, Deck.blocks_sorted _ _ _ (by omega), ?_, ?_⟩
  · intro c hc
    have := Deck.blocks_mem _ _ _ (by omega) c hc
    omega
  · intro v h1 h2
    exact Deck.blocks_count _ _ _ (by omega) v h1 (by omega)

theorem Deck.blocks_lt (colors : Nat) :
    ∀ (todo i : Nat) (c : Nat), c ∈ Deck.blocks colors i todo → c < 256 := by
  intro todo
  induction todo with
  | zero => intro i c hc; simp [Deck.blocks] at hc
  | succ todo ih =>
    intro i c hc
    rw [Deck.blocks, List.mem_append] at hc
    rcases hc with hc | hc
    · rw [(List.mem_replicate.mp hc).2]
      exact Nat.mod_lt _ (by decide)
    · exact ih (i + 1) c hc

/-- C10 fails for a deck of 256 values: the value 256 is narrowed to the card 0, so
`Make` holds no card 256. -/
theorem Deck.Make_256_not_spec :
    ¬ ((Deck.Make { colors := 1, values := 256 }).length = 1 * 256 ∧
      (Deck.Make { colors := 1, values := 256 }).Sorted (· ≤ ·) ∧
      ∀ v, 1 ≤ v → v ≤ 256 → (Deck.Make { colors := 1, values := 256 }).count v = 1) := by
  intro h
  have h1 := h.2.2 256 (by decide) (by decide)
  have h2 : (256 : Nat) ∉ Deck.Make { colors := 1, values := 256 } := by
    intro hmem
    rw [Deck.Make_eq] at hmem
    exact absurd (Deck.blocks_lt _ _ _ _ hmem) (by decide)
  rw [List.count_eq_zero_of_not_mem h2] at h1
  exact absurd h1 (by decide)

/-! ## The hand as a queue -/

theorem Hand.copy_eq (h : Hand) : h.copy = h := by
  simp [Hand.copy, Hand.buffer_size]

theorem Hand.PushList_rep {cap : Nat} (cs : List Card) :
    ∀ {h : Hand} {xs : List Card}, Hand.Rep cap h xs → xs.length + cs.length < cap →
      Hand.Rep cap (h.PushList cs) (xs ++ cs) := by
  induction cs with
  | nil => intro h xs hr _; simpa [Hand.PushList] using hr
  | cons c cs ih =>
    intro h xs hr hroom
    simp only [List.length_cons] at hroom
    have h1 := Hand.Push_rep hr c (by omega)
    have h2 := ih h1 (by simp only [List.length_append, List.length_cons, List.length_nil]; omega)
    simpa [Hand.PushList] using h2

theorem Hand.PopN_rep {cap : Nat} (xs : List Card) :
    ∀ {h : Hand}, Hand.Rep cap h xs →
      ∃ h', Hand.PopN xs.length h = Except.ok (xs, h') ∧ Hand.Rep cap h' [] := by
  induction xs with
  | nil => intro h hr; exact ⟨h, rfl, hr⟩
  | cons x xs ih =>
    intro h hr
    obtain ⟨h1, p1, r1⟩ := Hand.Pop_cons hr
    obtain ⟨h2, p2, r2⟩ := ih r1
    refine ⟨h2, ?_, r2⟩
    simp only [List.length_cons, Hand.PopN, bind, Except.bind, p1, p2, pure, Except.pure]

/-- C11: a hand of capacity `max_cards`, with its cursors anywhere in the buffer, that
holds the sequence `s`: after `Push` of the cards of `xs`, `|s| + |xs| <= max_cards`,
the next `|s| + |xs|` calls of `Pop` return exactly `s ++ xs` and leave the hand
empty. -/
theorem Hand.fifo_across_wrap (h : Hand) (max_cards : Nat) (xs : List Card) (hw : h.WF)
    (hcap : h.buffer_size = max_cards + 1)
    (hlen : h.toList.length + xs.length ≤ max_cards) :
    ∃ h', Hand.PopN (h.toList.length + xs.length) (h.PushList xs) =
        Except.ok (h.toList ++ xs, h') ∧
      h'.empty = true ∧ h'.toList = [] := by
  have hr : Hand.Rep (max_cards + 1) h h.toList := ⟨hw, hcap, rfl⟩
  have h1 := Hand.PushList_rep xs hr (by omega)
  obtain ⟨h', p, r⟩ := Hand.PopN_rep (h.toList ++ xs) h1
  rw [List.length_append] at p
  exact ⟨h', p, by rw [Hand.Rep_empty r]; rfl, r.2.2⟩

/-- C12: for two hands of the same capacity, `operator==` returns true if and only if
their logical sequences are identical, wherever the cursors are. -/
theorem Hand.eq_iff_same_sequence (l r : Hand) (hl : l.WF) (hr : r.WF)
    (hcap : l.buffer_size = r.buffer_size) :
    Hand.eq l r = Except.ok (decide (l.toList = r.toList)) ∧
      (Hand.eq l r = Except.ok true ↔ l.toList = r.toList) := by
  have h1 : Hand.eq l r = Except.ok (decide (l.toList = r.toList)) :=
    @Hand.eq_of_rep r.buffer_size l r l.toList r.toList ⟨hl, hcap, rfl⟩ ⟨hr, rfl, rfl⟩
  refine ⟨h1, ?_⟩
  rw [h1]
  constructor
  · intro h
    injection h with h
    exact of_decide_eq_true h
  · intro h
    rw [decide_eq_true h]

/-! ## The optimized order -/

theorem mem_dup (x : Nat) (cs : List Card) : x ∈ dup cs ↔ x ∈ cs := by
  induction cs with
  | nil => simp [dup]
  | cons c cs ih => simp [dup, ih]

theorem dup_sorted (cs : List Card) (h : cs.Pairwise (fun a b : Nat => b ≤ a)) :
    (dup cs).Pairwise (fun a b : Nat => b ≤ a) := by
  induction cs with
  | nil => exact List.Pairwise.nil
  | cons c cs ih =>
    rw [List.pairwise_cons] at h
    simp only [dup, List.pairwise_cons]
    refine ⟨?_, ?_, ih h.2⟩
    · intro b hb
      rw [List.mem_cons] at hb
      rcases hb with hb | hb
      · rw [hb]
      · exact h.1 b ((mem_dup b cs).mp hb)
    · intro b hb
      exact h.1 b ((mem_dup b cs).mp hb)

theorem dropWhile_le_of_sorted (v : Nat) (cs : List Card)
    (h : cs.Pairwise (fun a b : Nat => b ≤ a)) :
    ∀ x : Nat, x ∈ cs.dropWhile (fun x => decide (v < x)) → x ≤ v := by
  induction cs with
  | nil => intro x hx; simp at hx
  | cons c cs ih =>
    rw [List.pairwise_cons] at h
    intro x hx
    by_cases hc : v < c
    · rw [List.dropWhile_cons_of_pos (by simpa using hc)] at hx
      exact ih h.2 x hx
    · rw [List.dropWhile_cons_of_neg (by simpa using hc)] at hx
      rw [List.mem_cons] at hx
      rcases hx with hx | hx
      · rw [hx]; exact Nat.le_of_not_lt hc
      · exact Nat.le_trans (h.1 x hx) (Nat.le_of_not_lt hc)

theorem insertionSort_desc (cs : List Card) :
    (cs.insertionSort (fun a b => b ≤ a)).Pairwise (fun a b : Nat => b ≤ a) := by
  have : IsTotal Nat (fun a b => b ≤ a) := ⟨fun a b => Nat.le_total b a⟩
  have : IsTrans Nat (fun a b => b ≤ a) := ⟨fun a b c h1 h2 => Nat.le_trans h2 h1⟩
  exact List.sorted_insertionSort (fun a b : Nat => b ≤ a) cs

/-- The shape of what the optimized strategy appends. -/
theorem pushed_optimized (hi lo : Card) (ties : List Card) (hlt : lo < hi) :
    ∃ A B C : List Card,
      pushed Strategy.kOptimized hi lo ties = dup A ++ hi :: (dup B ++ lo :: dup C) ∧
      A ++ (B ++ C) = ties.insertionSort (fun a b => b ≤ a) ∧
      (∀ a : Nat, a ∈ A → hi < a) ∧ (∀ b : Nat, b ∈ B → lo < b ∧ b ≤ hi) ∧
      (∀ c : Nat, c ∈ C → c ≤ lo) ∧
      (dup A ++ hi :: (dup B ++ lo :: dup C)).Pairwise (fun a b : Nat => b ≤ a) := by
  have hs := insertionSort_desc ties
  simp only [pushed]
  generalize ties.insertionSort (fun a b => b ≤ a) = sorted at hs ⊢
  have e1 := List.takeWhile_append_dropWhile (fun x => decide (hi < x)) sorted
  have e2 := List.takeWhile_append_dropWhile (fun x => decide (lo < x))
    (sorted.dropWhile (fun x => decide (hi < x)))
  have hA : ∀ a : Nat, a ∈ sorted.takeWhile (fun x => decide (hi < x)) → hi < a := by
    intro a ha
    simpa using List.mem_takeWhile_imp ha
  have hrest : (sorted.dropWhile (fun x => decide (hi < x))).Pairwise (fun a b : Nat => b ≤ a) :=
    hs.sublist (List.dropWhile_sublist _)
  have hR := dropWhile_le_of_sorted hi sorted hs
  have hB : ∀ b : Nat, b ∈ (sorted.dropWhile (fun x => decide (hi < x))).takeWhile
      (fun x => decide (lo < x)) → lo < b ∧ b ≤ hi := by
    intro b hb
    exact ⟨by simpa using List.mem_takeWhile_imp hb,
      hR b ((List.takeWhile_sublist _).subset hb)⟩
  have hC := dropWhile_le_of_sorted lo _ hrest
  have sA : (sorted.takeWhile (fun x => decide (hi < x))).Pairwise (fun a b : Nat => b ≤ a) :=
    hs.sublist (List.takeWhile_sublist _)
  have sB : ((sorted.dropWhile (fun x => decide (hi < x))).takeWhile
      (fun x => decide (lo < x))).Pairwise (fun a b : Nat => b ≤ a) :=
    hrest.sublist (List.takeWhile_sublist _)
  have sC : ((sorted.dropWhile (fun x => decide (hi < x))).dropWhile
      (fun x => decide (lo < x))).Pairwise (fun a b : Nat => b ≤ a) :=
    hrest.sublist (List.dropWhile_sublist _)
  refine ⟨_, _, _, rfl, by rw [e2, e1], hA, hB, hC, ?_⟩
  generalize sorted.takeWhile (fun x => decide (hi < x)) = A at hA sA
  generalize (sorted.dropWhile (fun x => decide (hi < x))).takeWhile
    (fun x => decide (lo < x)) = B at hB sB
  generalize (sorted.dropWhile (fun x => decide (hi < x))).dropWhile
    (fun x => decide (lo < x)) = C at hC sC
  rw [List.pairwise_append]
  refine ⟨dup_sorted A sA, ?_, ?_⟩
  · rw [List.pairwise_cons]
    refine ⟨?_, ?_⟩
    · intro (x : Nat) hx
      rw [List.mem_append, List.mem_cons] at hx
      rcases hx with hx | hx | hx
      · exact (hB x ((mem_dup x B).mp hx)).2
      · rw [hx]; exact Nat.le_of_lt hlt
      · exact Nat.le_trans (hC x ((mem_dup x C).mp hx)) (Nat.le_of_lt hlt)
    · rw [List.pairwise_append]
      refine ⟨dup_sorted B sB, ?_, ?_⟩
      · rw [List.pairwise_cons]
        exact ⟨fun (x : Nat) hx => hC x ((mem_dup x C).mp hx), dup_sorted C sC⟩
      · intro (x : Nat) hx (y : Nat) hy
        have hx' := hB x ((mem_dup x B).mp hx)
        rw [List.mem_cons] at hy
        rcases hy with hy | hy
        · rw [hy]; exact Nat.le_of_lt hx'.1
        · exact Nat.le_trans (hC y ((mem_dup y C).mp hy)) (Nat.le_of_lt hx'.1)
  · intro (x : Nat) hx (y : Nat) hy
    have hx' := hA x ((mem_dup x A).mp hx)
    rw [List.mem_cons, List.mem_append, List.mem_cons] at hy
    rcases hy with hy | hy | hy | hy
    · rw [hy]; exact Nat.le_of_lt hx'
    · exact Nat.le_trans (hB y ((mem_dup y B).mp hy)).2 (Nat.le_of_lt hx')
    · rw [hy]; exact Nat.le_of_lt (Nat.lt_trans hlt hx')
    · exact Nat.le_trans (hC y ((mem_dup y C).mp hy)) (Nat.le_of_lt (Nat.lt_trans hlt hx'))

/-- C13: `PushAll` with the optimized strategy, for `lo < hi` and a tie buffer that
fits into the hand, appends to the hand a non-increasing sequence that is a permutation
of `hi`, `lo` and every tied value twice: the tied values greater than `hi` first,
then `hi`, then the remaining tied values greater than `lo`, then `lo`, then the
remaining tied values; the cards already in the hand stay in front, in their order. -/
theorem Hand.PushAll_optimized_order (h : Hand) (hi lo : Card) (ties : List Card) (hw : h.WF)
    (hlt : lo < hi) (hroom : h.toList.length + 2 + 2 * ties.length < h.buffer_size) :
    ∃ (h' : Hand) (span A B C : List Card),
      h.PushAll hi lo ties Strategy.kOptimized = Except.ok (h', span) ∧
      h'.toList = h.toList ++ (dup A ++ hi :: (dup B ++ lo :: dup C)) ∧
      (A ++ (B ++ C)).Perm ties ∧ (A ++ (B ++ C)).Pairwise (fun a b : Nat => b ≤ a) ∧
      (∀ a : Nat, a ∈ A → hi < a) ∧ (∀ b : Nat, b ∈ B → lo < b ∧ b ≤ hi) ∧
      (∀ c : Nat, c ∈ C → c ≤ lo) ∧
      (dup A ++ hi :: (dup B ++ lo :: dup C)).Pairwise (fun a b : Nat => b ≤ a) ∧
      (dup A ++ hi :: (dup B ++ lo :: dup C)).Perm
        (hi :: lo :: ties.flatMap (fun t => [t, t])) := by
  have hr : Hand.Rep h.buffer_size h h.toList := ⟨hw, rfl, rfl⟩
  obtain ⟨h', span, hp, hrep, _⟩ := Hand.PushAll_rep hr Strategy.kOptimized hi lo ties hlt hroom
  obtain ⟨A, B, C, e, hABC, hA, hB, hC, hsorted⟩ := pushed_optimized hi lo ties hlt
  have hperm := pushed_perm Strategy.kOptimized hi lo ties
  rw [e, dup_eq_flatMap ties] at hperm
  refine ⟨h', span, A, B, C, hp, ?_, ?_, ?_, hA, hB, hC, hsorted, hperm⟩
  · rw [hrep.2.2, e]
  · rw [hABC]; exact List.perm_insertionSort _ ties
  · rw [hABC]; exact insertionSort_desc ties

/-! ## The winner and the degenerate deals -/

/-- C16: on a terminal game (a hand is empty) `GetWinner` returns `Draw` if both hands
are empty, `Right` if only the left hand is empty and `Left` if only the right hand is
empty; it never returns `Cycle`. -/
theorem Game.GetWinner_of_terminal (g : Game)
    (hterm : g.l_.empty = true ∨ g.r_.empty = true) :
    (g.l_.empty = true → g.r_.empty = true → g.GetWinner = Winner.kDraw) ∧
    (g.l_.empty = true → g.r_.empty = false → g.GetWinner = Winner.kRight) ∧
    (g.l_.empty = false → g.r_.empty = true → g.GetWinner = Winner.kLeft) ∧
    g.GetWinner ≠ Winner.kCycle ∧
    (g.GetWinner = Winner.kDraw ∨ g.GetWinner = Winner.kRight ∨ g.GetWinner = Winner.kLeft) := by
  unfold Game.GetWinner
  cases hl : g.l_.empty <;> cases hr : g.r_.empty <;> simp [hl, hr] at hterm ⊢

/-- C17: `Play` on a deal of 0 cards returns `(Draw, 0)` and on a deal of 1 card
`(Right, 0)`, whatever the arena and its deck: no Step is made, the games of the arena
stay as they are, and only `num_played` changes. -/
theorem GameArena.Play_degenerate_deals (a : GameArena) (fuel : Nat) (strategy : Strategy)
    (c : Card) :
    a.Play fuel [] strategy = Except.ok
      { result := { winner := Winner.kDraw, num_steps := 0 }
        arena := { a with stats_ := { a.stats_ with num_played := a.stats_.num_played + 1 } }
        fast_steps := 0 } ∧
    a.Play fuel [c] strategy = Except.ok
      { result := { winner := Winner.kRight, num_steps := 0 }
        arena := { a with stats_ := { a.stats_ with num_played := a.stats_.num_played + 1 } }
        fast_steps := 0 } := by
  constructor
  · simp [GameArena.Play, GameArena.PlayImpl, bind, Except.bind, pure, Except.pure]
  · simp [GameArena.Play, GameArena.PlayImpl, bind, Except.bind, pure, Except.pure]

/-! ## Swapping the players -/

theorem roundLoop_swap (strategy : Strategy) :
    ∀ (l r ties : List Card),
      roundLoop strategy ties r l = (roundLoop strategy ties l r).swap := by
  intro l
  induction l with
  | nil =>
    intro r ties
    cases r <;> simp [roundLoop, Position.swap]
  | cons cl l ih =>
    intro r ties
    cases r with
    | nil => simp [roundLoop, Position.swap]
    | cons cr r =>
      rw [roundLoop_cons, roundLoop_cons]
      by_cases hc : cl = cr
      · subst hc
        rw [if_pos rfl, if_pos rfl, Bool.or_comm]
        by_cases hd : (l.isEmpty || r.isEmpty) = true
        · rw [if_pos hd, if_pos hd]; rfl
        · rw [if_neg hd, if_neg hd]; exact ih r _
      · have hc' : ¬ cr = cl := fun h => hc h.symm
        rw [if_neg hc, if_neg hc']
        by_cases hlt : cr < cl
        · have hnlt : ¬ cl < cr := Nat.not_lt_of_gt hlt
          rw [if_pos hlt, if_neg hnlt]; rfl
        · have hgt : cl < cr := Nat.lt_of_le_of_ne (Nat.le_of_not_lt hlt) hc
          rw [if_neg hlt, if_pos hgt]; rfl

theorem round_swap (strategy : Strategy) (x : Position) :
    round strategy x.swap = (round strategy x).swap :=
  roundLoop_swap strategy x.1 x.2 []

theorem positionAt_swap (strategy : Strategy) (x0 : Position) (i : Nat) :
    positionAt strategy x0.swap i = (positionAt strategy x0 i).swap := by
  induction i with
  | zero => rfl
  | succ i ih => rw [positionAt_succ, ih, round_swap, positionAt_succ]

theorem Position.swap_inj {x y : Position} : x.swap = y.swap ↔ x = y := by
  obtain ⟨a, b⟩ := x
  obtain ⟨c, d⟩ := y
  simp only [Position.swap, Prod.mk.injEq]
  exact ⟨fun h => ⟨h.2, h.1⟩, fun h => ⟨h.2, h.1⟩⟩

theorem Position.swap_done (x : Position) : x.swap.done = x.done := by
  simp only [Position.done, Position.swap, Bool.or_comm]

theorem Position.swap_winner (x : Position) (h : x.done = true) :
    x.swap.winner = x.winner.mirror := by
  obtain ⟨l, r⟩ := x
  cases l with
  | nil => cases r <;> rfl
  | cons a l =>
    cases r with
    | nil => rfl
    | cons b r => exact Bool.noConfusion h

theorem detect_swap (strategy : Strategy) (x0 : Position) :
    ∀ (fuel k : Nat), detect strategy x0.swap fuel k =
      Except.map (fun v : Result × Nat => (v.1.mirror, v.2)) (detect strategy x0 fuel k) := by
  intro fuel
  induction fuel with
  | zero => intro k; rfl
  | succ fuel ih =>
    intro k
    unfold detect
    simp only [positionAt_swap, Position.swap_inj, Position.swap_done]
    split
    · rfl
    · split
      · rename_i hd
        rw [Position.swap_winner _ hd]; rfl
      · split
        · rename_i hd
          rw [Position.swap_winner _ hd]; rfl
        · exact ih (k + 1)

theorem dealt_append (l r : List Card) (h : l.length = r.length) :
    dealt (l ++ r) = (l, r) := by
  have e : (l ++ r).length / 2 = l.length := by
    rw [List.length_append, h]; omega
  simp only [dealt, e, List.take_left', List.drop_left']

theorem playSpec_swap (deck : Deck) (fuel : Nat) (strategy : Strategy) (l r : List Card)
    (h : l.length = r.length) :
    playSpec deck fuel (r ++ l) strategy =
      Except.map (fun v : Result × Nat => (v.1.mirror, v.2))
        (playSpec deck fuel (l ++ r) strategy) := by
  have e : (r ++ l).length = (l ++ r).length := by
    simp only [List.length_append]; omega
  have hd : dealt (r ++ l) = (dealt (l ++ r)).swap := by
    rw [dealt_append l r h, dealt_append r l h.symm]; rfl
  unfold playSpec
  rw [e, hd]
  simp only [positionAt_swap, Position.swap_done, detect_swap]
  split
  · rfl
  · split
    · rename_i h0 h1
      simp only [List.length_append] at h1
      omega
    · split
      · rfl
      · split
        · rfl
        · split
          · rename_i hdone
            rw [Position.swap_winner _ hdone]; rfl
          · rfl

/-- C15: for hands `l` and `r` of the same number of cards, `Play` of `r ++ l` returns
what `Play` of `l ++ r` returns with the players exchanged: the same `num_steps` and
the mirrored winner (Left and Right exchanged, Draw and Cycle kept). -/
theorem GameArena.Play_swap_players (deck : Deck) (a a' : GameArena) (fuel : Nat)
    (strategy : Strategy) (l r : List Card) (ha : GameArena.Reachable deck a)
    (ha' : GameArena.Reachable deck a') (h : l.length = r.length) :
    Except.map PlayOut.result (a.Play fuel (r ++ l) strategy) =
      Except.map Result.mirror (Except.map PlayOut.result (a'.Play fuel (l ++ r) strategy)) := by
  have h1 := GameArena.Play_spec_reachable ha fuel (r ++ l) strategy
  have h2 := GameArena.Play_spec_reachable ha' fuel (l ++ r) strategy
  rw [playSpec_swap deck fuel strategy l r h, ← h2] at h1
  cases hp : a.Play fuel (r ++ l) strategy with
  | error e =>
    cases hq : a'.Play fuel (l ++ r) strategy with
    | error e' =>
      rw [hp, hq] at h1
      injection h1 with h1
      rw [h1]; rfl
    | ok o' =>
      rw [hp, hq] at h1
      exact Except.noConfusion h1
  | ok o =>
    cases hq : a'.Play fuel (l ++ r) strategy with
    | error e' =>
      rw [hp, hq] at h1
      exact Except.noConfusion h1
    | ok o' =>
      rw [hp, hq] at h1
      injection h1 with h1
      injection h1 with h1 _
      show Except.ok o.result = Except.ok o'.result.mirror
      rw [h1]
      rfl

/-! ## The statistics -/

theorem GameArena.Played.reachable {deck : Deck} {hist : List (List Card × Result)}
    {a : GameArena} (h : GameArena.Played deck hist a) : GameArena.Reachable deck a := by
  induction h with
  | fresh => exact GameArena.Reachable.fresh
  | play hist a fuel cards strategy out _ hp ih =>
    exact GameArena.Reachable.play a fuel cards strategy out ih hp

/-- How one `Play` changes the statistics of a well-formed arena. -/
theorem GameArena.Play_stats_wf {deck : Deck} {a : GameArena} (ha : a.WF deck)
    (hdeck : deck.num_cards + 1 < 2 ^ 32) {fuel : Nat}
    {cards : List Card} {strategy : Strategy} {out : PlayOut}
    (h : a.Play fuel cards strategy = Except.ok out) :
    out.arena.stats_.num_played = a.stats_.num_played + 1 ∧
    (out.result.winner = Winner.kCycle →
      out.arena.stats_.num_played_with_cycle = a.stats_.num_played_with_cycle + 1 ∧
      out.arena.stats_.longest_len = a.stats_.longest_len ∧
      out.arena.stats_.longest = a.stats_.longest ∧
      (out.result.num_steps < a.stats_.shortest_with_cycle_len →
        out.arena.stats_.shortest_with_cycle_len = out.result.num_steps ∧
        out.arena.stats_.shortest_with_cycle.position = dealt cards) ∧
      (¬ out.result.num_steps < a.stats_.shortest_with_cycle_len →
        out.arena.stats_.shortest_with_cycle_len = a.stats_.shortest_with_cycle_len ∧
        out.arena.stats_.shortest_with_cycle = a.stats_.shortest_with_cycle)) ∧
    (out.result.winner ≠ Winner.kCycle →
      out.arena.stats_.num_played_with_cycle = a.stats_.num_played_with_cycle ∧
      out.arena.stats_.shortest_with_cycle_len = a.stats_.shortest_with_cycle_len ∧
      out.arena.stats_.shortest_with_cycle = a.stats_.shortest_with_cycle ∧
      (out.result.num_steps > a.stats_.longest_len →
        out.arena.stats_.longest_len = out.result.num_steps ∧
        out.arena.stats_.longest.position = dealt cards) ∧
      (¬ out.result.num_steps > a.stats_.longest_len →
        out.arena.stats_.longest_len = a.stats_.longest_len ∧
        out.arena.stats_.longest = a.stats_.longest)) := by
  obtain ⟨h1, h2⟩ := GameArena.PlayImpl_spec ha hdeck fuel cards strategy
  unfold GameArena.Play at h
  cases hp : a.PlayImpl fuel cards strategy with
  | error e =>
    rw [hp] at h
    exact Except.noConfusion h
  | ok o =>
    rw [hp] at h h1
    obtain ⟨w1, _, _, _, _⟩ := h2 o hp
    have hsum : playSpec deck fuel cards strategy = Except.ok (o.result, o.fast_steps) :=
      h1.symm
    obtain ⟨xl, hl⟩ := ha.longest_rep
    obtain ⟨xc, hc⟩ := ha.shortest_rep
    simp only [bind, Except.bind, w1] at h
    by_cases hcy : o.result.winner = Winner.kCycle
    · have bc : (o.result.winner == Winner.kCycle) = true := by simp [hcy]
      simp only [bc, if_true] at h
      by_cases hlt : o.result.num_steps < a.stats_.shortest_with_cycle_len
      · have hlen := playSpec_length hsum (Or.inl hcy)
        obtain ⟨g, d1, _, d3⟩ := Game.Deal_rep hc cards (by rw [ha.shortest_deck]; exact hlen)
        simp only [hlt, if_true, d1, pure, Except.pure] at h
        injection h with h
        subst h
        refine ⟨rfl, fun _ => ⟨rfl, rfl, rfl, fun _ => ⟨rfl, Game.Rep_position d3⟩,
          fun hn => absurd hlt hn⟩, fun hn => absurd hcy hn⟩
      · simp only [hlt, if_false, pure, Except.pure] at h
        injection h with h
        subst h
        refine ⟨rfl, fun _ => ⟨rfl, rfl, rfl, fun hn => absurd hn hlt, fun _ => ⟨rfl, rfl⟩⟩,
          fun hn => absurd hcy hn⟩
    · have bc : (o.result.winner == Winner.kCycle) = false := by simp [hcy]
      simp only [bc, Bool.false_eq_true, if_false] at h
      by_cases hgt : o.result.num_steps > a.stats_.longest_len
      · have hlen := playSpec_length hsum (Or.inr (by omega))
        obtain ⟨g, d1, _, d3⟩ := Game.Deal_rep hl cards (by rw [ha.longest_deck]; exact hlen)
        simp only [hgt, if_true, d1, pure, Except.pure] at h
        injection h with h
        subst h
        refine ⟨rfl, fun hn => absurd hn hcy, fun _ => ⟨rfl, rfl, rfl,
          fun _ => ⟨rfl, Game.Rep_position d3⟩, fun hn => absurd hgt hn⟩⟩
      · simp only [hgt, if_false, pure, Except.pure] at h
        injection h with h
        subst h
        refine ⟨rfl, fun hn => absurd hn hcy, fun _ => ⟨rfl, rfl, rfl,
          fun hn => absurd hn hgt, fun _ => ⟨rfl, rfl⟩⟩⟩

/-- How one `Play` changes the statistics of an arena a program can hold. -/
theorem GameArena.Play_stats {deck : Deck} {a : GameArena} (ha : GameArena.Reachable deck a)
    {fuel : Nat} {cards : List Card} {strategy : Strategy} {out : PlayOut}
    (h : a.Play fuel cards strategy = Except.ok out) :
    out.arena.stats_.num_played = a.stats_.num_played + 1 ∧
    (out.result.winner = Winner.kCycle →
      out.arena.stats_.num_played_with_cycle = a.stats_.num_played_with_cycle + 1 ∧
      out.arena.stats_.longest_len = a.stats_.longest_len ∧
      out.arena.stats_.longest = a.stats_.longest ∧
      (out.result.num_steps < a.stats_.shortest_with_cycle_len →
        out.arena.stats_.shortest_with_cycle_len = out.result.num_steps ∧
        out.arena.stats_.shortest_with_cycle.position = dealt cards) ∧
      (¬ out.result.num_steps < a.stats_.shortest_with_cycle_len →
        out.arena.stats_.shortest_with_cycle_len = a.stats_.shortest_with_cycle_len ∧
        out.arena.stats_.shortest_with_cycle = a.stats_.shortest_with_cycle)) ∧
    (out.result.winner ≠ Winner.kCycle →
      out.arena.stats_.num_played_with_cycle = a.stats_.num_played_with_cycle ∧
      out.arena.stats_.shortest_with_cycle_len = a.stats_.shortest_with_cycle_len ∧
      out.arena.stats_.shortest_with_cycle = a.stats_.shortest_with_cycle ∧
      (out.result.num_steps > a.stats_.longest_len →
        out.arena.stats_.longest_len = out.result.num_steps ∧
        out.arena.stats_.longest.position = dealt cards) ∧
      (¬ out.result.num_steps > a.stats_.longest_len →
        out.arena.stats_.longest_len = a.stats_.longest_len ∧
        out.arena.stats_.longest = a.stats_.longest)) := by
  rcases ha.wf_or_no_slot with ⟨hdeck, hwf⟩ | ⟨_, hslot⟩
  · exact GameArena.Play_stats_wf hwf hdeck h
  · rw [GameArena.Play_no_slot hslot] at h
    split at h
    · injection h with h
      subst h
      exact ⟨rfl, fun hn => Winner.noConfusion hn, fun _ => ⟨rfl, rfl, rfl,
        fun hn => absurd hn (Nat.not_lt_zero _), fun _ => ⟨rfl, rfl⟩⟩⟩
    · split at h
      · injection h with h
        subst h
        exact ⟨rfl, fun hn => Winner.noConfusion hn, fun _ => ⟨rfl, rfl, rfl,
          fun hn => absurd hn (Nat.not_lt_zero _), fun _ => ⟨rfl, rfl⟩⟩⟩
      · exact Except.noConfusion h

theorem foldl_max_ge (l : List Nat) : ∀ init : Nat,
    init ≤ l.foldl max init ∧ ∀ x : Nat, x ∈ l → x ≤ l.foldl max init := by
  induction l with
  | nil => intro init; exact ⟨Nat.le_refl _, fun x hx => by simp at hx⟩
  | cons y l ih =>
    intro init
    obtain ⟨h1, h2⟩ := ih (max init y)
    refine ⟨Nat.le_trans (Nat.le_max_left init y) h1, ?_⟩
    intro x hx
    rw [List.mem_cons] at hx
    rcases hx with hx | hx
    · rw [hx]; exact Nat.le_trans (Nat.le_max_right init y) h1
    · exact h2 x hx

theorem foldl_min_le (l : List Nat) : ∀ init : Nat,
    l.foldl min init ≤ init ∧ ∀ x : Nat, x ∈ l → l.foldl min init ≤ x := by
  induction l with
  | nil => intro init; exact ⟨Nat.le_refl _, fun x hx => by simp at hx⟩
  | cons y l ih =>
    intro init
    obtain ⟨h1, h2⟩ := ih (min init y)
    refine ⟨Nat.le_trans h1 (Nat.min_le_left init y), ?_⟩
    intro x hx
    rw [List.mem_cons] at hx
    rcases hx with hx | hx
    · rw [hx]; exact Nat.le_trans h1 (Nat.min_le_right init y)
    · exact h2 x hx

theorem cycleSteps_snoc (hist : List (List Card × Result)) (p : List Card × Result) :
    cycleSteps (hist ++ [p]) =
      cycleSteps hist ++ (if p.2.winner = Winner.kCycle then [p.2.num_steps] else []) := by
  simp only [cycleSteps, List.filter_append, List.map_append]
  by_cases h : p.2.winner = Winner.kCycle
  · have hb : (p.2.winner == Winner.kCycle) = true := by simp [h]
    rw [if_pos h]
    simp only [List.filter_cons, List.filter_nil, hb, if_true, List.map_cons, List.map_nil]
  · have hb : (p.2.winner == Winner.kCycle) = false := by simp [h]
    rw [if_neg h]
    simp only [List.filter_cons, List.filter_nil, hb, Bool.false_eq_true, if_false,
      List.map_nil]

theorem finishedSteps_snoc (hist : List (List Card × Result)) (p : List Card × Result) :
    finishedSteps (hist ++ [p]) =
      finishedSteps hist ++ (if p.2.winner = Winner.kCycle then [] else [p.2.num_steps]) := by
  simp only [finishedSteps, List.filter_append, List.map_append]
  by_cases h : p.2.winner = Winner.kCycle
  · have hb : (p.2.winner != Winner.kCycle) = false := by simp [h]
    rw [if_pos h]
    simp only [List.filter_cons, List.filter_nil, hb, Bool.false_eq_true, if_false,
      List.map_nil]
  · have hb : (p.2.winner != Winner.kCycle) = true := by simp [h]
    rw [if_neg h]
    simp only [List.filter_cons, List.filter_nil, hb, if_true, List.map_cons, List.map_nil]

theorem mem_cycleSteps {hist : List (List Card × Result)} {p : List Card × Result}
    (hp : p ∈ hist) (hc : p.2.winner = Winner.kCycle) : p.2.num_steps ∈ cycleSteps hist := by
  simp only [cycleSteps, List.mem_map, List.mem_filter]
  exact ⟨p, ⟨hp, by simp [hc]⟩, rfl⟩

theorem mem_finishedSteps {hist : List (List Card × Result)} {p : List Card × Result}
    (hp : p ∈ hist) (hc : p.2.winner ≠ Winner.kCycle) :
    p.2.num_steps ∈ finishedSteps hist := by
  simp only [finishedSteps, List.mem_map, List.mem_filter]
  exact ⟨p, ⟨hp, by simp [hc]⟩, rfl⟩

theorem find?_snoc_of_some {α : Type} (p : α → Bool) (l : List α) (x y : α)
    (h : l.find? p = some y) : (l ++ [x]).find? p = some y := by
  rw [List.find?_append, h]; rfl

theorem find?_snoc_of_none {α : Type} (p : α → Bool) (l : List α) (x : α)
    (h : ∀ y, y ∈ l → p y = false) (hx : p x = true) : (l ++ [x]).find? p = some x := by
  have hn : l.find? p = none := by
    rw [List.find?_eq_none]
    intro y hy
    rw [h y hy]
    exact Bool.false_ne_true
  rw [List.find?_append, hn, List.find?_singleton, if_pos hx]; rfl

/-- C14, as the code has it: after any sequence of `Play` calls on a new arena,
`num_played` is the number of calls, `num_played_with_cycle` the number of `Cycle`
results, `longest_len` the maximum `num_steps` over the other results (0 if none) and
`shortest_with_cycle_len` the minimum of the unsigned max and the `num_steps` of the
`Cycle` results; when `longest_len > 0`, `longest` holds the deal of the earliest play
attaining it, and when `shortest_with_cycle_len` is below the unsigned max,
`shortest_with_cycle` holds the deal of the earliest play attaining it; a record that
was never set holds the empty game of the constructor. -/
theorem GameArena.Stats_fold_of_results (deck : Deck) (hist : List (List Card × Result))
    (a : GameArena) (h : GameArena.Played deck hist a) :
    a.stats_.num_played = hist.length ∧
    a.stats_.num_played_with_cycle = (cycleSteps hist).length ∧
    a.stats_.num_played_with_cycle ≤ a.stats_.num_played ∧
    a.stats_.longest_len = (finishedSteps hist).foldl max 0 ∧
    (0 < a.stats_.longest_len → ∃ cards r,
      hist.find? (fun p => p.2.winner != Winner.kCycle &&
        p.2.num_steps == a.stats_.longest_len) = some (cards, r) ∧
      a.stats_.longest.position = dealt cards) ∧
    (a.stats_.longest_len = 0 → a.stats_.longest.position = ([], [])) ∧
    a.stats_.shortest_with_cycle_len = (cycleSteps hist).foldl min (2 ^ 32 - 1) ∧
    (a.stats_.shortest_with_cycle_len < 2 ^ 32 - 1 → ∃ cards r,
      hist.find? (fun p => p.2.winner == Winner.kCycle &&
        p.2.num_steps == a.stats_.shortest_with_cycle_len) = some (cards, r) ∧
      a.stats_.shortest_with_cycle.position = dealt cards) ∧
    (a.stats_.shortest_with_cycle_len = 2 ^ 32 - 1 →
      a.stats_.shortest_with_cycle.position = ([], [])) := by
  induction h with
  | fresh =>
    have hp := Game.new_position deck
    refine ⟨rfl, rfl, Nat.le_refl _, rfl, ?_, fun _ => hp, rfl, ?_, fun _ => hp⟩
    · intro h0; exact absurd h0 (Nat.lt_irrefl 0)
    · intro h0; exact absurd h0 (Nat.lt_irrefl _)
  | play hist a fuel cards strategy out hplayed hp ih =>
    obtain ⟨i1, i2, _, i4, i5, i6, i7, i8, i9⟩ := ih
    obtain ⟨s1, s2, s3⟩ := GameArena.Play_stats hplayed.reachable hp
    have hlenle : (cycleSteps (hist ++ [(cards, out.result)])).length ≤
        (hist ++ [(cards, out.result)]).length := by
      simp only [cycleSteps, List.length_map]
      exact List.length_filter_le _ _
    by_cases hcy : out.result.winner = Winner.kCycle
    · obtain ⟨c1, c2, c3, c4, c5⟩ := s2 hcy
      have hcs : cycleSteps (hist ++ [(cards, out.result)]) =
          cycleSteps hist ++ [out.result.num_steps] := by
        rw [cycleSteps_snoc, if_pos hcy]
      have hfs : finishedSteps (hist ++ [(cards, out.result)]) = finishedSteps hist := by
        rw [finishedSteps_snoc, if_pos hcy, List.append_nil]
      have hplay : out.arena.stats_.num_played = (hist ++ [(cards, out.result)]).length := by
        rw [s1, i1, List.length_append]; rfl
      have hpwc : out.arena.stats_.num_played_with_cycle =
          (cycleSteps (hist ++ [(cards, out.result)])).length := by
        rw [c1, i2, hcs, List.length_append]; rfl
      have hmin := foldl_min_le (cycleSteps hist) (2 ^ 32 - 1)
      rw [← i7] at hmin
      refine ⟨hplay, hpwc, by rw [hpwc, hplay]; exact hlenle, by rw [c2, hfs]; exact i4,
        ?_, ?_, ?_, ?_, ?_⟩
      · intro hpos
        rw [c2] at hpos ⊢
        obtain ⟨cd, r, f1, f2⟩ := i5 hpos
        exact ⟨cd, r, find?_snoc_of_some _ _ _ _ f1, by rw [c3]; exact f2⟩
      · intro h0
        rw [c2] at h0
        rw [c3]; exact i6 h0
      · rw [hcs, List.foldl_append, ← i7]
        by_cases hlt : out.result.num_steps < a.stats_.shortest_with_cycle_len
        · rw [(c4 hlt).1]
          show out.result.num_steps = min a.stats_.shortest_with_cycle_len out.result.num_steps
          omega
        · rw [(c5 hlt).1]
          show a.stats_.shortest_with_cycle_len =
            min a.stats_.shortest_with_cycle_len out.result.num_steps
          omega
      · intro hbelow
        by_cases hlt : out.result.num_steps < a.stats_.shortest_with_cycle_len
        · rw [(c4 hlt).1]
          refine ⟨cards, out.result, ?_, (c4 hlt).2⟩
          apply find?_snoc_of_none
          · intro y hy
            by_cases hyc : y.2.winner = Winner.kCycle
            · have := hmin.2 _ (mem_cycleSteps hy hyc)
              have hne : y.2.num_steps ≠ out.result.num_steps := by omega
              simp [hne]
            · simp [hyc]
          · simp [hcy]
        · rw [(c5 hlt).1] at hbelow ⊢
          obtain ⟨cd, r, f1, f2⟩ := i8 hbelow
          exact ⟨cd, r, find?_snoc_of_some _ _ _ _ f1, by rw [(c5 hlt).2]; exact f2⟩
      · intro hmax
        by_cases hlt : out.result.num_steps < a.stats_.shortest_with_cycle_len
        · rw [(c4 hlt).1] at hmax
          omega
        · rw [(c5 hlt).1] at hmax
          rw [(c5 hlt).2]; exact i9 hmax
    · obtain ⟨c1, c2, c3, c4, c5⟩ := s3 hcy
      have hcs : cycleSteps (hist ++ [(cards, out.result)]) = cycleSteps hist := by
        rw [cycleSteps_snoc, if_neg hcy, List.append_nil]
      have hfs : finishedSteps (hist ++ [(cards, out.result)]) =
          finishedSteps hist ++ [out.result.num_steps] := by
        rw [finishedSteps_snoc, if_neg hcy]
      have hplay : out.arena.stats_.num_played = (hist ++ [(cards, out.result)]).length := by
        rw [s1, i1, List.length_append]; rfl
      have hpwc : out.arena.stats_.num_played_with_cycle =
          (cycleSteps (hist ++ [(cards, out.result)])).length := by
        rw [c1, i2, hcs]
      have hmax := foldl_max_ge (finishedSteps hist) 0
      rw [← i4] at hmax
      refine ⟨hplay, hpwc, by rw [hpwc, hplay]; exact hlenle, ?_, ?_, ?_,
        by rw [c2, hcs]; exact i7, ?_, ?_⟩
      · rw [hfs, List.foldl_append, ← i4]
        by_cases hgt : out.result.num_steps > a.stats_.longest_len
        · rw [(c4 hgt).1]
          show out.result.num_steps = max a.stats_.longest_len out.result.num_steps
          omega
        · rw [(c5 hgt).1]
          show a.stats_.longest_len = max a.stats_.longest_len out.result.num_steps
          omega
      · intro hpos
        by_cases hgt : out.result.num_steps > a.stats_.longest_len
        · rw [(c4 hgt).1]
          refine ⟨cards, out.result, ?_, (c4 hgt).2⟩
          apply find?_snoc_of_none
          · intro y hy
            by_cases hyc : y.2.winner = Winner.kCycle
            · simp [hyc]
            · have := hmax.2 _ (mem_finishedSteps hy hyc)
              have hne : y.2.num_steps ≠ out.result.num_steps := by omega
              simp [hne]
          · simp [hcy]
        · rw [(c5 hgt).1] at hpos ⊢
          obtain ⟨cd, r, f1, f2⟩ := i5 hpos
          exact ⟨cd, r, find?_snoc_of_some _ _ _ _ f1, by rw [(c5 hgt).2]; exact f2⟩
      · intro h0
        by_cases hgt : out.result.num_steps > a.stats_.longest_len
        · rw [(c4 hgt).1] at h0
          omega
        · rw [(c5 hgt).1] at h0
          rw [(c5 hgt).2]; exact i6 h0
      · intro hbelow
        rw [c2] at hbelow ⊢
        obtain ⟨cd, r, f1, f2⟩ := i8 hbelow
        exact ⟨cd, r, find?_snoc_of_some _ _ _ _ f1, by rw [c3]; exact f2⟩
      · intro hU
        rw [c2] at hU
        rw [c3]; exact i9 hU

/-- C14 fails on the deck of one card: `Play` of the deal `[1]` returns `(Right, 0)`,
the maximum over the results is 0 and this play attains it, but `longest` is still the
empty game of the constructor, not the deal `[] | [1]`. -/
theorem GameArena.Stats_longest_misses_zero_step_deal :
    ∃ out, (GameArena.new { colors := 1, values := 1 }).Play 0 [1] Strategy.kNatural =
        Except.ok out ∧
      out.result = { winner := Winner.kRight, num_steps := 0 } ∧
      GameArena.Played { colors := 1, values := 1 } [([1], out.result)] out.arena ∧
      ¬ Stats.FoldOfResults out.arena.stats_ [([1], out.result)] := by
  refine ⟨_, rfl, rfl, ?_, ?_⟩
  · exact GameArena.Played.play [] (GameArena.new { colors := 1, values := 1 }) 0 [1]
      Strategy.kNatural _ GameArena.Played.fresh rfl
  · intro h
    have h1 := h.2.2.2.1 [1] { winner := Winner.kRight, num_steps := 0 } rfl
    exact absurd h1 (by decide)

/-! ## Tied values and deciding cards -/

/-- A Step that finds a deciding pair after the ties `ts` passes `ts` to `PushAll`. -/
theorem Game.Step_deciding_pair (g : Game) (strategy : Strategy) (ts L R : List Card)
    (a b : Card) (hinv : g.Inv) (hnum : g.num_ties_ = 0) (hl : g.l_.toList = ts ++ a :: L)
    (hr : g.r_.toList = ts ++ b :: R) (hab : a ≠ b) :
    ∃ g', g.Step strategy = Except.ok (g'.done, g') ∧
      g'.position = if b < a then (L ++ pushed strategy a b ts, R)
        else (L, R ++ pushed strategy b a ts) := by
  have hrep := hinv.rep hnum
  have hnd : g.position.done = false := by
    simp only [Game.position, Position.done, hl, hr]
    cases ts <;> rfl
  obtain ⟨g', h1, _, h3⟩ := Game.Step_rep strategy hrep hnd hinv.total
  have hround : round strategy g.position =
      if b < a then (L ++ pushed strategy a b ts, R)
      else (L, R ++ pushed strategy b a ts) := by
    have := roundLoop_decided strategy a b hab L R ts []
    simpa only [round, Game.position, hl, hr, List.nil_append] using this
  refine ⟨g', ?_, ?_⟩
  · rw [h1, ← Game.Rep_done h3]
  · rw [Game.Rep_position h3, hround]

theorem Deck.Make_count_le (d : Deck) (hv : d.values ≤ 255) (v : Nat) :
    d.Make.count v ≤ d.colors := by
  rw [Deck.Make_eq]
  by_cases hmem : v ∈ Deck.blocks d.colors 1 d.values
  · have := Deck.blocks_mem d.colors d.values 1 (by omega) v hmem
    rw [Deck.blocks_count d.colors d.values 1 (by omega) v this.1 this.2]
  · rw [List.count_eq_zero_of_not_mem hmem]
    exact Nat.zero_le _

theorem dealt_append_eq (cards : List Card) : (dealt cards).1 ++ (dealt cards).2 = cards := by
  simp only [dealt, List.take_append_drop]

/-- C20, as the code has it: in a game reachable from a deal of a deck of at most 2
colors (and at most 255 values, so that no value is held more than `colors` times), no
value of the tie buffer of a Step is one of the two deciding cards. -/
theorem Game.ties_distinct_of_two_colors (deck : Deck) (strategy : Strategy)
    (cards : List Card) (g0 gi : Game) (i : Nat) (hc : deck.colors ≤ 2)
    (hv : deck.values ≤ 255) (hperm : cards.Perm deck.Make)
    (hdeal : (Game.new deck).Deal cards = Except.ok g0)
    (hsteps : g0.StepN strategy i = Except.ok gi) : gi.TiesDistinct := by
  obtain ⟨hlen, hg0, hd0⟩ := Game.Deal_new hdeal
  have htot : (dealt cards).1.length + (dealt cards).2.length ≤ g0.deck_.num_cards := by
    rw [hd0, ← hlen]; exact Nat.le_of_eq (dealt_length cards)
  obtain ⟨_, hgi, _⟩ := Game.StepN_ok strategy hg0 htot hsteps
  have hpos := Game.Rep_position hgi
  intro ts L R a b hl hr hab t ht
  have hnd : (positionAt strategy (dealt cards) i).done = false := by
    rw [← hpos]
    simp only [Game.position, Position.done, hl, hr]
    cases ts <;> rfl
  have hp := positionAt_perm strategy (dealt cards) i hnd
  rw [← hpos, dealt_append_eq] at hp
  simp only [Game.position, hl, hr] at hp
  have hcount : ∀ v : Nat, (ts ++ a :: L ++ (ts ++ b :: R)).count v ≤ 2 := by
    intro v
    rw [hp.count_eq, hperm.count_eq]
    exact Nat.le_trans (Deck.Make_count_le deck hv v) hc
  have htc : 1 ≤ ts.count t := List.count_pos_iff.mpr ht
  constructor
  · intro hta
    have := hcount t
    simp only [List.count_append, List.count_cons, hta, beq_self_eq_true, if_true] at this htc
    omega
  · intro htb
    have := hcount t
    simp only [List.count_append, List.count_cons, htb, beq_self_eq_true, if_true] at this htc
    omega

/-- C20 fails for a deck of 3 colors: in the deal `[2, 2, 1] | [2, 1, 1]` the first
Step ties on 2 and then decides on 2 against 1, so the tied value is the deciding card
`hi`; the optimized strategy pushes `hi` before the tied pair. -/
theorem Game.ties_not_distinct_three_colors :
    [2, 2, 1, 2, 1, 1].Perm (Deck.Make { colors := 3, values := 2 }) ∧
    (Game.new { colors := 3, values := 2 }).Deal [2, 2, 1, 2, 1, 1] =
      Except.ok threeColorsDealt ∧
    threeColorsDealt.l_.toList = [2] ++ 2 :: [1] ∧
    threeColorsDealt.r_.toList = [2] ++ 1 :: [1] ∧
    (∃ g', threeColorsDealt.Step Strategy.kOptimized = Except.ok (false, g') ∧
      g'.position = ([1, 2, 2, 2, 1], [1])) ∧
    ¬ threeColorsDealt.TiesDistinct := by
  refine ⟨by decide, rfl, rfl, rfl, ⟨_, rfl, rfl⟩, ?_⟩
  intro h
  exact (h [2] [1] [1] 2 1 rfl rfl (by decide) 2 (by decide)).1 rfl

/-! ## No push wraps the buffer -/

theorem count_dup (x : Nat) (cs : List Card) : (dup cs).count x = 2 * cs.count x := by
  induction cs with
  | nil => rfl
  | cons c cs ih =>
    simp only [dup, List.count_cons, ih]
    omega

/-- A position with two non-empty hands starts with a chain of ties that ends either
with a deciding pair or with the end of a hand. -/
theorem position_shape :
    ∀ (l r : List Card), l ≠ [] → r ≠ [] →
      (∃ (ts L R : List Card) (a b : Card), l = ts ++ a :: L ∧ r = ts ++ b :: R ∧ a ≠ b) ∨
      (∃ ts L R : List Card, ts ≠ [] ∧ l = ts ++ L ∧ r = ts ++ R ∧ (L = [] ∨ R = [])) := by
  intro l
  induction l with
  | nil => intro r h; exact absurd rfl h
  | cons cl l ih =>
    intro r _ hr
    cases r with
    | nil => exact absurd rfl hr
    | cons cr r =>
      by_cases hc : cl = cr
      · subst hc
        by_cases hl : l = []
        · exact Or.inr ⟨[cl], l, r, by simp, rfl, rfl, Or.inl hl⟩
        · by_cases hr' : r = []
          · exact Or.inr ⟨[cl], l, r, by simp, rfl, rfl, Or.inr hr'⟩
          · rcases ih r hl hr' with ⟨ts, L, R, a, b, h1, h2, h3⟩ | ⟨ts, L, R, _, h1, h2, h3⟩
            · exact Or.inl ⟨cl :: ts, L, R, a, b, by rw [h1]; rfl, by rw [h2]; rfl, h3⟩
            · exact Or.inr ⟨cl :: ts, L, R, by simp, by rw [h1]; rfl, by rw [h2]; rfl, h3⟩
      · exact Or.inl ⟨[], l, r, cl, cr, rfl, rfl, hc⟩

theorem round_decided (strategy : Strategy) (ts L R : List Card) (a b : Card) (hab : a ≠ b) :
    round strategy (ts ++ a :: L, ts ++ b :: R) =
      if b < a then (L ++ pushed strategy a b ts, R) else (L, R ++ pushed strategy b a ts) := by
  have := roundLoop_decided strategy a b hab L R ts []
  simpa only [round, List.nil_append] using this

theorem round_decided_perm (strategy : Strategy) (ts L R : List Card) (a b : Card)
    (hab : a ≠ b) :
    ((round strategy (ts ++ a :: L, ts ++ b :: R)).1 ++
      (round strategy (ts ++ a :: L, ts ++ b :: R)).2).Perm
      ((ts ++ a :: L) ++ (ts ++ b :: R)) := by
  rw [round_decided strategy ts L R a b hab, List.perm_iff_count]
  intro x
  by_cases hlt : b < a
  · rw [if_pos hlt]
    have h1 := (pushed_perm strategy a b ts).count_eq x
    have h2 := count_dup x ts
    simp only [List.count_append, List.count_cons] at h1 ⊢
    omega
  · rw [if_neg hlt]
    have h1 := (pushed_perm strategy b a ts).count_eq x
    have h2 := count_dup x ts
    simp only [List.count_append, List.count_cons] at h1 ⊢
    omega

theorem round_exhausted (strategy : Strategy) (ts L R : List Card) (hts : ts ≠ [])
    (hLR : L = [] ∨ R = []) : round strategy (ts ++ L, ts ++ R) = (L, R) :=
  roundLoop_exhausted strategy L R hLR ts [] hts

/-- C21, card conservation, for either strategy. (1) A Step that ends with a deciding
pair after `m` tied pairs returns a game whose two hands together are a permutation of
the two hands before; the winner's hand has `1 + m` cards more and the loser's `1 + m`
fewer. (2) Every Step of a non-terminal game either keeps the cards of the two hands
(up to order) or ends by exhaustion of a tie chain of `m >= 1` pairs, returns true and
leaves exactly the rest of the two hands, one of them empty. (3) In every non-terminal
game reachable from a deal of `num_cards` cards, the two hands together are a
permutation of the cards dealt, `num_cards` cards in all. -/
theorem Game.cards_conserved (strategy : Strategy) :
    (∀ (g : Game) (ts L R : List Card) (a b : Card), g.Inv → g.num_ties_ = 0 →
      g.l_.toList = ts ++ a :: L → g.r_.toList = ts ++ b :: R → a ≠ b →
      ∃ t g', g.Step strategy = Except.ok (t, g') ∧
        (g'.l_.toList ++ g'.r_.toList).Perm (g.l_.toList ++ g.r_.toList) ∧
        (b < a → g'.l_.toList.length = g.l_.toList.length + (1 + ts.length) ∧
          g'.r_.toList.length + (1 + ts.length) = g.r_.toList.length) ∧
        (a < b → g'.r_.toList.length = g.r_.toList.length + (1 + ts.length) ∧
          g'.l_.toList.length + (1 + ts.length) = g.l_.toList.length)) ∧
    (∀ (g g' : Game) (t : Bool), g.Inv → g.num_ties_ = 0 →
      g.Step strategy = Except.ok (t, g') →
      (g'.l_.toList ++ g'.r_.toList).Perm (g.l_.toList ++ g.r_.toList) ∨
      (t = true ∧ ∃ ts L R : List Card, ts ≠ [] ∧ g.l_.toList = ts ++ L ∧
        g.r_.toList = ts ++ R ∧ (L = [] ∨ R = []) ∧ g'.l_.toList = L ∧ g'.r_.toList = R)) ∧
    (∀ (deck : Deck) (cards : List Card) (g0 gi : Game) (i : Nat),
      (Game.new deck).Deal cards = Except.ok g0 → g0.StepN strategy i = Except.ok gi →
      gi.done = false →
      (gi.l_.toList ++ gi.r_.toList).Perm cards ∧
        gi.l_.toList.length + gi.r_.toList.length = deck.num_cards) := by
  refine ⟨?_, ?_, ?_⟩
  · intro g ts L R a b hinv hnum hl hr hab
    have hrep := hinv.rep hnum
    have hnd : g.position.done = false := by
      simp only [Game.position, Position.done, hl, hr]
      cases ts <;> rfl
    obtain ⟨g', h1, _, h3⟩ := Game.Step_rep strategy hrep hnd hinv.total
    have hpos := Game.Rep_position h3
    have hgp : g.position = (ts ++ a :: L, ts ++ b :: R) := by
      simp only [Game.position, hl, hr]
    rw [hgp] at hpos
    have hperm := round_decided_perm strategy ts L R a b hab
    rw [← hpos] at hperm
    refine ⟨_, g', h1, ?_, ?_, ?_⟩
    · rw [hl, hr]; exact hperm
    · intro hlt
      rw [round_decided strategy ts L R a b hab, if_pos hlt] at hpos
      simp only [Game.position, Prod.mk.injEq] at hpos
      rw [hpos.1, hpos.2, hl, hr]
      simp only [List.length_append, List.length_cons, pushed_length]
      omega
    · intro hlt
      have hnlt : ¬ b < a := Nat.not_lt_of_gt hlt
      rw [round_decided strategy ts L R a b hab, if_neg hnlt] at hpos
      simp only [Game.position, Prod.mk.injEq] at hpos
      rw [hpos.1, hpos.2, hl, hr]
      simp only [List.length_append, List.length_cons, pushed_length]
      omega
  · intro g g' t hinv hnum hstep
    have hrep := hinv.rep hnum
    by_cases hd : g.position.done = true
    · rw [Game.Step_done strategy hrep hd] at hstep
      exact Except.noConfusion hstep
    · have hnd : g.position.done = false := by simpa using hd
      obtain ⟨g2, h1, _, h3⟩ := Game.Step_rep strategy hrep hnd hinv.total
      rw [h1] at hstep
      injection hstep with hstep
      injection hstep with ht hg
      subst hg
      have hpos := Game.Rep_position h3
      have hne : g.l_.toList ≠ [] ∧ g.r_.toList ≠ [] := by
        simp only [Game.position, Position.done, Bool.or_eq_false_iff,
          List.isEmpty_eq_false] at hnd
        exact hnd
      rcases position_shape g.l_.toList g.r_.toList hne.1 hne.2 with
        ⟨ts, L, R, a, b, hl, hr, hab⟩ | ⟨ts, L, R, hts, hl, hr, hLR⟩
      · left
        have hperm := round_decided_perm strategy ts L R a b hab
        have hgp : g.position = (ts ++ a :: L, ts ++ b :: R) := by
          simp only [Game.position, hl, hr]
        rw [hgp] at hpos
        rw [← hpos] at hperm
        rw [hl, hr]; exact hperm
      · right
        have hgp : g.position = (ts ++ L, ts ++ R) := by
          simp only [Game.position, hl, hr]
        rw [hgp, round_exhausted strategy ts L R hts hLR] at hpos ht
        simp only [Game.position, Prod.mk.injEq] at hpos
        refine ⟨?_, ts, L, R, hts, hl, hr, hLR, hpos.1, hpos.2⟩
        rw [← ht]
        rcases hLR with h | h <;> simp [Position.done, h]
  · intro deck cards g0 gi i hdeal hsteps hnt
    obtain ⟨hlen, hg0, hd0⟩ := Game.Deal_new hdeal
    have htot : (dealt cards).1.length + (dealt cards).2.length ≤ g0.deck_.num_cards := by
      rw [hd0, ← hlen]; exact Nat.le_of_eq (dealt_length cards)
    obtain ⟨_, hgi, _⟩ := Game.StepN_ok strategy hg0 htot hsteps
    have hpos := Game.Rep_position hgi
    have hnd : (positionAt strategy (dealt cards) i).done = false := by
      rw [← Game.Rep_done hgi]; exact hnt
    have hp := positionAt_perm strategy (dealt cards) i hnd
    rw [← hpos, dealt_append_eq] at hp
    refine ⟨hp, ?_⟩
    have := hp.length_eq
    simp only [Game.position, List.length_append] at this
    rw [this, hlen]

/-! ## The claims on the games of the tests -/

/-- C1 on `TEST(Hand, SimpleWithTieThen)`: Left wins in 2 Steps. -/
theorem GameArena.Play_terminating_witness :
    ((Game.new { colors := 2, values := 3 }).Deal [1, 3, 3, 1, 2, 2] = Except.ok tieThenDealt ∧
      tieThenDealt.StepN Strategy.kNatural 2 = Except.ok tieThenFinal ∧
      tieThenFinal.done = true ∧ tieThenFinal.GetWinner = Winner.kLeft ∧
      (2 : Nat) < 2 ^ 32) ∧
    ((Deck.mk 2 3).num_cards + 1 < 2 ^ 32 ∧ 1 ≤ 2 ∧
      (∀ i gi, i < 2 → tieThenDealt.StepN Strategy.kNatural i = Except.ok gi →
        gi.done = false) ∧
      (∀ fuel, 2 ≤ fuel → ∃ out,
        (GameArena.new { colors := 2, values := 3 }).Play fuel [1, 3, 3, 1, 2, 2]
          Strategy.kNatural = Except.ok out ∧
        out.result = { winner := tieThenFinal.GetWinner, num_steps := 2 } ∧
        out.fast_steps = 2) ∧
      (∀ fuel out,
        (GameArena.new { colors := 2, values := 3 }).Play fuel [1, 3, 3, 1, 2, 2]
          Strategy.kNatural = Except.ok out →
        out.result = { winner := tieThenFinal.GetWinner, num_steps := 2 } ∧
        out.result.winner ≠ Winner.kCycle)) :=
  ⟨⟨rfl, rfl, rfl, rfl, by decide⟩,
    GameArena.Play_terminating { colors := 2, values := 3 } Strategy.kNatural
      [1, 3, 3, 1, 2, 2] (GameArena.new { colors := 2, values := 3 }) tieThenDealt
      tieThenFinal 2 GameArena.Reachable.fresh rfl (by decide) rfl rfl rfl (by decide)⟩

/-- C2 on `TEST(Hand, LoopC1V5)`: the game never terminates. -/
theorem GameArena.Play_cycle_never_terminates_witness :
    Except.map PlayOut.result
        ((GameArena.new (Deck.Seq 5)).Play 6 [5, 3, 2, 4, 1] Strategy.kNatural) =
      Except.ok { winner := Winner.kCycle, num_steps := 6 } ∧
    ([5, 3, 2, 4, 1].length = (Deck.Seq 5).num_cards ∧
      ∃ g0, (Game.new (Deck.Seq 5)).Deal [5, 3, 2, 4, 1] = Except.ok g0 ∧
        ∀ i, ∃ gi, g0.StepN Strategy.kNatural i = Except.ok gi ∧ gi.done = false ∧
          gi.l_.toList ≠ [] ∧ gi.r_.toList ≠ []) :=
  ⟨rfl, GameArena.Play_cycle_never_terminates (Deck.Seq 5) Strategy.kNatural [5, 3, 2, 4, 1]
    (GameArena.new (Deck.Seq 5)) 6 6 GameArena.Reachable.fresh rfl⟩

/-- C3 on `TEST(Hand, LoopC1V7)`: the detection index is 8, after 15 Steps of the
fast game. -/
theorem GameArena.Play_cycle_detection_index_witness :
    (Except.map PlayOut.summary
        ((GameArena.new (Deck.Seq 7)).Play 8 [1, 7, 4, 5, 3, 6, 2] Strategy.kNatural) =
      Except.ok ({ winner := Winner.kCycle, num_steps := 8 }, 15) ∧ (15 : Nat) < 2 ^ 32) ∧
    (1 ≤ 8 ∧ 15 = 2 * 8 - 1 ∧
      ∃ g0, (Game.new (Deck.Seq 7)).Deal [1, 7, 4, 5, 3, 6, 2] = Except.ok g0 ∧
        (∃ gs gf, g0.StepN Strategy.kNatural (8 - 1) = Except.ok gs ∧
          g0.StepN Strategy.kNatural (2 * 8 - 1) = Except.ok gf ∧
          Game.eq gs gf = Except.ok true) ∧
        (∀ j, 1 ≤ j → j < 8 → ∃ gs gf, g0.StepN Strategy.kNatural (j - 1) = Except.ok gs ∧
          g0.StepN Strategy.kNatural (2 * j - 1) = Except.ok gf ∧
          Game.eq gs gf = Except.ok false) ∧
        (∀ i, 1 ≤ i → i ≤ 2 * 8 - 1 → ∃ gi, g0.StepN Strategy.kNatural i = Except.ok gi ∧
          gi.done = false)) :=
  ⟨⟨rfl, by decide⟩, GameArena.Play_cycle_detection_index (Deck.Seq 7) Strategy.kNatural
    [1, 7, 4, 5, 3, 6, 2] (GameArena.new (Deck.Seq 7)) 8 8 15 GameArena.Reachable.fresh rfl
    (by decide)⟩

/-- C5 on the arena `TEST(Hand, LoopC1V5)` leaves: it plays the deal of the test, and
a terminating deal, as a new arena does. -/
theorem GameArena.Play_independent_of_history_witness :
    GameArena.Reachable (Deck.Seq 5) loopArena ∧
    Except.map PlayOut.result (loopArena.Play 6 [1, 2, 3, 4, 5] Strategy.kOptimized) =
      Except.map PlayOut.result
        ((GameArena.new (Deck.Seq 5)).Play 6 [1, 2, 3, 4, 5] Strategy.kOptimized) :=
  ⟨GameArena.Reachable.play (GameArena.new (Deck.Seq 5)) 6 [5, 3, 2, 4, 1] Strategy.kNatural
      { result := { winner := Winner.kCycle, num_steps := 6 }, arena := loopArena,
        fast_steps := 11 }
      GameArena.Reachable.fresh rfl,
    GameArena.Play_independent_of_history (Deck.Seq 5) loopArena
      (GameArena.Reachable.play (GameArena.new (Deck.Seq 5)) 6 [5, 3, 2, 4, 1]
        Strategy.kNatural
        { result := { winner := Winner.kCycle, num_steps := 6 }, arena := loopArena,
          fast_steps := 11 }
        GameArena.Reachable.fresh rfl)
      6 [1, 2, 3, 4, 5] Strategy.kOptimized⟩

/-- The games of the tests satisfy the class invariant. -/
theorem tieThenDealt_inv : tieThenDealt.Inv :=
  { l_wf := ⟨by decide, by decide⟩, r_wf := ⟨by decide, by decide⟩, l_size := rfl,
    r_size := rfl, ties_size := rfl, total := by decide }

theorem tieDealt_inv : tieDealt.Inv :=
  { l_wf := ⟨by decide, by decide⟩, r_wf := ⟨by decide, by decide⟩, l_size := rfl,
    r_size := rfl, ties_size := rfl, total := by decide }

/-- C6 on `TEST(Hand, SimpleWithTieThen)`: `[1,3,3]|[1,2,2]` becomes `[3,3,2,1,1]|[2]`. -/
theorem Game.Step_natural_deciding_pair_witness :
    (tieThenDealt.Inv ∧ tieThenDealt.num_ties_ = 0 ∧
      tieThenDealt.l_.toList = [1] ++ 3 :: [3] ∧ tieThenDealt.r_.toList = [1] ++ 2 :: [2] ∧
      (3 : Card) ≠ 2) ∧
    ∃ g', tieThenDealt.Step Strategy.kNatural = Except.ok (g'.l_.empty || g'.r_.empty, g') ∧
      ((2 : Card) < 3 → g'.l_.toList = [3] ++ 3 :: 2 :: [1].reverse.flatMap (fun t => [t, t]) ∧
        g'.r_.toList = [2]) ∧
      ((3 : Card) < 2 → g'.l_.toList = [3] ∧
        g'.r_.toList = [2] ++ 2 :: 3 :: [1].reverse.flatMap (fun t => [t, t])) :=
  ⟨⟨tieThenDealt_inv, rfl, rfl, rfl, by decide⟩,
    Game.Step_natural_deciding_pair tieThenDealt [1] [3] [2] 3 2 tieThenDealt_inv rfl rfl rfl
      (by decide)⟩

/-- C7 on `TEST(Hand, SimpleWithTie)`: `[1]|[1]` becomes `[]|[]`. -/
theorem Game.Step_tie_chain_exhausts_witness :
    (tieDealt.Inv ∧ tieDealt.num_ties_ = 0 ∧ tieDealt.l_.toList = [1] ++ [] ∧
      tieDealt.r_.toList = [1] ++ []) ∧
    ∃ g', tieDealt.Step Strategy.kOptimized = Except.ok (true, g') ∧ g'.l_.toList = [] ∧
      g'.r_.toList = [] ∧ g'.num_ties_ = 0 :=
  ⟨⟨tieDealt_inv, rfl, rfl, rfl⟩,
    Game.Step_tie_chain_exhausts tieDealt Strategy.kOptimized [1] [] [] tieDealt_inv rfl rfl rfl
      (by decide) (Or.inl rfl)⟩

/-- C8 on `TEST(Hand, SimpleWithTieThen)`. -/
theorem Game.Step_returns_terminal_flag_witness :
    (tieThenDealt.Inv ∧ tieThenDealt.num_ties_ = 0 ∧ tieThenDealt.done = false) ∧
    ∃ b g', tieThenDealt.Step Strategy.kOptimized = Except.ok (b, g') ∧
      (b = true ↔ (g'.l_.empty = true ∨ g'.r_.empty = true)) ∧
      (b = true ↔ (g'.l_.toList = [] ∨ g'.r_.toList = [])) ∧
      g'.num_ties_ = 0 ∧ g'.Inv :=
  ⟨⟨tieThenDealt_inv, rfl, rfl⟩,
    Game.Step_returns_terminal_flag tieThenDealt Strategy.kOptimized tieThenDealt_inv rfl rfl⟩

/-- C9 on the game `TEST(Hand, SimpleWithTieThen)` ends with, dealt again. -/
theorem Game.Deal_splits_witness :
    (tieThenFinal.l_.buffer_size = tieThenFinal.deck_.num_cards + 1 ∧
      tieThenFinal.r_.buffer_size = tieThenFinal.deck_.num_cards + 1 ∧
      [1, 3, 3, 1, 2, 2].length = tieThenFinal.deck_.num_cards) ∧
    ∃ g', tieThenFinal.Deal [1, 3, 3, 1, 2, 2] = Except.ok g' ∧
      g'.l_.toList = [1, 3, 3, 1, 2, 2].take ([1, 3, 3, 1, 2, 2].length / 2) ∧
      g'.r_.toList = [1, 3, 3, 1, 2, 2].drop ([1, 3, 3, 1, 2, 2].length / 2) ∧
      g'.l_.toList.length = [1, 3, 3, 1, 2, 2].length / 2 ∧
      g'.r_.toList.length = ([1, 3, 3, 1, 2, 2].length + 1) / 2 ∧
      g'.l_.toList ++ g'.r_.toList = [1, 3, 3, 1, 2, 2] :=
  ⟨⟨rfl, rfl, rfl⟩, Game.Deal_splits tieThenFinal [1, 3, 3, 1, 2, 2] rfl rfl rfl⟩

/-- C10 on the deck of `TEST(DeckTest, Make)`. -/
theorem Deck.Make_spec_witness :
    (Deck.mk 2 3).values ≤ 255 ∧ (Deck.mk 2 3).Make = [1, 1, 2, 2, 3, 3] ∧
    ((Deck.mk 2 3).Make.length = (Deck.mk 2 3).colors * (Deck.mk 2 3).values ∧
      (Deck.mk 2 3).Make.Sorted (· ≤ ·) ∧
      (∀ c : Nat, c ∈ (Deck.mk 2 3).Make → 1 ≤ c ∧ c ≤ (Deck.mk 2 3).values) ∧
      ∀ v, 1 ≤ v → v ≤ (Deck.mk 2 3).values → (Deck.mk 2 3).Make.count v = (Deck.mk 2 3).colors) :=
  ⟨by decide, rfl, Deck.Make_spec (Deck.mk 2 3) (by decide)⟩

/-- C11 on the copy of `TEST(Hand, CopyEquality)`, whose cursors are at 2 and 4 of 5
slots: two more pushes wrap `end_` around, and four pops return `[1, 2, 3, 4]`. -/
theorem Hand.fifo_across_wrap_witness :
    (copyRepushed.WF ∧ copyRepushed.buffer_size = 4 + 1 ∧
      copyRepushed.toList.length + [3, 4].length ≤ 4 ∧ copyRepushed.toList = [1, 2] ∧
      (copyRepushed.PushList [3, 4]).end_ = 1) ∧
    ∃ h', Hand.PopN (copyRepushed.toList.length + [3, 4].length)
        (copyRepushed.PushList [3, 4]) = Except.ok (copyRepushed.toList ++ [3, 4], h') ∧
      h'.empty = true ∧ h'.toList = [] :=
  ⟨⟨⟨by decide, by decide⟩, rfl, by decide, rfl, rfl⟩,
    Hand.fifo_across_wrap copyRepushed 4 [3, 4] ⟨by decide, by decide⟩ rfl (by decide)⟩

/-- C12 on `TEST(Hand, CopyEquality)`: the copy that was popped twice and pushed 1 and
2 again has its cursors elsewhere and compares equal to the original. -/
theorem Hand.eq_iff_same_sequence_witness :
    ((do
        let (_, c) ← copyOriginal.copy.Pop
        let (_, c) ← c.Pop
        pure ((c.Push 1).Push 2)) = Except.ok copyRepushed ∧
      copyOriginal.WF ∧ copyRepushed.WF ∧
      copyOriginal.buffer_size = copyRepushed.buffer_size ∧
      copyOriginal.start_ ≠ copyRepushed.start_) ∧
    (Hand.eq copyOriginal copyRepushed =
        Except.ok (decide (copyOriginal.toList = copyRepushed.toList)) ∧
      (Hand.eq copyOriginal copyRepushed = Except.ok true ↔
        copyOriginal.toList = copyRepushed.toList)) :=
  ⟨⟨rfl, ⟨by decide, by decide⟩, ⟨by decide, by decide⟩, rfl, by decide⟩,
    Hand.eq_iff_same_sequence copyOriginal copyRepushed ⟨by decide, by decide⟩
      ⟨by decide, by decide⟩ rfl⟩

/-- C13 on an empty hand of capacity 8 with `hi = 3`, `lo = 1` and the ties
`[2, 4, 3]`: the hand becomes `[4, 4, 3, 3, 3, 2, 2, 1]`. -/
theorem Hand.PushAll_optimized_order_witness :
    ((Hand.new 8).WF ∧ (1 : Card) < 3 ∧
      (Hand.new 8).toList.length + 2 + 2 * [2, 4, 3].length < (Hand.new 8).buffer_size ∧
      (∃ h' span, (Hand.new 8).PushAll 3 1 [2, 4, 3] Strategy.kOptimized =
          Except.ok (h', span) ∧ h'.toList = [4, 4, 3, 3, 3, 2, 2, 1])) ∧
    ∃ (h' : Hand) (span A B C : List Card),
      (Hand.new 8).PushAll 3 1 [2, 4, 3] Strategy.kOptimized = Except.ok (h', span) ∧
      h'.toList = (Hand.new 8).toList ++ (dup A ++ 3 :: (dup B ++ 1 :: dup C)) ∧
      (A ++ (B ++ C)).Perm [2, 4, 3] ∧ (A ++ (B ++ C)).Pairwise (fun a b : Nat => b ≤ a) ∧
      (∀ a : Nat, a ∈ A → 3 < a) ∧ (∀ b : Nat, b ∈ B → 1 < b ∧ b ≤ 3) ∧
      (∀ c : Nat, c ∈ C → c ≤ 1) ∧
      (dup A ++ 3 :: (dup B ++ 1 :: dup C)).Pairwise (fun a b : Nat => b ≤ a) ∧
      (dup A ++ 3 :: (dup B ++ 1 :: dup C)).Perm
        (3 :: 1 :: [2, 4, 3].flatMap (fun t => [t, t])) :=
  ⟨⟨⟨by decide, by decide⟩, by decide, by decide, ⟨_, _, rfl, rfl⟩⟩,
    Hand.PushAll_optimized_order (Hand.new 8) 3 1 [2, 4, 3] ⟨by decide, by decide⟩
      (by decide) (by decide)⟩

/-- The history of the arena of `TEST(Hand, LoopC1V5)`. -/
theorem loopArena_played :
    GameArena.Played (Deck.Seq 5)
      [([5, 3, 2, 4, 1], { winner := Winner.kCycle, num_steps := 6 })] loopArena :=
  GameArena.Played.play [] (GameArena.new (Deck.Seq 5)) 6 [5, 3, 2, 4, 1] Strategy.kNatural
    { result := { winner := Winner.kCycle, num_steps := 6 }, arena := loopArena,
      fast_steps := 11 }
    GameArena.Played.fresh rfl

/-- C14 on the arena of `TEST(Hand, LoopC1V5)`: one play, one cycle, of length 6. -/
theorem GameArena.Stats_fold_of_results_witness :
    GameArena.Played (Deck.Seq 5)
      [([5, 3, 2, 4, 1], { winner := Winner.kCycle, num_steps := 6 })] loopArena ∧
    (loopArena.stats_.num_played = 1 ∧ loopArena.stats_.num_played_with_cycle = 1 ∧
      loopArena.stats_.shortest_with_cycle_len = 6 ∧
      loopArena.stats_.shortest_with_cycle.position = ([5, 3], [2, 4, 1])) ∧
    (loopArena.stats_.shortest_with_cycle_len < 2 ^ 32 - 1 → ∃ cards r,
      [([5, 3, 2, 4, 1], ({ winner := Winner.kCycle, num_steps := 6 } : Result))].find?
        (fun p => p.2.winner == Winner.kCycle &&
          p.2.num_steps == loopArena.stats_.shortest_with_cycle_len) = some (cards, r) ∧
      loopArena.stats_.shortest_with_cycle.position = dealt cards) :=
  ⟨loopArena_played, ⟨rfl, rfl, rfl, rfl⟩,
    (GameArena.Stats_fold_of_results (Deck.Seq 5)
      [([5, 3, 2, 4, 1], { winner := Winner.kCycle, num_steps := 6 })] loopArena
      loopArena_played).2.2.2.2.2.2.2.1⟩

/-- C15 on `TEST(Hand, SimpleSeq2a)` and `TEST(Hand, SimpleSeq2b)`. -/
theorem GameArena.Play_swap_players_witness :
    ([1].length = [2].length ∧
      Except.map PlayOut.result ((GameArena.new (Deck.Seq 2)).Play 1 ([1] ++ [2])
        Strategy.kNatural) = Except.ok { winner := Winner.kRight, num_steps := 1 }) ∧
    Except.map PlayOut.result ((GameArena.new (Deck.Seq 2)).Play 1 ([2] ++ [1])
        Strategy.kNatural) =
      Except.map Result.mirror (Except.map PlayOut.result
        ((GameArena.new (Deck.Seq 2)).Play 1 ([1] ++ [2]) Strategy.kNatural)) :=
  ⟨⟨rfl, rfl⟩, GameArena.Play_swap_players (Deck.Seq 2) (GameArena.new (Deck.Seq 2))
    (GameArena.new (Deck.Seq 2)) 1 Strategy.kNatural [1] [2] GameArena.Reachable.fresh
    GameArena.Reachable.fresh rfl⟩

/-- C16 on the last game of `TEST(Hand, SimpleWithTieThen)`: only the right hand is
empty, Left wins. -/
theorem Game.GetWinner_of_terminal_witness :
    (tieThenFinal.l_.empty = false ∧ tieThenFinal.r_.empty = true ∧
      tieThenFinal.GetWinner = Winner.kLeft) ∧
    ((tieThenFinal.l_.empty = true → tieThenFinal.r_.empty = true →
        tieThenFinal.GetWinner = Winner.kDraw) ∧
      (tieThenFinal.l_.empty = true → tieThenFinal.r_.empty = false →
        tieThenFinal.GetWinner = Winner.kRight) ∧
      (tieThenFinal.l_.empty = false → tieThenFinal.r_.empty = true →
        tieThenFinal.GetWinner = Winner.kLeft) ∧
      tieThenFinal.GetWinner ≠ Winner.kCycle ∧
      (tieThenFinal.GetWinner = Winner.kDraw ∨ tieThenFinal.GetWinner = Winner.kRight ∨
        tieThenFinal.GetWinner = Winner.kLeft)) :=
  ⟨⟨rfl, rfl, rfl⟩, Game.GetWinner_of_terminal tieThenFinal (Or.inr rfl)⟩

/-- C20 on `TEST(Hand, SimpleWithTieThen)`, a deal of a deck of 2 colors, at the game
the deal sets up: its hands are `[1, 3, 3]` and `[1, 2, 2]`, so its Step ties on the
value 1 and then calls `PushAll` with the deciding cards 3 and 2 and the tie buffer
`[1]`, and the tied value 1 is neither 3 nor 2. -/
theorem Game.ties_distinct_of_two_colors_witness :
    ((Deck.mk 2 3).colors ≤ 2 ∧ (Deck.mk 2 3).values ≤ 255 ∧
      [1, 3, 3, 1, 2, 2].Perm (Deck.mk 2 3).Make ∧
      (Game.new (Deck.mk 2 3)).Deal [1, 3, 3, 1, 2, 2] = Except.ok tieThenDealt ∧
      tieThenDealt.StepN Strategy.kNatural 0 = Except.ok tieThenDealt) ∧
    tieThenDealt.TiesDistinct ∧
    (tieThenDealt.l_.toList = [1] ++ 3 :: [3] ∧ tieThenDealt.r_.toList = [1] ++ 2 :: [2] ∧
      (3 : Card) ≠ 2 ∧ (1 : Nat) ∈ [1]) :=
  ⟨⟨by decide, by decide, by decide, rfl, rfl⟩,
    Game.ties_distinct_of_two_colors (Deck.mk 2 3) Strategy.kNatural [1, 3, 3, 1, 2, 2]
      tieThenDealt tieThenDealt 0 (by decide) (by decide) (by decide) rfl rfl,
    by decide, by decide, by decide, by decide⟩

/-- C21 on the tests: the first Step of `TEST(Hand, SimpleWithTieThen)` ends with a
deciding pair and keeps the six cards; the Step of `TEST(Hand, SimpleWithTie)` exhausts
the tie chain, is terminal and loses the two cards; the game after one Step of the
former holds the cards dealt. -/
theorem Game.cards_conserved_witness :
    ((tieThenDealt.Inv ∧ tieThenDealt.num_ties_ = 0 ∧
        tieThenDealt.l_.toList = [1] ++ 3 :: [3] ∧ tieThenDealt.r_.toList = [1] ++ 2 :: [2] ∧
        (3 : Card) ≠ 2) ∧
      ∃ t g', tieThenDealt.Step Strategy.kOptimized = Except.ok (t, g') ∧
        (g'.l_.toList ++ g'.r_.toList).Perm
          (tieThenDealt.l_.toList ++ tieThenDealt.r_.toList) ∧
        ((2 : Card) < 3 →
          g'.l_.toList.length = tieThenDealt.l_.toList.length + (1 + [1].length) ∧
          g'.r_.toList.length + (1 + [1].length) = tieThenDealt.r_.toList.length) ∧
        ((3 : Card) < 2 →
          g'.r_.toList.length = tieThenDealt.r_.toList.length + (1 + [1].length) ∧
          g'.l_.toList.length + (1 + [1].length) = tieThenDealt.l_.toList.length)) ∧
    ((tieDealt.Inv ∧ tieDealt.num_ties_ = 0 ∧
        tieDealt.Step Strategy.kOptimized = Except.ok (true, tieFinal)) ∧
      ((tieFinal.l_.toList ++ tieFinal.r_.toList).Perm
          (tieDealt.l_.toList ++ tieDealt.r_.toList) ∨
        (true = true ∧ ∃ ts L R : List Card, ts ≠ [] ∧ tieDealt.l_.toList = ts ++ L ∧
          tieDealt.r_.toList = ts ++ R ∧ (L = [] ∨ R = []) ∧ tieFinal.l_.toList = L ∧
          tieFinal.r_.toList = R))) ∧
    (((Game.new (Deck.mk 2 3)).Deal [1, 3, 3, 1, 2, 2] = Except.ok tieThenDealt ∧
        tieThenDealt.StepN Strategy.kOptimized 1 = Except.ok tieThenMid ∧
        tieThenMid.done = false) ∧
      ((tieThenMid.l_.toList ++ tieThenMid.r_.toList).Perm [1, 3, 3, 1, 2, 2] ∧
        tieThenMid.l_.toList.length + tieThenMid.r_.toList.length =
          (Deck.mk 2 3).num_cards)) :=
  ⟨⟨⟨tieThenDealt_inv, rfl, rfl, rfl, by decide⟩,
      (Game.cards_conserved Strategy.kOptimized).1 tieThenDealt [1] [3] [2] 3 2
        tieThenDealt_inv rfl rfl rfl (by decide)⟩,
    ⟨⟨tieDealt_inv, rfl, rfl⟩,
      (Game.cards_conserved Strategy.kOptimized).2.1 tieDealt tieFinal true tieDealt_inv rfl
        rfl⟩,
    ⟨⟨rfl, rfl, rfl⟩,
      (Game.cards_conserved Strategy.kOptimized).2.2 (Deck.mk 2 3) [1, 3, 3, 1, 2, 2]
        tieThenDealt tieThenMid 1 rfl rfl rfl⟩⟩

end bataille
